import Mathlib

/-!
# Verification of `uptree.py` (srid/uptree)

A shallow embedding of the single-module program `uptree.py`, an incremental
filesystem-tree cache, together with theorems settling the frozen claims
about its specification.

Modelling conventions:
* Python path strings are modelled as `List Char` (`PathStr`), so that the
  string-level operations of `os.path` (`startswith`, `join`, `normpath`,
  `dirname`, `basename`, `abspath(p + "/..")`) can be embedded faithfully,
  character by character, including their purely lexical behaviour.
* The filesystem lives in an inductive tree of directories and files
  (`FSNode`/`FSList`); kernel path resolution is modelled as lookup of the
  `normpath`-normalised component list.
* `pickle` bytes written by `_PersistentDict.sync` are modelled as the
  pickled value itself (`FData.pickle`): pickling of `dict`/`set`/`str`/
  numbers is lossless, and only this program writes those files.
* Modification times (`os.path.getmtime`, float seconds) are modelled as
  `Int`; they are only ever copied and compared, never computed with.
-/

/-- A single path component / filename (a Python string). -/
abbrev Name := List Char

/-- A Python path string, as its character list. -/
abbrev PathStr := List Char

/-- `os.path.isabs`: the string starts with `'/'` (POSIX). -/
def isabs (p : PathStr) : Bool :=
  match p with
  | '/' :: _ => true
  | _ => false

/-- `str.split('/')`: split on `'/'`, keeping empty pieces
(`"".split('/') == ['']`, `"/a".split('/') == ['', 'a']`). -/
def splitAll : PathStr → List Name
  | [] => [[]]
  | '/' :: rest => [] :: splitAll rest
  | c :: rest =>
    match splitAll rest with
    | a :: as => (c :: a) :: as
    | [] => [[c]]

/-- `'/'.join(comps)`. -/
def joinComps : List Name → PathStr
  | [] => []
  | [n] => n
  | n :: rest => n ++ '/' :: joinComps rest

/-- The canonical absolute path with the given components:
`"/" + "/".join l`. -/
def mkAbs (l : List Name) : PathStr :=
  '/' :: joinComps l

/-- The component-normalisation loop of `posixpath.normpath`: drop `''` and
`'.'`, and let `'..'` pop the previous component (for a path with leading
slashes a `'..'` at the start is dropped). -/
def normComps (initialSlashes : Bool) (comps : List Name) : List Name :=
  comps.foldl
    (fun acc comp =>
      if comp = [] ∨ comp = ['.'] then acc
      else if comp ≠ ['.', '.'] ∨ (¬ initialSlashes ∧ acc = [])
          ∨ (acc ≠ [] ∧ acc.getLast? = some ['.', '.']) then acc ++ [comp]
      else acc.dropLast)
    []

/-- The number of leading slashes `posixpath.normpath` preserves (POSIX
treats a path that starts with exactly two slashes specially). -/
def initialSlashCount (p : PathStr) : Nat :=
  if p.take 1 = ['/'] then
    (if p.take 2 = ['/', '/'] ∧ p.take 3 ≠ ['/', '/', '/'] then 2 else 1)
  else 0

/-- `posixpath.normpath` (Python 3). -/
def normpath (p : PathStr) : PathStr :=
  if p = [] then ['.']
  else
    let k := initialSlashCount p
    let q := List.replicate k '/' ++ joinComps (normComps (k != 0) (splitAll p))
    if q = [] then ['.'] else q

/-- `posixpath.join a b` restricted to two arguments: if `b` is absolute it
wins; otherwise insert a `'/'` unless `a` is empty or already ends in one. -/
def pjoin (a b : PathStr) : PathStr :=
  if isabs b then b
  else if a = [] ∨ a.getLast? = some '/' then a ++ b
  else a ++ '/' :: b

/-- `posixpath.dirname`: the part before the last `'/'`, with trailing
slashes stripped unless the result consists only of slashes. -/
def dirname (p : PathStr) : PathStr :=
  let head := (p.reverse.dropWhile (fun c => c ≠ '/')).reverse
  if head = [] then []
  else if head.all (fun c => c = '/') then head
  else (head.reverse.dropWhile (fun c => c = '/')).reverse

/-- `posixpath.basename`: the part after the last `'/'`. -/
def basename (p : PathStr) : PathStr :=
  p.foldl (fun acc c => if c = '/' then [] else acc ++ [c]) []

/-- `uptree.parentdir p = P.abspath(P.join(p, os.pardir))`.  All call sites
pass an absolute `p` (guarded by `assert P.isabs`), on which
`P.abspath q = P.normpath q`, so the working directory is irrelevant. -/
def parentdir (p : PathStr) : PathStr :=
  normpath (pjoin p ['.', '.'])

/-- Kernel-style resolution of a path into its directory components
(resolution of `.`/`..` is modelled lexically via `normpath`). -/
def pathComps (p : PathStr) : List Name :=
  (splitAll (normpath p)).filter (fun n => n ≠ [])

/-- A well-formed filesystem entry name: nonempty, no separator, and not
one of the special names `.`/`..` (which `os.listdir` never returns and
which cannot be created as entries). -/
def goodName (n : Name) : Prop :=
  n ≠ [] ∧ '/' ∉ n ∧ n ≠ ['.'] ∧ n ≠ ['.', '.']

instance (n : Name) : Decidable (goodName n) := by
  unfold goodName; infer_instance

/-- A name is hidden when it starts with the reserved prefix `'.'`
(`c.startswith('.')` in `_ls`). -/
def hiddenName (n : Name) : Bool :=
  match n with
  | '.' :: _ => true
  | _ => false

def goodNames (l : List Name) : Prop := ∀ n ∈ l, goodName n

instance (l : List Name) : Decidable (goodNames l) := by
  unfold goodNames; infer_instance

/-! ## Data model: CacheStore, filesystem tree -/

/-- `_UpTreeCache` / CacheStore: the three containers of the persisted
per-directory dict — `files` (a Python `set` of absolute path strings),
`data` (dict path → file content) and `mtime` (dict path → modification
time).  Python sets/dicts are modelled as lists without/with values;
all operations below preserve key-uniqueness and the claims only ever
compare them by membership/lookup. -/
structure Cache where
  files : List PathStr
  data : List (PathStr × String)
  mtime : List (PathStr × Int)
deriving Repr, DecidableEq

/-- Contents of a file on disk: ordinary text, or the `pickle` serialisation
of a cache dict (the bytes `pickle.dump` writes are modelled by the pickled
value itself; pickling of `dict`/`set`/`str`/numbers is lossless). -/
inductive FData where
  | text (s : String)
  | pickle (c : Cache)
deriving Repr, DecidableEq

mutual
inductive FSNode where
  | file (d : FData) (mt : Int) : FSNode
  | dir (cs : FSList) : FSNode
deriving Repr
inductive FSList where
  | nil : FSList
  | cons (n : Name) (t : FSNode) (rest : FSList) : FSList
deriving Repr
end

/-- Lookup of a directory entry by name (directory entries of a real
filesystem have unique names, which `NodeWF` below captures). -/
def FSList.find? : FSList → Name → Option FSNode
  | .nil, _ => none
  | .cons m t rest, n => if m = n then some t else FSList.find? rest n

/-- Create-or-replace a directory entry. -/
def FSList.setEntry : FSList → Name → FSNode → FSList
  | .nil, n, t => .cons n t .nil
  | .cons m u rest, n, t =>
    if m = n then .cons m t rest else .cons m u (FSList.setEntry rest n t)

/-- Remove a directory entry. -/
def FSList.erase : FSList → Name → FSList
  | .nil, _ => .nil
  | .cons m u rest, n => if m = n then rest else .cons m u (FSList.erase rest n)

/-- The entry names of a directory, in listing order (`os.listdir`). -/
def FSList.names : FSList → List Name
  | .nil => []
  | .cons m _ rest => m :: FSList.names rest

/-- Resolve a component list from a node. -/
def getNode : FSNode → List Name → Option FSNode
  | t, [] => some t
  | .file _ _, _ :: _ => none
  | .dir cs, n :: rest =>
    match cs.find? n with
    | some c => getNode c rest
    | none => none

/-- Replace the node at a component path (identity when the path is absent). -/
def setNodeAt : FSNode → List Name → FSNode → FSNode
  | _, [], new => new
  | .dir cs, n :: rest, new =>
    match cs.find? n with
    | some c => .dir (cs.setEntry n (setNodeAt c rest new))
    | none => .dir cs
  | .file d mt, _ :: _, _ => .file d mt

/-- `open(path, 'w')`-style write of a whole file below directory `q`:
fails when `q` does not resolve to a directory or when the target entry is
a directory (`IsADirectoryError`). -/
def writeAt : FSNode → List Name → Name → FData → Int → Option FSNode
  | .dir cs, [], fname, d, mt =>
    (match cs.find? fname with
     | some (.dir _) => none
     | _ => some (.dir (cs.setEntry fname (.file d mt))))
  | .dir cs, n :: rest, fname, d, mt =>
    (match cs.find? n with
     | some c => (writeAt c rest fname d mt).map (fun c2 => .dir (cs.setEntry n c2))
     | none => none)
  | .file _ _, _, _, _, _ => none

/-- `os.remove`: deletes a file entry, fails on directories and missing
paths. -/
def removeFileAt : FSNode → List Name → Name → Option FSNode
  | .dir cs, [], fname =>
    (match cs.find? fname with
     | some (.file _ _) => some (.dir (cs.erase fname))
     | _ => none)
  | .dir cs, n :: rest, fname =>
    (match cs.find? n with
     | some c => (removeFileAt c rest fname).map (fun c2 => .dir (cs.setEntry n c2))
     | none => none)
  | .file _ _, _, _ => none

/-- `os.makedirs`: create every missing directory on the way (no-op inside
existing directories, failure when a file is in the way). -/
def makedirsAt : FSNode → List Name → Option FSNode
  | t, [] => some t
  | .dir cs, n :: rest =>
    (match cs.find? n with
     | some c => (makedirsAt c rest).map (fun c2 => .dir (cs.setEntry n c2))
     | none => (makedirsAt (.dir .nil) rest).map (fun c2 => .dir (cs.setEntry n c2)))
  | .file _ _, _ :: _ => none

/-- Resolve a path string against the filesystem root node. -/
def fsGet (fs : FSNode) (p : PathStr) : Option FSNode :=
  getNode fs (pathComps p)

/-- `os.path.isfile`. -/
def isfileP (fs : FSNode) (p : PathStr) : Bool :=
  match fsGet fs p with
  | some (.file _ _) => true
  | _ => false

/-- `os.path.isdir`. -/
def isdirP (fs : FSNode) (p : PathStr) : Bool :=
  match fsGet fs p with
  | some (.dir _) => true
  | _ => false

/-- Write a file at an arbitrary path string. -/
def fsWriteP (fs : FSNode) (p : PathStr) (d : FData) (mt : Int) : Option FSNode :=
  match (pathComps p).getLast? with
  | none => none
  | some fname => writeAt fs (pathComps p).dropLast fname d mt

/-- `'.dirty'`. -/
def dirtyName : Name := ['.', 'd', 'i', 'r', 't', 'y']

/-- `'.uptree-cache'`. -/
def cacheName : Name := ['.', 'u', 'p', 't', 'r', 'e', 'e', '-', 'c', 'a', 'c', 'h', 'e']

/-- `P.exists(dir + '/.dirty')` relative to a directory node given by its
component path. -/
def hasDirtyAt (fs : FSNode) (q : List Name) : Bool :=
  (getNode fs (q ++ [dirtyName])).isSome

/-! ## UpTree.mark_dirty -/

inductive MDErr where
  /-- `assert P.isabs(dir)` fails. -/
  | assertFail
  /-- `ValueError("the directory <...> does not belong to <...>")`. -/
  | valueError
  /-- `open(dirty_file, 'w')` fails (missing directory, or `.dirty` is a
  directory). -/
  | ioError
  /-- Modelling artefact only: recursion fuel ran out.  `markDirty` always
  supplies enough fuel for the recursion of the source, which strictly
  shortens the (normalised) path at each step. -/
  | fuelOut
deriving Repr, DecidableEq

/-- `UpTree.mark_dirty`, parametrised by recursion fuel.  Returns the
mutated filesystem together with the return value or the raised exception;
the filesystem mutations performed before a raise are kept, exactly as in
Python.  The `.dirty` file's content is an informational timestamp string
in the source; only its existence is ever read, so it is written here as
empty text with mtime 0. -/
def markDirtyF : Nat → PathStr → FSNode → PathStr → FSNode × Except MDErr Nat
  | 0, _, fs, _ => (fs, .error .fuelOut)
  | fuel + 1, root, fs, dir0 =>
    if isabs dir0 = false then (fs, .error .assertFail)
    else if root.isPrefixOf dir0 = false then (fs, .error .valueError)
    else
      -- if P.isfile(dir): dir = P.dirname(dir)
      let dir := if isfileP fs dir0 then dirname dir0 else dir0
      match fsWriteP fs (pjoin dir dirtyName) (.text "") 0 with
      | none => (fs, .error .ioError)
      | some fs2 =>
        if normpath dir ≠ root then
          match markDirtyF fuel root fs2 (parentdir dir) with
          | (fs3, .ok k) => (fs3, .ok (k + 1))
          | (fs3, .error e) => (fs3, .error e)
        else (fs2, .ok 0)

/-- `UpTree.mark_dirty(dir)` for an `UpTree` rooted at `root`.  The fuel
`dir.length + 2` dominates the recursion depth: every recursive call passes
`parentdir`, which strictly drops one normalised component, and the
component count of a path is below its string length. -/
def markDirty (root : PathStr) (fs : FSNode) (dir : PathStr) :
    FSNode × Except MDErr Nat :=
  markDirtyF (dir.length + 2) root fs dir

/-! ## CacheStore operations -/

/-- `set.add`. -/
def setAdd (s : List PathStr) (x : PathStr) : List PathStr :=
  if x ∈ s then s else s ++ [x]

/-- `set.update` (union-into, as used by `add_sub_cache`). -/
def setUnion (s t : List PathStr) : List PathStr :=
  t.foldl setAdd s

/-- `d[k] = v`: replace in place, or append a fresh binding. -/
def dictInsert {α : Type} (d : List (PathStr × α)) (k : PathStr) (v : α) :
    List (PathStr × α) :=
  if (d.lookup k).isSome then
    d.map (fun kv => if kv.1 = k then (k, v) else kv)
  else d ++ [(k, v)]

/-- `dict.update`. -/
def dictUpdate {α : Type} (d e : List (PathStr × α)) : List (PathStr × α) :=
  e.foldl (fun acc kv => dictInsert acc kv.1 kv.2) d

/-- `_UpTreeCache.clear` target state: the three empty containers. -/
def emptyCache : Cache := ⟨[], [], []⟩

/-- `_UpTreeCache.add_sub_cache`. -/
def Cache.addSubCache (c sub : Cache) : Cache :=
  ⟨setUnion c.files sub.files, dictUpdate c.data sub.data,
    dictUpdate c.mtime sub.mtime⟩

/-! ## UpTree.update -/

/-- The two allow-lists handed to `UpTree.__init__`
(`content_cache_filenames` / `mtime_cache_filenames`). -/
structure Cfg where
  contentNames : List Name
  mtimeNames : List Name
deriving Repr, DecidableEq

/-- The `counters` dict threaded through `update`. -/
structure Counters where
  directories_processed : Nat
  files_read : Nat
  files_stat : Nat
deriving Repr, DecidableEq

def ctrZero : Counters := ⟨0, 0, 0⟩

inductive UErr where
  /-- `pickle.load` raised (the cache file holds non-pickle text). -/
  | unpickle
  /-- `open()` on a directory (`IsADirectoryError`). -/
  | openDir
  /-- `os.listdir` on a non-directory. -/
  | listNonDir
  /-- reading a binary (pickled) file as text. -/
  | decodeText
  /-- `os.remove` on a directory. -/
  | removeDir
deriving Repr, DecidableEq

/-- Observable events of one `update` run: the successful `sync` of a
directory's cache file, and the removal of a directory's `.dirty` marker
(directories identified by their component path). -/
inductive Ev where
  | syncEv (q : List Name)
  | rmDirtyEv (q : List Name)
deriving Repr, DecidableEq

/-- Result of `update` on one directory: the directory's subtree after all
writes performed so far (kept also when an exception propagates), the event
trace, and the returned `(cache, counters)` or the raised exception. -/
structure URes where
  node : FSNode
  tr : List Ev
  res : Except UErr (Cache × Counters)

structure UCRes where
  cs : FSList
  tr : List Ev
  res : Except UErr (Cache × Counters)

/-- The fast-path condition of `update`:
`not force and not P.exists(j(r, '.dirty')) and P.exists(self._cache_file)`
(for a missing or non-directory root both `exists` checks are false). -/
def takesFastPath (force : Bool) (node : FSNode) : Bool :=
  force = false &&
    (match node with
     | .dir cs => (cs.find? dirtyName).isNone && (cs.find? cacheName).isSome
     | .file _ _ => false)

/-- The content-cache step for one regular file
(`if fp in self.content_cache_filenames: ... f.read()`); reading a pickled
binary file as text raises. -/
def fileStepContent (cfg : Cfg) (n : Name) (fp_abs : PathStr) (d : FData)
    (cache : Cache) (ctr : Counters) : Except UErr (Cache × Counters) :=
  if cfg.contentNames.contains n then
    match d with
    | .text s =>
      .ok ({ cache with data := dictInsert cache.data fp_abs s },
        { ctr with files_read := ctr.files_read + 1 })
    | .pickle _ => .error .decodeText
  else .ok (cache, ctr)

/-- The mtime-cache step for one regular file
(`if fp in self.mtime_cache_filenames: ... P.getmtime(fp_abs)`). -/
def fileStepMtime (cfg : Cfg) (n : Name) (fp_abs : PathStr) (mt : Int)
    (cache : Cache) (ctr : Counters) : Cache × Counters :=
  if cfg.mtimeNames.contains n then
    ({ cache with mtime := dictInsert cache.mtime fp_abs mt },
     { ctr with files_stat := ctr.files_stat + 1 })
  else (cache, ctr)

mutual
/-- `UpTree.update(force, counters)` on the directory whose node is `node`,
whose path string is `cur` and whose component path is `qc` (`qc` is proof
instrumentation: it only feeds the event trace).  This is `update` for an
instance with no in-memory `self.cache` — which is every transient child
instance and every fresh top-level instance; `upUpdate` below adds the
memoised case.  On the rebuild path `_load_cache(reset=True)` ignores the
disk and `self.cache.clear()` makes the three containers empty. -/
def updateNode (cfg : Cfg) (force : Bool) (cur : PathStr) (qc : List Name)
    (node : FSNode) (ctr : Counters) : URes :=
  match node with
  | .file d mt => ⟨.file d mt, [], .error .listNonDir⟩
  | .dir cs =>
    if takesFastPath force (.dir cs) then
      -- fast path: self._load_cache() unpickles the existing cache file
      (match cs.find? cacheName with
       | some (.file (.pickle c) _) => ⟨.dir cs, [], .ok (c, ctr)⟩
       | some (.file (.text _) _) => ⟨.dir cs, [], .error .unpickle⟩
       | some (.dir _) => ⟨.dir cs, [], .error .openDir⟩
       | none => ⟨.dir cs, [], .error .unpickle⟩)
    else
      (match updateChildren cfg force cur qc cs emptyCache ctr with
       | ⟨cs2, tr, .error e⟩ => ⟨.dir cs2, tr, .error e⟩
       | ⟨cs2, tr, .ok (cache, ctr2)⟩ =>
         -- self.cache.sync(): pickle the cache into this directory's file
         (match cs2.find? cacheName with
          | some (.dir _) => ⟨.dir cs2, tr, .error .openDir⟩
          | _ =>
            let cs3 := cs2.setEntry cacheName (.file (.pickle cache) 0)
            -- if P.exists(j(r, '.dirty')): os.remove(j(r, '.dirty'))
            (match cs3.find? dirtyName with
             | some (.dir _) => ⟨.dir cs3, tr ++ [.syncEv qc], .error .removeDir⟩
             | some (.file _ _) =>
               ⟨.dir (cs3.erase dirtyName), tr ++ [.syncEv qc, .rmDirtyEv qc],
                 .ok (cache, { ctr2 with
                   directories_processed := ctr2.directories_processed + 1 })⟩
             | none =>
               ⟨.dir cs3, tr ++ [.syncEv qc],
                 .ok (cache, { ctr2 with
                   directories_processed := ctr2.directories_processed + 1 })⟩)))

/-- The `for fp in _ls(r)` loop of `update`, processing the directory's
entries in listing order.  Hidden entries (leading `'.'`) are filtered out
by `_ls` and left untouched; real directories have unique entry names, so
iterating the entries directly coincides with iterating `_ls`'s name list
and looking each name up. -/
def updateChildren (cfg : Cfg) (force : Bool) (cur : PathStr) (qc : List Name)
    (cs : FSList) (cache : Cache) (ctr : Counters) : UCRes :=
  match cs with
  | .nil => ⟨.nil, [], .ok (cache, ctr)⟩
  | .cons n child rest =>
    if hiddenName n then
      (match updateChildren cfg force cur qc rest cache ctr with
       | ⟨rest2, tr, r⟩ => ⟨.cons n child rest2, tr, r⟩)
    else
      -- fp_abs = P.join(r, fp); self.cache['files'].add(fp_abs)
      let fp_abs := pjoin cur n
      let cache2 := { cache with files := setAdd cache.files fp_abs }
      (match child with
       | .dir ccs =>
         -- P.isdir: recurse into a transient child UpTree, then merge
         (match updateNode cfg force fp_abs (qc ++ [n]) (.dir ccs) ctr with
          | ⟨child2, trc, .error e⟩ => ⟨.cons n child2 rest, trc, .error e⟩
          | ⟨child2, trc, .ok (sub, ctr2)⟩ =>
            (match updateChildren cfg force cur qc rest
                (cache2.addSubCache sub) ctr2 with
             | ⟨rest2, tr2, r⟩ => ⟨.cons n child2 rest2, trc ++ tr2, r⟩))
       | .file d mt =>
         (match fileStepContent cfg n fp_abs d cache2 ctr with
          | .error e => ⟨.cons n (.file d mt) rest, [], .error e⟩
          | .ok (cache3, ctr3) =>
            (match fileStepMtime cfg n fp_abs mt cache3 ctr3 with
             | (cache4, ctr4) =>
               (match updateChildren cfg force cur qc rest cache4 ctr4 with
                | ⟨rest2, tr2, r⟩ => ⟨.cons n (.file d mt) rest2, tr2, r⟩))))
end

/-! ## The UpTree object and its public operations -/

/-- The state of an `UpTree` instance: normalised absolute root, the two
allow-lists, and the in-memory `self.cache` (absent until `_load_cache`
ran).  `__init__` computes `P.normpath(P.abspath(root))`; on the absolute
roots considered here `abspath` equals `normpath`. -/
structure UpSt where
  root : PathStr
  cfg : Cfg
  cache : Option Cache
deriving Repr, DecidableEq

def mkUpTree (root : PathStr) (cfg : Cfg) : UpSt :=
  ⟨normpath root, cfg, none⟩

/-- Top-level `UpTree.update(force)` with `counters=None`, against the
global filesystem `fs` (rooted at `/`).  When the fast-path condition holds
and `self.cache` is already in memory, `_load_cache()` is a no-op and the
in-memory cache is kept; otherwise the per-directory `updateNode` runs and
its subtree is grafted back. -/
def upUpdate (t : UpSt) (force : Bool) (fs : FSNode) :
    FSNode × List Ev × Except UErr (UpSt × Counters) :=
  match getNode fs (pathComps t.root) with
  | none => (fs, [], .error .listNonDir)
  | some node =>
    if takesFastPath force node ∧ t.cache.isSome then
      (fs, [], .ok (t, ctrZero))
    else
      let r := updateNode t.cfg force t.root (pathComps t.root) node ctrZero
      let fs2 := setNodeAt fs (pathComps t.root) r.node
      (match r.res with
       | .ok (c, ctr) => (fs2, r.tr, .ok ({ t with cache := some c }, ctr))
       | .error e => (fs2, r.tr, .error e))

inductive RErr where
  /-- `assert P.isabs(filepath)` fails. -/
  | assertFail
  /-- `self.cache` attribute missing: accessor used before `update`/load. -/
  | attrError
  /-- `IOError('not found in uptree cache (not in filesystem maybe)')`. -/
  | notFound
deriving Repr, DecidableEq

/-- `UpTree.open_and_read` (and the payload of `UpTree.open`). -/
def open_and_read (t : UpSt) (p : PathStr) : Except RErr String :=
  if isabs p = false then .error .assertFail
  else
    match t.cache with
    | none => .error .attrError
    | some c =>
      match c.data.lookup p with
      | some s => .ok s
      | none => .error .notFound

/-- `UpTree.getmtime`. -/
def getmtime (t : UpSt) (p : PathStr) : Except RErr Int :=
  if isabs p = false then .error .assertFail
  else
    match t.cache with
    | none => .error .attrError
    | some c =>
      match c.mtime.lookup p with
      | some mt => .ok mt
      | none => .error .notFound

/-- `UpTree.get_files`. -/
def get_files (t : UpSt) : Except RErr (List PathStr) :=
  match t.cache with
  | none => .error .attrError
  | some c => .ok c.files

/-- `UpTree.exists`. -/
def existsQ (t : UpSt) (p : PathStr) : Except RErr Bool :=
  if isabs p = false then .error .assertFail
  else
    match t.cache with
    | none => .error .attrError
    | some c => .ok (decide (p ∈ c.files))

/-! ## Stand-alone persistence (`_PersistentDict.sync` / `_load`) -/

/-- `_PersistentDict.sync` for the cache store of the directory at
component path `q`: ensure the directory exists (`os.makedirs`), then
pickle the dict `{files, data, mtime}` into the cache file. -/
def cacheSync (fs : FSNode) (q : List Name) (c : Cache) : Option FSNode :=
  match (if (getNode fs q).isSome then some fs else makedirsAt fs q) with
  | none => none
  | some fs2 => writeAt fs2 q cacheName (.pickle c) 0

/-- Constructing `_UpTreeCache(cache_file, reset=False)`: the dict starts
as `{files: set(), data: {}}` and `_load` then overwrites it wholesale with
the unpickled stored dict when the cache file exists.  (When no cache file
exists the real dict lacks a `mtime` key; that state is only ever observed
after `clear()`, so the empty container is observationally equal.) -/
def cacheLoad (fs : FSNode) (q : List Name) : Except UErr Cache :=
  match getNode fs (q ++ [cacheName]) with
  | none => .ok ⟨[], [], []⟩
  | some (.file (.pickle c) _) => .ok c
  | some (.file (.text _) _) => .error .unpickle
  | some (.dir _) => .error .openDir

/-! ## Auxiliary observations used by the theorems -/

/-- Whether a node is a directory. -/
def nodeIsDir : FSNode → Bool
  | .dir _ => true
  | .file _ _ => false

/-- The kind of the entry at a component path: `none` = absent,
`some true` = directory, `some false` = regular file. -/
def kindAt (fs : FSNode) (q : List Name) : Option Bool :=
  (getNode fs q).map nodeIsDir

/-- The scenario tree of the merge-correctness claim:
`root = /r` containing `x.txt` (content `cx`, mtime `m1`) and
`sub/y.txt` (content `cy`, mtime `m2`). -/
def c4Tree (cx cy : String) (m1 m2 : Int) : FSNode :=
  .dir (.cons ['r']
    (.dir (.cons ['x', '.', 't', 'x', 't'] (.file (.text cx) m1)
      (.cons ['s', 'u', 'b']
        (.dir (.cons ['y', '.', 't', 'x', 't'] (.file (.text cy) m2) .nil))
        .nil)))
    .nil)

/-- A root directory whose first listed entry `b` is a binary (pickled)
file in the content allow-list — reading it as text raises, aborting the
rebuild before any sync — while the later entry `s` carries a `.dirty`
marker. -/
def c10Tree : FSNode :=
  .dir (.cons ['b'] (.file (.pickle emptyCache) 0)
    (.cons ['s'] (.dir (.cons dirtyName (.file (.text "x") 0) .nil)) .nil))

def c10Cfg : Cfg := ⟨[['b']], []⟩

/-- The subdirectory `s` of `c10Tree`, still dirty after the aborted run. -/
def c10Sub : FSNode := .dir (.cons dirtyName (.file (.text "x") 0) .nil)


/-- The key-subset invariant of a CacheStore: every `data` key and every
`mtime` key is a member of `files`. -/
def CacheInv (c : Cache) : Prop :=
  (∀ k ∈ c.data.map Prod.fst, k ∈ c.files) ∧
  (∀ k ∈ c.mtime.map Prod.fst, k ∈ c.files)

/-- All members of `files` and all `data`/`mtime` keys of `c` lie strictly
under the directory with component path `qc` (with well-formed component
names) — true of every cache that a directory's own `update` writes. -/
def ScopedCache (qc : List Name) (c : Cache) : Prop :=
  ∀ k, (k ∈ c.files ∨ k ∈ c.data.map Prod.fst ∨ k ∈ c.mtime.map Prod.fst) →
    ∃ m, m ≠ [] ∧ goodNames m ∧ k = mkAbs (qc ++ m)

/-- No member of `files` and no `data`/`mtime` key names a hidden entry
(its basename starts with the reserved prefix `'.'`). -/
def CleanCache (c : Cache) : Prop :=
  ∀ k, (k ∈ c.files ∨ k ∈ c.data.map Prod.fst ∨ k ∈ c.mtime.map Prod.fst) →
    hiddenName (basename k) = false

/-- `.dirty` markers are only ever removed after the same directory's cache
file was successfully synced: whenever `rmDirtyEv q` occurs in the trace,
`syncEv q` occurs strictly before it. -/
def TraceOrder (tr : List Ev) : Prop :=
  ∀ q l₁ l₂, tr = l₁ ++ Ev.rmDirtyEv q :: l₂ → Ev.syncEv q ∈ l₁

mutual
/-- Every pickled `.uptree-cache` file in the visible part of the tree
(rooted at component path `qc`) satisfies `P` at its directory's path. -/
def NodeCachesP (P : List Name → Cache → Prop) (qc : List Name) : FSNode → Prop
  | .file _ _ => True
  | .dir cs =>
    (∀ c mt, cs.find? cacheName = some (.file (.pickle c) mt) → P qc c)
      ∧ ListCachesP P qc cs
def ListCachesP (P : List Name → Cache → Prop) (qc : List Name) : FSList → Prop
  | .nil => True
  | .cons n t rest =>
    (hiddenName n = false → NodeCachesP P (qc ++ [n]) t) ∧ ListCachesP P qc rest
end

mutual
/-- Well-formed directory tree: within each directory the entry names are
distinct and well-formed. -/
def NodeWF : FSNode → Prop
  | .file _ _ => True
  | .dir cs => cs.names.Nodup ∧ (∀ n ∈ cs.names, goodName n) ∧ ListWF cs
def ListWF : FSList → Prop
  | .nil => True
  | .cons _ t rest => NodeWF t ∧ ListWF rest
end


/-- Induction motive (per node) for the marker-discipline property of
`update`: the trace only removes markers after the same directory's sync,
and a marker whose directory was never synced survives in the resulting
tree. -/
def UNodeSafe (node : FSNode) : Prop :=
  ∀ (cfg : Cfg) (force : Bool) (cur : PathStr) (qc : List Name) (ctr : Counters),
    TraceOrder (updateNode cfg force cur qc node ctr).tr ∧
    (∀ q, hasDirtyAt node q = true →
      Ev.syncEv (qc ++ q) ∉ (updateNode cfg force cur qc node ctr).tr →
      hasDirtyAt (updateNode cfg force cur qc node ctr).node q = true)

/-- Induction motive (per children list) for the marker discipline. -/
def UListSafe (cs : FSList) : Prop :=
  ∀ (cfg : Cfg) (force : Bool) (cur : PathStr) (qc : List Name)
    (cache : Cache) (ctr : Counters),
    TraceOrder (updateChildren cfg force cur qc cs cache ctr).tr ∧
    (∀ q, hasDirtyAt (.dir cs) q = true →
      Ev.syncEv (qc ++ q) ∉ (updateChildren cfg force cur qc cs cache ctr).tr →
      hasDirtyAt (.dir (updateChildren cfg force cur qc cs cache ctr).cs) q = true)

instance (c : Cache) : Decidable (CacheInv c) := by
  unfold CacheInv
  infer_instance

/-- Induction motive (per node) for the key-subset invariant: a successful
`update` of the node returns a CacheStore whose `data`/`mtime` key sets are
contained in `files`, provided every cache file already on disk in the
node's subtree satisfies the invariant. -/
def UNodeInv (node : FSNode) : Prop :=
  ∀ (cfg : Cfg) (force : Bool) (cur : PathStr) (qc : List Name) (ctr : Counters)
    (cache : Cache) (ctr2 : Counters),
    NodeCachesP (fun _ c => CacheInv c) qc node →
    (updateNode cfg force cur qc node ctr).res = .ok (cache, ctr2) →
    CacheInv cache

/-- Induction motive (per children list) for the key-subset invariant. -/
def UListInv (cs : FSList) : Prop :=
  ∀ (cfg : Cfg) (force : Bool) (cur : PathStr) (qc : List Name)
    (cache : Cache) (ctr : Counters) (cache2 : Cache) (ctr2 : Counters),
    ListCachesP (fun _ c => CacheInv c) qc cs →
    CacheInv cache →
    (updateChildren cfg force cur qc cs cache ctr).res = .ok (cache2, ctr2) →
    CacheInv cache2

/-- Witness scenario for the key-subset invariant: a single allow-listed
file under the root. -/
def c5Tree : FSNode := .dir (.cons ['a'] (.file (.text "v") 3) .nil)

def c5Cfg : Cfg := ⟨[['a']], [['a']]⟩

/-- The CacheStore `update` produces for `c5Tree`. -/
def c5Cache : Cache :=
  ⟨[['/', 'a']], [(['/', 'a'], "v")], [(['/', 'a'], 3)]⟩

/-- A CacheStore satisfying the invariant, for the sync/load part of the
C5 witness. -/
def c5Pickled : Cache :=
  ⟨[['/', 'a']], [(['/', 'a'], "w")], [(['/', 'a'], 5)]⟩

/-- Pointwise predicate on all keys of a CacheStore (`files` members and
`data`/`mtime` keys); `CleanCache` and `ScopedCache` are instances. -/
def KeyPred (P : PathStr → Prop) (c : Cache) : Prop :=
  ∀ k, (k ∈ c.files ∨ k ∈ c.data.map Prod.fst ∨ k ∈ c.mtime.map Prod.fst) → P k

/-- Induction motive (per node) for hidden-entry exclusion: a successful
`update` of a well-formed node returns a CacheStore none of whose keys
names a hidden entry, provided the cache files already on disk do the
same. -/
def UNodeClean (node : FSNode) : Prop :=
  ∀ (cfg : Cfg) (force : Bool) (cur : PathStr) (qc : List Name) (ctr : Counters)
    (cache : Cache) (ctr2 : Counters),
    NodeWF node →
    NodeCachesP (fun _ c => CleanCache c) qc node →
    (updateNode cfg force cur qc node ctr).res = .ok (cache, ctr2) →
    CleanCache cache

/-- Induction motive (per children list) for hidden-entry exclusion. -/
def UListClean (cs : FSList) : Prop :=
  ∀ (cfg : Cfg) (force : Bool) (cur : PathStr) (qc : List Name)
    (cache : Cache) (ctr : Counters) (cache2 : Cache) (ctr2 : Counters),
    (∀ n ∈ cs.names, goodName n) →
    ListWF cs →
    ListCachesP (fun _ c => CleanCache c) qc cs →
    CleanCache cache →
    (updateChildren cfg force cur qc cs cache ctr).res = .ok (cache2, ctr2) →
    CleanCache cache2

/-- Witness scenario for hidden-entry exclusion: a hidden file next to an
allow-listed visible one. -/
def c9Tree : FSNode :=
  .dir (.cons ['.', 'h'] (.file (.text "secret") 0)
    (.cons ['a'] (.file (.text "v") 3) .nil))

/-- Witness scenario for idempotence: `/r` holds one allow-listed file. -/
def c3Fs : FSNode :=
  .dir (.cons ['r'] (.dir (.cons ['a'] (.file (.text "v") 3) .nil)) .nil)

def c3T : UpSt := mkUpTree ['/', 'r'] c5Cfg

/-- The CacheStore the first `update` of `c3Fs` builds. -/
def c3Cache : Cache :=
  ⟨[['/', 'r', '/', 'a']], [(['/', 'r', '/', 'a'], "v")],
    [(['/', 'r', '/', 'a'], 3)]⟩

/-- The filesystem after the first `update` of `c3Fs` (cache file synced). -/
def c3Fs1 : FSNode :=
  .dir (.cons ['r']
    (.dir (.cons ['a'] (.file (.text "v") 3)
      (.cons cacheName (.file (.pickle c3Cache) 0) .nil)))
    .nil)

/-- The `UpTree` instance after the first `update` of `c3Fs`. -/
def c3T1 : UpSt := ⟨['/', 'r'], c5Cfg, some c3Cache⟩

/-- A CacheStore all of whose keys lie strictly below the directory `qc`
and whose `data`/`mtime` maps have duplicate-free key lists — true of every
store a directory's own `update` builds and syncs. -/
def ScopedND (qc : List Name) (c : Cache) : Prop :=
  ScopedCache qc c ∧ (c.data.map Prod.fst).Nodup ∧ (c.mtime.map Prod.fst).Nodup

/-- Induction motive (per node) for scopedness of the store `update`
returns. -/
def UNodeScoped (node : FSNode) : Prop :=
  ∀ (cfg : Cfg) (force : Bool) (qc : List Name) (ctr : Counters)
    (cache : Cache) (ctr2 : Counters),
    goodNames qc →
    NodeWF node →
    NodeCachesP ScopedND qc node →
    (updateNode cfg force (mkAbs qc) qc node ctr).res = .ok (cache, ctr2) →
    ScopedND qc cache

/-- Induction motive (per children list) for scopedness. -/
def UListScoped (cs : FSList) : Prop :=
  ∀ (cfg : Cfg) (force : Bool) (qc : List Name)
    (cache : Cache) (ctr : Counters) (cache2 : Cache) (ctr2 : Counters),
    goodNames qc →
    (∀ n ∈ cs.names, goodName n) →
    ListWF cs →
    ListCachesP ScopedND qc cs →
    ScopedND qc cache →
    (updateChildren cfg force (mkAbs qc) qc cs cache ctr).res = .ok (cache2, ctr2) →
    ScopedND qc cache2

/-- Induction motive (per node) for invalidation: a successful `update` of
a node removes the `.dirty` markers along any fully marked visible path,
and the returned store holds the current content/mtime of every
allow-listed file sitting in a marked directory. -/
def UNodeUpd (node : FSNode) : Prop :=
  ∀ (cfg : Cfg) (force : Bool) (qc : List Name) (ctr : Counters)
    (node2 : FSNode) (tr : List Ev) (cache : Cache) (ctr2 : Counters),
    goodNames qc →
    NodeWF node →
    NodeCachesP ScopedND qc node →
    updateNode cfg force (mkAbs qc) qc node ctr = ⟨node2, tr, .ok (cache, ctr2)⟩ →
    ∀ q, (∀ n ∈ q, goodName n ∧ hiddenName n = false) →
      (∀ p, p <+: q → hasDirtyAt node p = true) →
      (∀ p, p <+: q → hasDirtyAt node2 p = false) ∧
      (∀ fname s mt, goodName fname → hiddenName fname = false →
        getNode node (q ++ [fname]) = some (.file (.text s) mt) →
        (fname ∈ cfg.contentNames →
          cache.data.lookup (mkAbs (qc ++ q ++ [fname])) = some s) ∧
        (fname ∈ cfg.mtimeNames →
          cache.mtime.lookup (mkAbs (qc ++ q ++ [fname])) = some mt))

/-- Induction motive (per children list) for invalidation. -/
def UListUpd (cs : FSList) : Prop :=
  ∀ (cfg : Cfg) (force : Bool) (qc : List Name) (cache : Cache) (ctr : Counters)
    (cs2 : FSList) (tr : List Ev) (cache2 : Cache) (ctr2 : Counters),
    goodNames qc →
    (∀ n ∈ cs.names, goodName n) →
    cs.names.Nodup →
    ListWF cs →
    ListCachesP ScopedND qc cs →
    updateChildren cfg force (mkAbs qc) qc cs cache ctr = ⟨cs2, tr, .ok (cache2, ctr2)⟩ →
    ∀ q, (∀ n ∈ q, goodName n ∧ hiddenName n = false) →
      (∀ p, p <+: q → p ≠ [] → hasDirtyAt (.dir cs) p = true) →
      (∀ p, p <+: q → p ≠ [] → hasDirtyAt (.dir cs2) p = false) ∧
      (∀ fname s mt, goodName fname → hiddenName fname = false →
        getNode (.dir cs) (q ++ [fname]) = some (.file (.text s) mt) →
        (fname ∈ cfg.contentNames →
          cache2.data.lookup (mkAbs (qc ++ q ++ [fname])) = some s) ∧
        (fname ∈ cfg.mtimeNames →
          cache2.mtime.lookup (mkAbs (qc ++ q ++ [fname])) = some mt))

/-- Witness scenario for invalidation: markers at the root and at `s`, as
`mark_dirty` leaves them, with an allow-listed file `s/b`. -/
def c2Tree : FSNode :=
  .dir (.cons dirtyName (.file (.text "marker") 0)
    (.cons ['s']
      (.dir (.cons dirtyName (.file (.text "marker") 0)
        (.cons ['b'] (.file (.text "new") 7) .nil)))
      .nil))

def c2Cfg : Cfg := ⟨[['b']], [['b']]⟩

/-- The store built for the subdirectory `s` of `c2Tree`. -/
def c2SubCache : Cache :=
  ⟨[['/', 'r', '/', 's', '/', 'b']],
    [(['/', 'r', '/', 's', '/', 'b'], "new")],
    [(['/', 'r', '/', 's', '/', 'b'], 7)]⟩

/-- The store `update` returns for `c2Tree` (rooted at `/r`). -/
def c2Cache : Cache :=
  ⟨[['/', 'r', '/', 's'], ['/', 'r', '/', 's', '/', 'b']],
    [(['/', 'r', '/', 's', '/', 'b'], "new")],
    [(['/', 'r', '/', 's', '/', 'b'], 7)]⟩

/-- The tree after `update` of `c2Tree`: both markers gone, caches synced. -/
def c2Node2 : FSNode :=
  .dir (.cons ['s']
    (.dir (.cons ['b'] (.file (.text "new") 7)
      (.cons cacheName (.file (.pickle c2SubCache) 0) .nil)))
    (.cons cacheName (.file (.pickle c2Cache) 0) .nil))

def c2Tr : List Ev :=
  [Ev.syncEv [['r'], ['s']], Ev.rmDirtyEv [['r'], ['s']],
    Ev.syncEv [['r']], Ev.rmDirtyEv [['r']]]


section PathLemmas

theorem splitAll_cons_slash (rest : PathStr) :
    splitAll ('/' :: rest) = [] :: splitAll rest := by
  rfl

theorem splitAll_cons_ne (c : Char) (rest : PathStr) (h : c ≠ '/') :
    splitAll (c :: rest) =
      match splitAll rest with
      | a :: as => (c :: a) :: as
      | [] => [[c]] := by
  conv_lhs => rw [splitAll.eq_def]
  split
  · rename_i heq; exact absurd heq (List.cons_ne_nil c rest)
  · rename_i r heq; injection heq with h1 h2; exact absurd h1 h
  · rename_i c2 r2 hne heq; injection heq with h1 h2; subst h1; subst h2; rfl

theorem splitAll_ne_nil (p : PathStr) : splitAll p ≠ [] := by
  induction p with
  | nil => simp [splitAll]
  | cons c rest ih =>
    by_cases h : c = '/'
    · subst h; simp [splitAll_cons_slash]
    · rw [splitAll_cons_ne c rest h]
      cases hs : splitAll rest with
      | nil => simp
      | cons a as => simp

theorem splitAll_no_slash (n : Name) (h : '/' ∉ n) : splitAll n = [n] := by
  induction n with
  | nil => rfl
  | cons c rest ih =>
    have hc : c ≠ '/' := by rintro rfl; simp at h
    have hr : '/' ∉ rest := by intro hm; exact h (List.mem_cons_of_mem _ hm)
    rw [splitAll_cons_ne c rest hc, ih hr]

theorem splitAll_append_slash (a b : PathStr) (ha : '/' ∉ a) :
    splitAll (a ++ '/' :: b) = a :: splitAll b := by
  induction a with
  | nil => simp [splitAll_cons_slash]
  | cons c rest ih =>
    have hc : c ≠ '/' := by rintro rfl; simp at ha
    have hr : '/' ∉ rest := by intro hm; exact ha (List.mem_cons_of_mem _ hm)
    rw [List.cons_append, splitAll_cons_ne c _ hc, ih hr]

theorem splitAll_joinComps (l : List Name) (hl : ∀ n ∈ l, '/' ∉ n)
    (hne : l ≠ []) : splitAll (joinComps l) = l := by
  induction l with
  | nil => simp at hne
  | cons n rest ih =>
    cases rest with
    | nil =>
      simpa [joinComps] using splitAll_no_slash n (hl n (by simp))
    | cons m rest2 =>
      have hstep : joinComps (n :: m :: rest2) = n ++ '/' :: joinComps (m :: rest2) := rfl
      rw [hstep, splitAll_append_slash n _ (hl n (by simp))]
      rw [ih (fun x hx => hl x (List.mem_cons_of_mem _ hx)) (by simp)]

theorem splitAll_mkAbs (l : List Name) (hl : ∀ n ∈ l, '/' ∉ n) :
    splitAll (mkAbs l) = [] :: (if l = [] then [[]] else l) := by
  cases hc : l with
  | nil => rfl
  | cons n rest =>
    have : splitAll (mkAbs (n :: rest)) = [] :: splitAll (joinComps (n :: rest)) := by
      simp [mkAbs, splitAll_cons_slash]
    rw [this, splitAll_joinComps _ (hc ▸ hl) (by simp)]
    simp

theorem joinComps_cons_cons (n m : Name) (rest : List Name) :
    joinComps (n :: m :: rest) = n ++ '/' :: joinComps (m :: rest) := rfl

theorem joinComps_append2 (l m : List Name) (hl : l ≠ []) (hm : m ≠ []) :
    joinComps (l ++ m) = joinComps l ++ '/' :: joinComps m := by
  induction l with
  | nil => simp at hl
  | cons n rest ih =>
    cases hr : rest with
    | nil =>
      subst hr
      cases hmm : m with
      | nil => exact absurd hmm hm
      | cons p q => simp [joinComps_cons_cons, joinComps]
    | cons r rs =>
      subst hr
      have e1 : joinComps ((n :: r :: rs) ++ m) = n ++ '/' :: joinComps ((r :: rs) ++ m) := rfl
      rw [e1, ih (by simp), joinComps_cons_cons]
      simp

theorem mkAbs_append (l m : List Name) (hl : l ≠ []) (hm : m ≠ []) :
    mkAbs (l ++ m) = mkAbs l ++ '/' :: joinComps m := by
  simp [mkAbs, joinComps_append2 l m hl hm]

theorem mkAbs_append_single (l : List Name) (n : Name) (hl : l ≠ []) :
    mkAbs (l ++ [n]) = mkAbs l ++ '/' :: n := by
  rw [mkAbs_append l [n] hl (by simp)]; rfl

theorem mkAbs_single (n : Name) : mkAbs [n] = '/' :: n := rfl

theorem mkAbs_ne_nil (l : List Name) : mkAbs l ≠ [] := by simp [mkAbs]

theorem normComps_goodAux (b : Bool) (l : List Name) (acc : List Name)
    (hl : ∀ n ∈ l, n ≠ [] ∧ n ≠ ['.'] ∧ n ≠ ['.', '.']) :
    (l.foldl
      (fun acc comp =>
        if comp = [] ∨ comp = ['.'] then acc
        else if comp ≠ ['.', '.'] ∨ (¬ b ∧ acc = [])
            ∨ (acc ≠ [] ∧ acc.getLast? = some ['.', '.']) then acc ++ [comp]
        else acc.dropLast)
      acc) = acc ++ l := by
  induction l generalizing acc with
  | nil => simp
  | cons n rest ih =>
    obtain ⟨h1, h2, h3⟩ := hl n (by simp)
    rw [List.foldl_cons]
    have hcond : ¬ (n = [] ∨ n = ['.']) := by simp [h1, h2]
    rw [if_neg hcond, if_pos (Or.inl h3)]
    rw [ih _ (fun m hm => hl m (List.mem_cons_of_mem _ hm))]
    simp

theorem normComps_good (b : Bool) (l : List Name)
    (hl : ∀ n ∈ l, n ≠ [] ∧ n ≠ ['.'] ∧ n ≠ ['.', '.']) :
    normComps b l = l := by
  have := normComps_goodAux b l [] hl
  simpa [normComps] using this

theorem normComps_skip_empty (b : Bool) (l : List Name) :
    normComps b ([] :: l) = normComps b l := by
  simp [normComps]

theorem getLast?_dotdot_aux (l : List Name)
    (hl : ∀ n ∈ l, n ≠ [] ∧ n ≠ ['.'] ∧ n ≠ ['.', '.']) :
    l.getLast? ≠ some ['.', '.'] := by
  intro hcon
  obtain ⟨h, heq⟩ := List.mem_getLast?_eq_getLast (Option.mem_def.mpr hcon)
  have hmem : (['.', '.'] : Name) ∈ l := heq ▸ List.getLast_mem h
  exact (hl _ hmem).2.2 rfl

theorem normComps_good_dotdot (l : List Name)
    (hl : ∀ n ∈ l, n ≠ [] ∧ n ≠ ['.'] ∧ n ≠ ['.', '.']) :
    normComps true (l ++ [['.', '.']]) = l.dropLast := by
  unfold normComps
  rw [List.foldl_append]
  rw [normComps_goodAux true l [] hl]
  rw [List.foldl_cons, List.foldl_nil]
  have h1 : ¬ ((['.', '.'] : Name) = [] ∨ (['.', '.'] : Name) = ['.']) := by decide
  rw [if_neg h1]
  have h2 : ¬ ((['.', '.'] : Name) ≠ ['.', '.'] ∨ (¬ (true : Bool) ∧ ([] : List Name) ++ l = [])
      ∨ (([] : List Name) ++ l ≠ [] ∧ (([] : List Name) ++ l).getLast? = some ['.', '.'])) := by
    simp only [List.nil_append]
    push_neg
    refine ⟨by simp, by simp, fun _ => getLast?_dotdot_aux l hl⟩
  rw [if_neg h2]
  simp

theorem isabs_cons_ne (c : Char) (cs : List Char) (h : c ≠ '/') :
    isabs (c :: cs) = false := by
  unfold isabs
  split
  · rename_i heq; injection heq with h1 _; exact absurd h1 h
  · rfl

theorem isabs_good (n : Name) (h1 : n ≠ []) (h2 : '/' ∉ n) : isabs n = false := by
  cases n with
  | nil => exact absurd rfl h1
  | cons c cs =>
    exact isabs_cons_ne c cs (fun hc => h2 (by simp [hc]))

theorem take_two_mkAbs (l : List Name)
    (hl : ∀ n ∈ l.take 1, n ≠ [] ∧ '/' ∉ n) :
    (mkAbs l).take 2 ≠ ['/', '/'] := by
  cases hc : l with
  | nil => simp [mkAbs, joinComps]
  | cons n rest =>
    obtain ⟨hne, hns⟩ := hl n (by simp [hc])
    cases n with
    | nil => exact absurd rfl hne
    | cons c cs =>
      have hcslash : c ≠ '/' := fun hh => hns (by simp [hh])
      have htake : (mkAbs ((c :: cs) :: rest)).take 2 = ['/', c] := by
        cases rest with
        | nil => simp [mkAbs, joinComps]
        | cons m r2 => simp [mkAbs, joinComps_cons_cons]
      rw [htake]
      simp [hcslash]

theorem initialSlashCount_mkAbs (l : List Name)
    (hl : ∀ n ∈ l.take 1, n ≠ [] ∧ '/' ∉ n) :
    initialSlashCount (mkAbs l) = 1 := by
  unfold initialSlashCount
  have htake1 : (mkAbs l).take 1 = ['/'] := by simp [mkAbs]
  rw [if_pos htake1]
  rw [if_neg (fun hcon => take_two_mkAbs l hl hcon.1)]

theorem good_take_one (l : List Name) (hl : goodNames l) :
    ∀ n ∈ l.take 1, n ≠ [] ∧ '/' ∉ n := by
  intro n hn
  have : n ∈ l := List.mem_of_mem_take hn
  exact ⟨(hl n this).1, (hl n this).2.1⟩

theorem normpath_mkAbs (l : List Name) (hl : goodNames l) :
    normpath (mkAbs l) = mkAbs l := by
  unfold normpath
  rw [if_neg (mkAbs_ne_nil l)]
  simp only [initialSlashCount_mkAbs l (good_take_one l hl)]
  rw [splitAll_mkAbs l (fun n hn => (hl n hn).2.1)]
  by_cases hc : l = []
  · subst hc
    simp [normComps, joinComps, mkAbs]
  · rw [if_neg hc, normComps_skip_empty]
    rw [normComps_good _ l
      (fun n hn => ⟨(hl n hn).1, (hl n hn).2.2.1, (hl n hn).2.2.2⟩)]
    have hq : List.replicate 1 '/' ++ joinComps l = mkAbs l := by
      simp [mkAbs, List.replicate]
    rw [hq, if_neg (mkAbs_ne_nil l)]

theorem pathComps_mkAbs (l : List Name) (hl : goodNames l) :
    pathComps (mkAbs l) = l := by
  unfold pathComps
  rw [normpath_mkAbs l hl, splitAll_mkAbs l (fun n hn => (hl n hn).2.1)]
  by_cases hc : l = []
  · subst hc; rfl
  · rw [if_neg hc]
    have hne : ∀ n ∈ l, n ≠ [] := fun n hn => (hl n hn).1
    simp only [List.filter_cons]
    have h0 : (decide (([] : Name) ≠ [])) = false := by decide
    rw [h0]
    simp only [Bool.false_eq_true, if_false]
    rw [List.filter_eq_self.2 (fun n hn => by simpa using hne n hn)]

theorem mkAbs_inj (l₁ l₂ : List Name) (h₁ : goodNames l₁) (h₂ : goodNames l₂)
    (h : mkAbs l₁ = mkAbs l₂) : l₁ = l₂ := by
  have := congrArg pathComps h
  rwa [pathComps_mkAbs l₁ h₁, pathComps_mkAbs l₂ h₂] at this

theorem isabs_mkAbs (l : List Name) : isabs (mkAbs l) = true := rfl

theorem getLast?_mkAbs_ne_slash (l : List Name) (hl : goodNames l) (hne : l ≠ []) :
    (mkAbs l).getLast? ≠ some '/' := by
  have hdecomp : l.dropLast ++ [l.getLast hne] = l := List.dropLast_append_getLast hne
  have hlag : goodName (l.getLast hne) := hl _ (List.getLast_mem hne)
  have hform : ∃ X : PathStr, mkAbs l = X ++ l.getLast hne := by
    by_cases hd : l.dropLast = []
    · refine ⟨['/'], ?_⟩
      conv_lhs => rw [← hdecomp, hd]
      rfl
    · refine ⟨mkAbs l.dropLast ++ ['/'], ?_⟩
      conv_lhs => rw [← hdecomp, mkAbs_append_single _ _ hd]
      simp
  obtain ⟨X, hX⟩ := hform
  rw [hX, List.getLast?_append_of_ne_nil X hlag.1]
  intro hcon
  obtain ⟨h, heq⟩ := List.mem_getLast?_eq_getLast (Option.mem_def.mpr hcon)
  exact hlag.2.1 (heq ▸ List.getLast_mem h)

theorem pjoin_mkAbs (l : List Name) (n : Name) (hl : goodNames l)
    (hn1 : n ≠ []) (hn2 : '/' ∉ n) :
    pjoin (mkAbs l) n = mkAbs (l ++ [n]) := by
  unfold pjoin
  rw [isabs_good n hn1 hn2]
  simp only [Bool.false_eq_true, if_false]
  by_cases hc : l = []
  · subst hc
    have hcond : (mkAbs ([] : List Name) = [] ∨ (mkAbs ([] : List Name)).getLast? = some '/') := by
      right; simp [mkAbs, joinComps]
    rw [if_pos hcond]
    rfl
  · have hcond : ¬ (mkAbs l = [] ∨ (mkAbs l).getLast? = some '/') := by
      rintro (h | h)
      · exact mkAbs_ne_nil l h
      · exact getLast?_mkAbs_ne_slash l hl hc h
    rw [if_neg hcond, mkAbs_append_single l n hc]

theorem parentdir_mkAbs (l : List Name) (hl : goodNames l) :
    parentdir (mkAbs l) = mkAbs l.dropLast := by
  unfold parentdir
  rw [pjoin_mkAbs l ['.', '.'] hl (by simp) (by decide)]
  unfold normpath
  rw [if_neg (mkAbs_ne_nil _)]
  have htake1 : ∀ n ∈ (l ++ [['.', '.']]).take 1, n ≠ [] ∧ '/' ∉ n := by
    intro n hn
    have hmem : n ∈ l ++ [['.', '.']] := List.mem_of_mem_take hn
    rcases List.mem_append.1 hmem with h | h
    · exact ⟨(hl n h).1, (hl n h).2.1⟩
    · simp at h; subst h; exact ⟨by simp, by decide⟩
  simp only [initialSlashCount_mkAbs _ htake1]
  have hgood2 : ∀ m ∈ l ++ [['.', '.']], '/' ∉ m := by
    intro m hm
    rcases List.mem_append.1 hm with h | h
    · exact (hl m h).2.1
    · simp at h; subst h; decide
  rw [splitAll_mkAbs _ hgood2]
  rw [if_neg (by simp : ¬ l ++ [['.', '.']] = [])]
  rw [normComps_skip_empty]
  have hbeq : ((1 : Nat) != 0) = true := rfl
  rw [hbeq]
  rw [normComps_good_dotdot l
    (fun n hn => ⟨(hl n hn).1, (hl n hn).2.2.1, (hl n hn).2.2.2⟩)]
  have hq : List.replicate 1 '/' ++ joinComps l.dropLast = mkAbs l.dropLast := by
    simp [mkAbs, List.replicate]
  rw [hq, if_neg (mkAbs_ne_nil _)]

theorem isPrefixOf_spec (a b : List Char) : a.isPrefixOf b = true ↔ a <+: b := by
  induction a generalizing b with
  | nil => simp [List.isPrefixOf]
  | cons x xs ih =>
    cases b with
    | nil => simp [List.isPrefixOf]
    | cons y ys =>
      simp only [List.isPrefixOf, Bool.and_eq_true, beq_iff_eq, List.cons_prefix_cons]
      exact and_congr Iff.rfl (ih ys)

theorem mkAbs_isPrefixOf (l m : List Name) :
    (mkAbs l).isPrefixOf (mkAbs (l ++ m)) = true := by
  rw [isPrefixOf_spec]
  by_cases hm : m = []
  · subst hm; simp
  · by_cases hl : l = []
    · subst hl
      exact ⟨joinComps m, rfl⟩
    · rw [mkAbs_append l m hl hm]
      exact ⟨'/' :: joinComps m, rfl⟩

theorem length_mkAbs_ge (l : List Name) (hl : ∀ n ∈ l, n ≠ []) :
    l.length + 1 ≤ (mkAbs l).length := by
  induction l with
  | nil => simp [mkAbs, joinComps]
  | cons n rest ih =>
    have hlen : 1 ≤ n.length := by
      have := hl n (by simp)
      cases n with
      | nil => simp at this
      | cons c cs => simp
    cases hr : rest with
    | nil =>
      subst hr
      have e : mkAbs [n] = '/' :: n := rfl
      rw [e]
      simp only [List.length_cons, List.length_nil]
      omega
    | cons m r2 =>
      subst hr
      have hrec := ih (fun x hx => hl x (List.mem_cons_of_mem _ hx))
      have e1 : mkAbs (n :: m :: r2) = '/' :: (n ++ '/' :: joinComps (m :: r2)) := rfl
      have e2 : mkAbs (m :: r2) = '/' :: joinComps (m :: r2) := rfl
      rw [e1]
      rw [e2] at hrec
      simp only [List.length_cons, List.length_append] at hrec ⊢
      omega

end PathLemmas

section MorePathLemmas

theorem dropWhile_append_of_all (p : Char → Bool) (xs ys : List Char)
    (h : ∀ x ∈ xs, p x = true) :
    (xs ++ ys).dropWhile p = ys.dropWhile p := by
  induction xs with
  | nil => simp
  | cons x rest ih =>
    simp only [List.cons_append]
    rw [List.dropWhile_cons_of_pos (h x (by simp))]
    exact ih (fun y hy => h y (List.mem_cons_of_mem _ hy))

theorem mem_mkAbs_ne_slash (l : List Name) (hl : goodNames l) (hne : l ≠ []) :
    ∃ c ∈ mkAbs l, c ≠ '/' := by
  cases hc : l with
  | nil => exact absurd hc hne
  | cons m rest =>
    obtain ⟨hm1, hm2, _, _⟩ := hl m (by simp [hc])
    cases hmm : m with
    | nil => exact absurd hmm hm1
    | cons ch cs =>
      have hch : ch ≠ '/' := fun hh => hm2 (by simp [hmm, hh])
      refine ⟨ch, ?_, hch⟩
      have hmem : ch ∈ joinComps ((ch :: cs) :: rest) := by
        cases rest with
        | nil => simp [joinComps]
        | cons r rs => simp [joinComps_cons_cons]
      simp only [mkAbs]
      exact List.mem_cons_of_mem _ hmem

theorem dirname_concat (X : PathStr) (n : Name) (hn : '/' ∉ n)
    (hX : ∃ c ∈ X, c ≠ '/') (hXlast : X.getLast? ≠ some '/') :
    dirname (X ++ '/' :: n) = X := by
  have hXne : X ≠ [] := by
    rintro rfl
    obtain ⟨c, hc, _⟩ := hX
    simp at hc
  unfold dirname
  have hrev : (X ++ '/' :: n).reverse = n.reverse ++ '/' :: X.reverse := by
    simp
  rw [hrev]
  have hdrop : (n.reverse ++ '/' :: X.reverse).dropWhile (fun c => c ≠ '/')
      = '/' :: X.reverse := by
    rw [dropWhile_append_of_all _ n.reverse _
      (fun x hx => by
        simp only [ne_eq, decide_eq_true_eq]
        intro hxe
        exact hn (hxe ▸ (List.mem_reverse).1 hx))]
    rw [List.dropWhile_cons_of_neg (by simp)]
  rw [hdrop]
  have hhead : ('/' :: X.reverse).reverse = X ++ ['/'] := by simp
  rw [hhead]
  rw [if_neg (by simp : ¬ (X ++ ['/'] : PathStr) = [])]
  have hall : ¬ ((X ++ ['/'] : PathStr).all (fun c => c = '/')) = true := by
    obtain ⟨c, hc, hcne⟩ := hX
    simp only [List.all_eq_true]
    intro hcon
    have := hcon c (by simp [hc])
    simp at this
    exact hcne this
  rw [if_neg (by simpa using hall)]
  have hrev2 : ((X ++ ['/'] : PathStr).reverse) = '/' :: X.reverse := by simp
  rw [hrev2]
  rw [List.dropWhile_cons_of_pos (by simp)]
  have hXdecomp : X.reverse = X.getLast hXne :: X.dropLast.reverse := by
    conv_lhs => rw [← List.dropLast_append_getLast hXne]
    simp
  rw [hXdecomp]
  rw [List.dropWhile_cons_of_neg (by
    simp only [decide_eq_true_eq]
    intro hcon
    exact hXlast (by
      rw [List.getLast?_eq_getLast X hXne]
      exact congrArg some hcon))]
  rw [← hXdecomp]
  simp

theorem dirname_mkAbs (l : List Name) (n : Name) (hl : goodNames l)
    (hn2 : '/' ∉ n) :
    dirname (mkAbs (l ++ [n])) = mkAbs l := by
  by_cases hc : l = []
  · subst hc
    simp only [List.nil_append]
    unfold dirname
    have hrev : (mkAbs [n]).reverse = n.reverse ++ ['/'] := by
      rw [mkAbs_single]; simp
    rw [hrev]
    have hdrop : (n.reverse ++ ['/'] : PathStr).dropWhile (fun c => c ≠ '/') = ['/'] := by
      rw [dropWhile_append_of_all _ n.reverse _
        (fun x hx => by
          simp only [ne_eq, decide_eq_true_eq]
          intro hxe
          exact hn2 (hxe ▸ (List.mem_reverse).1 hx))]
      rw [List.dropWhile_cons_of_neg (by simp)]
    rw [hdrop]
    rw [if_neg (by simp : ¬ (['/'] : PathStr).reverse = [])]
    rw [if_pos (by simp)]
    rfl
  · rw [mkAbs_append_single l n hc]
    exact dirname_concat (mkAbs l) n hn2 (mem_mkAbs_ne_slash l hl hc)
      (getLast?_mkAbs_ne_slash l hl hc)

theorem foldl_basename_no_slash (n : Name) (hns : '/' ∉ n) (acc : List Char) :
    n.foldl (fun a c => if c = '/' then [] else a ++ [c]) acc = acc ++ n := by
  induction n generalizing acc with
  | nil => simp
  | cons c rest ih =>
    have hc : c ≠ '/' := fun h => hns (by simp [h])
    rw [List.foldl_cons, if_neg hc, ih (fun hm => hns (List.mem_cons_of_mem _ hm))]
    simp

theorem basename_concat (X : PathStr) (n : Name) (hn : '/' ∉ n) :
    basename (X ++ '/' :: n) = n := by
  unfold basename
  have he : X ++ '/' :: n = (X ++ ['/']) ++ n := by simp
  rw [he, List.foldl_append, List.foldl_append]
  rw [show (List.foldl (fun a c => if c = '/' then [] else a ++ [c])
      (List.foldl (fun a c => if c = '/' then [] else a ++ [c]) [] X) ['/']) = [] by simp]
  simpa using foldl_basename_no_slash n hn []

theorem basename_mkAbs (l : List Name) (n : Name) (hn : '/' ∉ n) :
    basename (mkAbs (l ++ [n])) = n := by
  by_cases hc : l = []
  · subst hc
    simp only [List.nil_append]
    rw [mkAbs_single]
    have he : ('/' :: n : PathStr) = [] ++ '/' :: n := rfl
    rw [he]
    exact basename_concat [] n hn
  · rw [mkAbs_append_single l n hc]
    exact basename_concat _ n hn

end MorePathLemmas

section FSLemmas

/-- Induction on `FSList` alone (the nested `FSNode`s stay opaque). -/
theorem FSList.indL (motive : FSList → Prop) (h0 : motive .nil)
    (h1 : ∀ n t rest, motive rest → motive (.cons n t rest)) :
    ∀ cs, motive cs
  | .nil => h0
  | .cons n t rest => h1 n t rest (FSList.indL motive h0 h1 rest)

theorem FSList.find?_setEntry_self (cs : FSList) (n : Name) (t : FSNode) :
    (cs.setEntry n t).find? n = some t := by
  induction cs using FSList.indL with
  | h0 => simp [FSList.setEntry, FSList.find?]
  | h1 m u rest ih =>
    by_cases h : m = n
    · subst h; simp [FSList.setEntry, FSList.find?]
    · simp [FSList.setEntry, FSList.find?, h, ih]

theorem FSList.find?_setEntry_ne (cs : FSList) (n m : Name) (t : FSNode)
    (h : m ≠ n) : (cs.setEntry n t).find? m = cs.find? m := by
  induction cs using FSList.indL with
  | h0 =>
    simp only [FSList.setEntry, FSList.find?]
    rw [if_neg (fun hh : n = m => h hh.symm)]
  | h1 m2 u rest ih =>
    by_cases h2 : m2 = n
    · subst h2
      simp only [FSList.setEntry, if_pos rfl]
      have hne : ¬ m2 = m := fun hh => h (hh ▸ rfl)
      simp [FSList.find?, hne]
    · simp only [FSList.setEntry, if_neg h2]
      by_cases h3 : m2 = m
      · subst h3; simp [FSList.find?]
      · simp [FSList.find?, h3, ih]

theorem FSList.find?_erase_ne (cs : FSList) (n m : Name) (h : m ≠ n) :
    (cs.erase n).find? m = cs.find? m := by
  induction cs using FSList.indL with
  | h0 => simp [FSList.erase]
  | h1 m2 u rest ih =>
    by_cases h2 : m2 = n
    · subst h2
      simp only [FSList.erase, if_pos rfl]
      have hne : ¬ m2 = m := fun hh => h (hh ▸ rfl)
      simp [FSList.find?, hne]
    · simp only [FSList.erase, if_neg h2]
      by_cases h3 : m2 = m
      · subst h3; simp [FSList.find?]
      · simp [FSList.find?, h3, ih]

theorem FSList.find?_eq_none_of_not_mem (cs : FSList) (n : Name)
    (h : n ∉ cs.names) : cs.find? n = none := by
  induction cs using FSList.indL with
  | h0 => simp [FSList.find?]
  | h1 m u rest ih =>
    have hne : ¬ m = n := by
      intro hh; exact h (by simp [FSList.names, hh])
    simp only [FSList.find?, if_neg hne]
    exact ih (fun hm => h (by simp [FSList.names, hm]))

theorem FSList.find?_erase_self (cs : FSList) (n : Name)
    (hnd : cs.names.Nodup) : (cs.erase n).find? n = none := by
  induction cs using FSList.indL with
  | h0 => simp [FSList.erase, FSList.find?]
  | h1 m u rest ih =>
    have hnd2 : (m :: rest.names).Nodup := by simpa [FSList.names] using hnd
    by_cases h2 : m = n
    · subst h2
      simp only [FSList.erase, if_pos rfl]
      exact FSList.find?_eq_none_of_not_mem rest m (List.nodup_cons.1 hnd2).1
    · simp only [FSList.erase, if_neg h2]
      simp only [FSList.find?, if_neg h2]
      exact ih (List.nodup_cons.1 hnd2).2

theorem writeAt_dir_cons_some (cs : FSList) (n : Name) (rest : List Name)
    (fname : Name) (d : FData) (mt : Int) (c : FSNode)
    (hf : cs.find? n = some c) :
    writeAt (.dir cs) (n :: rest) fname d mt
      = (writeAt c rest fname d mt).map (fun c2 => FSNode.dir (cs.setEntry n c2)) := by
  simp only [writeAt, hf]

theorem writeAt_dir_cons_none (cs : FSList) (n : Name) (rest : List Name)
    (fname : Name) (d : FData) (mt : Int)
    (hf : cs.find? n = none) :
    writeAt (.dir cs) (n :: rest) fname d mt = none := by
  simp only [writeAt, hf]

theorem writeAt_dir_nil_ok (cs : FSList) (fname : Name) (d : FData) (mt : Int)
    (h : ∀ cs2, cs.find? fname ≠ some (.dir cs2)) :
    writeAt (.dir cs) [] fname d mt
      = some (.dir (cs.setEntry fname (.file d mt))) := by
  cases hf : cs.find? fname with
  | none => simp only [writeAt, hf]
  | some c =>
    cases c with
    | file d2 mt2 => simp only [writeAt, hf]
    | dir cs2 => exact absurd hf (h cs2)

theorem writeAt_dir_nil_dir (cs : FSList) (fname : Name) (d : FData) (mt : Int)
    (cs2 : FSList) (h : cs.find? fname = some (.dir cs2)) :
    writeAt (.dir cs) [] fname d mt = none := by
  simp only [writeAt, h]

theorem getNode_dir_cons (cs : FSList) (n : Name) (rest : List Name) :
    getNode (.dir cs) (n :: rest)
      = match cs.find? n with
        | some c => getNode c rest
        | none => none := by
  simp only [getNode]

end FSLemmas

section WriteLemmas

theorem getNode_writeAt_self (fs fs2 : FSNode) (q : List Name) (fname : Name)
    (d : FData) (mt : Int) (h : writeAt fs q fname d mt = some fs2) :
    getNode fs2 (q ++ [fname]) = some (.file d mt) := by
  induction q generalizing fs fs2 with
  | nil =>
    cases fs with
    | file d2 mt2 => simp [writeAt] at h
    | dir cs =>
      cases hf : cs.find? fname with
      | none =>
        rw [writeAt_dir_nil_ok cs fname d mt (fun cs2 hcon => by
          rw [hf] at hcon; cases hcon)] at h
        injection h with h
        subst h
        simp [getNode, FSList.find?_setEntry_self]
      | some c =>
        cases c with
        | dir cs2 => rw [writeAt_dir_nil_dir cs fname d mt cs2 hf] at h; cases h
        | file d3 mt3 =>
          rw [writeAt_dir_nil_ok cs fname d mt (fun cs2 hcon => by
            rw [hf] at hcon; cases hcon)] at h
          injection h with h
          subst h
          simp [getNode, FSList.find?_setEntry_self]
  | cons n rest ih =>
    cases fs with
    | file d2 mt2 => simp [writeAt] at h
    | dir cs =>
      cases hf : cs.find? n with
      | none => rw [writeAt_dir_cons_none cs n rest fname d mt hf] at h; cases h
      | some c =>
        rw [writeAt_dir_cons_some cs n rest fname d mt c hf] at h
        cases hw : writeAt c rest fname d mt with
        | none => rw [hw] at h; cases h
        | some c2 =>
          rw [hw] at h
          simp only [Option.map_some', Option.some.injEq] at h
          subst h
          simp only [List.cons_append, getNode, FSList.find?_setEntry_self]
          exact ih c c2 hw

theorem writeAt_kind (fs fs2 : FSNode) (q : List Name) (fname : Name)
    (d : FData) (mt : Int) (h : writeAt fs q fname d mt = some fs2) :
    ∀ r, r ≠ q ++ [fname] → kindAt fs2 r = kindAt fs r := by
  induction q generalizing fs fs2 with
  | nil =>
    cases fs with
    | file d2 mt2 => simp [writeAt] at h
    | dir cs =>
      have hnodir : ∀ cs2, cs.find? fname ≠ some (.dir cs2) := by
        intro cs2 hcon
        rw [writeAt_dir_nil_dir cs fname d mt cs2 hcon] at h
        cases h
      rw [writeAt_dir_nil_ok cs fname d mt hnodir] at h
      injection h with h
      subst h
      intro r hr
      cases r with
      | nil => rfl
      | cons m r2 =>
        by_cases hm : m = fname
        · subst hm
          have hr2 : r2 ≠ [] := fun hcon => hr (by simp [hcon])
          cases hr2c : r2 with
          | nil => exact absurd hr2c hr2
          | cons a b =>
            simp only [kindAt, getNode, FSList.find?_setEntry_self]
            cases hf : cs.find? m with
            | none => simp [getNode, hf]
            | some c =>
              cases c with
              | dir cs2 => exact absurd hf (hnodir cs2)
              | file d3 mt3 => simp [getNode, hf]
        · simp only [kindAt, getNode, FSList.find?_setEntry_ne cs fname m _ hm]
  | cons n rest ih =>
    cases fs with
    | file d2 mt2 => simp [writeAt] at h
    | dir cs =>
      cases hf : cs.find? n with
      | none => rw [writeAt_dir_cons_none cs n rest fname d mt hf] at h; cases h
      | some c =>
        rw [writeAt_dir_cons_some cs n rest fname d mt c hf] at h
        cases hw : writeAt c rest fname d mt with
        | none => rw [hw] at h; cases h
        | some c2 =>
          rw [hw] at h
          simp only [Option.map_some', Option.some.injEq] at h
          subst h
          intro r hr
          cases r with
          | nil => rfl
          | cons m r2 =>
            by_cases hm : m = n
            · subst hm
              have hr2 : r2 ≠ rest ++ [fname] := by
                intro hcon; exact hr (by rw [hcon]; rfl)
              simp only [kindAt, getNode, FSList.find?_setEntry_self, hf]
              have := ih c c2 hw r2 hr2
              simpa [kindAt] using this
            · simp only [kindAt, getNode, FSList.find?_setEntry_ne cs n m _ hm]

theorem writeAt_some_of (fs : FSNode) (q : List Name) (fname : Name)
    (d : FData) (mt : Int)
    (hdir : kindAt fs q = some true)
    (hnotdir : kindAt fs (q ++ [fname]) ≠ some true) :
    ∃ fs2, writeAt fs q fname d mt = some fs2 := by
  induction q generalizing fs with
  | nil =>
    cases fs with
    | file d2 mt2 => simp [kindAt, getNode, nodeIsDir] at hdir
    | dir cs =>
      cases hf : cs.find? fname with
      | none => exact ⟨_, writeAt_dir_nil_ok cs fname d mt (fun cs2 hcon => by
          rw [hf] at hcon; cases hcon)⟩
      | some c =>
        cases c with
        | file d3 mt3 => exact ⟨_, writeAt_dir_nil_ok cs fname d mt (fun cs2 hcon => by
            rw [hf] at hcon; cases hcon)⟩
        | dir cs2 =>
          exfalso
          apply hnotdir
          simp [kindAt, getNode, hf, nodeIsDir]
  | cons n rest ih =>
    cases fs with
    | file d2 mt2 => simp [kindAt, getNode, nodeIsDir] at hdir
    | dir cs =>
      cases hf : cs.find? n with
      | none =>
        exfalso
        simp [kindAt, getNode, hf] at hdir
      | some c =>
        have hdir2 : kindAt c rest = some true := by
          simpa [kindAt, getNode, hf] using hdir
        have hnotdir2 : kindAt c (rest ++ [fname]) ≠ some true := by
          intro hcon
          apply hnotdir
          simp only [List.cons_append, kindAt, getNode, hf]
          simpa [kindAt] using hcon
        obtain ⟨c2, hc2⟩ := ih c hdir2 hnotdir2
        exact ⟨_, by rw [writeAt_dir_cons_some cs n rest fname d mt c hf, hc2]; rfl⟩

theorem hasDirtyAt_eq_kind (fs : FSNode) (q : List Name) :
    hasDirtyAt fs q = (kindAt fs (q ++ [dirtyName])).isSome := by
  simp [hasDirtyAt, kindAt]

theorem isfileP_of_kind (fs : FSNode) (p : PathStr)
    (h : kindAt fs (pathComps p) = some false) : isfileP fs p = true := by
  unfold isfileP fsGet
  cases hg : getNode fs (pathComps p) with
  | none => simp [kindAt, hg] at h
  | some c =>
    cases c with
    | file _ _ => rfl
    | dir _ => simp [kindAt, hg, nodeIsDir] at h

theorem isfileP_false_of_kind (fs : FSNode) (p : PathStr)
    (h : kindAt fs (pathComps p) = some true) : isfileP fs p = false := by
  unfold isfileP fsGet
  cases hg : getNode fs (pathComps p) with
  | none => simp [kindAt, hg] at h
  | some c =>
    cases c with
    | file _ _ => simp [kindAt, hg, nodeIsDir] at h
    | dir _ => rfl

end WriteLemmas

section ClaimsEasy

theorem markDirtyF_succ (fuel : Nat) (root : PathStr) (fs : FSNode) (dir0 : PathStr) :
    markDirtyF (fuel + 1) root fs dir0
      = if isabs dir0 = false then (fs, .error .assertFail)
        else if root.isPrefixOf dir0 = false then (fs, .error .valueError)
        else
          let dir := if isfileP fs dir0 then dirname dir0 else dir0
          match fsWriteP fs (pjoin dir dirtyName) (.text "") 0 with
          | none => (fs, .error .ioError)
          | some fs2 =>
            if normpath dir ≠ root then
              match markDirtyF fuel root fs2 (parentdir dir) with
              | (fs3, .ok k) => (fs3, .ok (k + 1))
              | (fs3, .error e) => (fs3, .error e)
            else (fs2, .ok 0) := by
  rfl

theorem cacheSync_writeAt (fs fs2 : FSNode) (q : List Name) (c : Cache)
    (h : cacheSync fs q c = some fs2) :
    ∃ fs3, writeAt fs3 q cacheName (.pickle c) 0 = some fs2 := by
  unfold cacheSync at h
  cases hfs : (if (getNode fs q).isSome then some fs else makedirsAt fs q) with
  | none => rw [hfs] at h; cases h
  | some fs3 => rw [hfs] at h; exact ⟨fs3, h⟩

/-- C6: serializing a CacheStore to the directory's cache file (`sync`) and
deserializing that file (`load`) reconstructs a store whose `files` set,
`data` map and `mtime` map equal the original's (here: literally, which
implies equality as sets and maps). -/
theorem sync_load_roundtrip_C6 (fs fs2 : FSNode) (q : List Name) (c : Cache)
    (h : cacheSync fs q c = some fs2) :
    cacheLoad fs2 q = .ok c := by
  obtain ⟨fs3, hw⟩ := cacheSync_writeAt fs fs2 q c h
  unfold cacheLoad
  rw [getNode_writeAt_self fs3 fs2 q cacheName (.pickle c) 0 hw]

theorem sync_load_roundtrip_C6_witness :
    cacheLoad (FSNode.dir (.cons cacheName
        (.file (.pickle ⟨[['/', 'a']], [(['/', 'a'], "w")], [(['/', 'a'], 5)]⟩) 0)
        .nil)) []
      = .ok ⟨[['/', 'a']], [(['/', 'a'], "w")], [(['/', 'a'], 5)]⟩ :=
  sync_load_roundtrip_C6 (FSNode.dir .nil) _ []
    ⟨[['/', 'a']], [(['/', 'a'], "w")], [(['/', 'a'], 5)]⟩ (by rfl)

/-- C7: for an absolute path absent from the `data` (resp. `mtime`) map of
a loaded cache, `open_and_read` (resp. `getmtime`) raises the not-found
IOError rather than returning an empty string or a default value — in
particular when the path is a member of `files` but its filename was never
in the corresponding allow-list. -/
theorem notFound_C7 (t : UpSt) (c : Cache) (p : PathStr)
    (hc : t.cache = some c) (habs : isabs p = true) :
    (c.data.lookup p = none → open_and_read t p = .error .notFound) ∧
    (c.mtime.lookup p = none → getmtime t p = .error .notFound) := by
  constructor
  · intro hd
    simp [open_and_read, habs, hc, hd]
  · intro hm
    simp [getmtime, habs, hc, hm]

theorem notFound_C7_witness :
    open_and_read ⟨['/', 'r'], ⟨[], [['l', 'o', 'g']]⟩,
        some ⟨[['/', 'r', '/', 'a'], ['/', 'r', '/', 'l', 'o', 'g']],
          [(['/', 'r', '/', 'a'], "x")], [(['/', 'r', '/', 'l', 'o', 'g'], 5)]⟩⟩
        ['/', 'r', '/', 'l', 'o', 'g'] = .error .notFound ∧
    getmtime ⟨['/', 'r'], ⟨[], [['l', 'o', 'g']]⟩,
        some ⟨[['/', 'r', '/', 'a'], ['/', 'r', '/', 'l', 'o', 'g']],
          [(['/', 'r', '/', 'a'], "x")], [(['/', 'r', '/', 'l', 'o', 'g'], 5)]⟩⟩
        ['/', 'r', '/', 'a'] = .error .notFound :=
  ⟨(notFound_C7
      ⟨['/', 'r'], ⟨[], [['l', 'o', 'g']]⟩,
        some ⟨[['/', 'r', '/', 'a'], ['/', 'r', '/', 'l', 'o', 'g']],
          [(['/', 'r', '/', 'a'], "x")], [(['/', 'r', '/', 'l', 'o', 'g'], 5)]⟩⟩
      ⟨[['/', 'r', '/', 'a'], ['/', 'r', '/', 'l', 'o', 'g']],
        [(['/', 'r', '/', 'a'], "x")], [(['/', 'r', '/', 'l', 'o', 'g'], 5)]⟩
      ['/', 'r', '/', 'l', 'o', 'g'] rfl rfl).1 rfl,
   (notFound_C7
      ⟨['/', 'r'], ⟨[], [['l', 'o', 'g']]⟩,
        some ⟨[['/', 'r', '/', 'a'], ['/', 'r', '/', 'l', 'o', 'g']],
          [(['/', 'r', '/', 'a'], "x")], [(['/', 'r', '/', 'l', 'o', 'g'], 5)]⟩⟩
      ⟨[['/', 'r', '/', 'a'], ['/', 'r', '/', 'l', 'o', 'g']],
        [(['/', 'r', '/', 'a'], "x")], [(['/', 'r', '/', 'l', 'o', 'g'], 5)]⟩
      ['/', 'r', '/', 'a'] rfl rfl).2 rfl⟩

/-- C8 counterexample: with root `/r` and an existing directory `/rx` —
a path that is absolute and does not lie under the root, yet has the root
as a string prefix — `mark_dirty` writes the marker file `/rx/.dirty`
first and only then raises the ValueError (at the ancestor `/`), refuting
"the failure is detected before any .dirty marker file is written". -/
theorem markDirty_partial_write_C8_cex :
    (markDirty ['/', 'r']
        (.dir (.cons ['r'] (.dir .nil) (.cons ['r', 'x'] (.dir .nil) .nil)))
        ['/', 'r', 'x']).2 = .error .valueError ∧
    hasDirtyAt (markDirty ['/', 'r']
        (.dir (.cons ['r'] (.dir .nil) (.cons ['r', 'x'] (.dir .nil) .nil)))
        ['/', 'r', 'x']).1 [['r', 'x']] = true := by
  exact ⟨rfl, rfl⟩

/-- C8 amended: `mark_dirty` fails before any write for a relative path
(the `isabs` assert) and for an absolute path that does not have the root
as a *string prefix* (the `startswith` check raises ValueError).  An
absolute path outside the root that does have the root as a string prefix
(e.g. `/rx` under root `/r`) passes the check, and marker files may be
written outside the root before the failure surfaces at an ancestor. -/
theorem markDirty_reject_C8 (root : PathStr) (fs : FSNode) (p : PathStr) :
    (isabs p = false → markDirty root fs p = (fs, .error .assertFail)) ∧
    (isabs p = true → root.isPrefixOf p = false →
      markDirty root fs p = (fs, .error .valueError)) := by
  constructor
  · intro h
    unfold markDirty
    rw [show p.length + 2 = (p.length + 1) + 1 from rfl, markDirtyF_succ]
    rw [h]
    simp
  · intro h1 h2
    unfold markDirty
    rw [show p.length + 2 = (p.length + 1) + 1 from rfl, markDirtyF_succ]
    rw [h1, h2]
    simp

theorem markDirty_reject_C8_witness :
    markDirty ['/', 'r'] (FSNode.dir .nil) ['x']
        = (FSNode.dir .nil, .error .assertFail) ∧
    markDirty ['/', 'r'] (FSNode.dir .nil) ['/', 'a']
        = (FSNode.dir .nil, .error .valueError) :=
  ⟨(markDirty_reject_C8 ['/', 'r'] (FSNode.dir .nil) ['x']).1 (by decide),
   (markDirty_reject_C8 ['/', 'r'] (FSNode.dir .nil) ['/', 'a']).2
     (by decide) (by decide)⟩

end ClaimsEasy

section ClaimC4

/-- C4: for a tree with files `root/x.txt` and `root/sub/y.txt`
(`root = /r`), after `update()` on the root, `get_files()` contains both
absolute paths (the subdirectory's store having been merged into the
parent's), and since `y.txt` is in the content allow-list,
`open_and_read('/r/sub/y.txt')` returns exactly that file's current
content. -/
theorem update_merge_C4 (cx cy : String) (m1 m2 : Int) :
    ∃ (fs2 : FSNode) (tr : List Ev) (t1 : UpSt) (ctr : Counters) (fls : List PathStr),
      upUpdate (mkUpTree ['/', 'r'] ⟨[['y', '.', 't', 'x', 't']], []⟩) false
          (c4Tree cx cy m1 m2) = (fs2, tr, .ok (t1, ctr)) ∧
      get_files t1 = .ok fls ∧
      (['/', 'r', '/', 'x', '.', 't', 'x', 't'] : PathStr) ∈ fls ∧
      (['/', 'r', '/', 's', 'u', 'b', '/', 'y', '.', 't', 'x', 't'] : PathStr) ∈ fls ∧
      open_and_read t1 ['/', 'r', '/', 's', 'u', 'b', '/', 'y', '.', 't', 'x', 't'] = .ok cy := by
  refine ⟨_, _, ⟨['/', 'r'], ⟨[['y', '.', 't', 'x', 't']], []⟩,
      some ⟨[['/', 'r', '/', 'x', '.', 't', 'x', 't'], ['/', 'r', '/', 's', 'u', 'b'],
             ['/', 'r', '/', 's', 'u', 'b', '/', 'y', '.', 't', 'x', 't']],
            [(['/', 'r', '/', 's', 'u', 'b', '/', 'y', '.', 't', 'x', 't'], cy)], []⟩⟩,
    ⟨2, 1, 0⟩,
    [['/', 'r', '/', 'x', '.', 't', 'x', 't'], ['/', 'r', '/', 's', 'u', 'b'],
     ['/', 'r', '/', 's', 'u', 'b', '/', 'y', '.', 't', 'x', 't']],
    rfl, rfl, by decide, by decide, rfl⟩

end ClaimC4

section ClaimC1

theorem goodName_dirty : goodName dirtyName := by decide

theorem goodNames_append (l m : List Name) (hl : goodNames l)
    (hm : goodNames m) : goodNames (l ++ m) := by
  intro n hn
  rcases List.mem_append.1 hn with h | h
  · exact hl n h
  · exact hm n h

theorem goodNames_take (l : List Name) (hl : goodNames l) (i : Nat) :
    goodNames (l.take i) :=
  fun n hn => hl n (List.mem_of_mem_take hn)

theorem goodNames_dropLast (l : List Name) (hl : goodNames l) :
    goodNames l.dropLast :=
  fun n hn => hl n (List.mem_of_mem_dropLast hn)

theorem goodNames_singleton_dirty : goodNames [dirtyName] := by
  intro n hn
  simp at hn
  subst hn
  exact goodName_dirty

theorem fsWriteP_canonical (fs : FSNode) (l : List Name) (n : Name)
    (d : FData) (mt : Int) (h : goodNames (l ++ [n])) :
    fsWriteP fs (mkAbs (l ++ [n])) d mt = writeAt fs l n d mt := by
  unfold fsWriteP
  rw [pathComps_mkAbs _ h, List.getLast?_concat, List.dropLast_concat]

theorem markDirty_write_step (fs : FSNode) (L : List Name) (hL : goodNames L)
    (hdir : kindAt fs L = some true)
    (hnodirty : kindAt fs (L ++ [dirtyName]) ≠ some true) :
    ∃ fs2, fsWriteP fs (pjoin (mkAbs L) dirtyName) (.text "") 0 = some fs2 ∧
      getNode fs2 (L ++ [dirtyName]) = some (.file (.text "") 0) ∧
      (∀ r, r ≠ L ++ [dirtyName] → kindAt fs2 r = kindAt fs r) := by
  have hgood2 : goodNames (L ++ [dirtyName]) :=
    goodNames_append L [dirtyName] hL goodNames_singleton_dirty
  rw [pjoin_mkAbs L dirtyName hL goodName_dirty.1 goodName_dirty.2.1]
  rw [fsWriteP_canonical fs L dirtyName _ _ hgood2]
  obtain ⟨fs2, hw⟩ := writeAt_some_of fs L dirtyName (.text "") 0 hdir hnodirty
  exact ⟨fs2, hw, getNode_writeAt_self _ _ _ _ _ _ hw, writeAt_kind _ _ _ _ _ _ hw⟩

theorem hasDirty_of_getNode (fs : FSNode) (q : List Name) (t : FSNode)
    (h : getNode fs (q ++ [dirtyName]) = some t) : hasDirtyAt fs q = true := by
  simp [hasDirtyAt, h]

theorem markDirtyF_run (fuel : Nat) (root : PathStr) (fs fs2 : FSNode)
    (dir0 : PathStr)
    (h1 : isabs dir0 = true) (h2 : root.isPrefixOf dir0 = true)
    (hfile : isfileP fs dir0 = false)
    (hw : fsWriteP fs (pjoin dir0 dirtyName) (.text "") 0 = some fs2) :
    markDirtyF (fuel + 1) root fs dir0
      = if normpath dir0 ≠ root then
          (match markDirtyF fuel root fs2 (parentdir dir0) with
           | (fs3, .ok k) => (fs3, .ok (k + 1))
           | (fs3, .error e) => (fs3, .error e))
        else (fs2, .ok 0) := by
  rw [markDirtyF_succ, h1]
  rw [if_neg (by simp)]
  rw [h2]
  rw [if_neg (by simp)]
  simp only [hfile, Bool.false_eq_true, if_false]
  rw [hw]

theorem markDirtyF_run_file (fuel : Nat) (root : PathStr) (fs fs2 : FSNode)
    (dir0 : PathStr)
    (h1 : isabs dir0 = true) (h2 : root.isPrefixOf dir0 = true)
    (hfile : isfileP fs dir0 = true)
    (hw : fsWriteP fs (pjoin (dirname dir0) dirtyName) (.text "") 0 = some fs2) :
    markDirtyF (fuel + 1) root fs dir0
      = if normpath (dirname dir0) ≠ root then
          (match markDirtyF fuel root fs2 (parentdir (dirname dir0)) with
           | (fs3, .ok k) => (fs3, .ok (k + 1))
           | (fs3, .error e) => (fs3, .error e))
        else (fs2, .ok 0) := by
  rw [markDirtyF_succ, h1]
  rw [if_neg (by simp)]
  rw [h2]
  rw [if_neg (by simp)]
  simp only [hfile, if_true]
  rw [hw]

/-- The recursion of `mark_dirty` from a directory `cs` levels below root:
every level up to and including root gets a marker, the return value counts
the levels, and entries away from the written markers keep their kind. -/
theorem markDirtyF_dir_levels (rootC : List Name) (hroot : goodNames rootC)
    (cs : List Name) :
    goodNames cs →
    ∀ (fs : FSNode) (fuel : Nat),
    (∀ i, i ≤ cs.length → kindAt fs (rootC ++ cs.take i) = some true) →
    (∀ i, i ≤ cs.length → kindAt fs ((rootC ++ cs.take i) ++ [dirtyName]) ≠ some true) →
    cs.length + 1 ≤ fuel →
    ∃ fs2, markDirtyF fuel (mkAbs rootC) fs (mkAbs (rootC ++ cs)) = (fs2, .ok cs.length) ∧
      (∀ i, i ≤ cs.length → hasDirtyAt fs2 (rootC ++ cs.take i) = true) ∧
      (∀ r, (∀ i, i ≤ cs.length → r ≠ (rootC ++ cs.take i) ++ [dirtyName]) →
        kindAt fs2 r = kindAt fs r) := by
  induction cs using List.reverseRecOn with
  | nil =>
    intro _ fs fuel hdirs hnodirty hfuel
    have hd0 : kindAt fs rootC = some true := by
      simpa using hdirs 0 (le_refl 0)
    have hn0 : kindAt fs (rootC ++ [dirtyName]) ≠ some true := by
      simpa using hnodirty 0 (le_refl 0)
    cases fuel with
    | zero => omega
    | succ f =>
      obtain ⟨fs2, hw, heff, hframe⟩ := markDirty_write_step fs rootC hroot hd0 hn0
      simp only [List.append_nil, List.length_nil]
      rw [markDirtyF_run f (mkAbs rootC) fs fs2 (mkAbs rootC) (isabs_mkAbs rootC)
        (by simpa using mkAbs_isPrefixOf rootC [])
        (isfileP_false_of_kind fs _ (by rwa [pathComps_mkAbs _ hroot]))
        hw]
      rw [if_neg (by
        simp only [ne_eq, not_not]
        exact normpath_mkAbs rootC hroot)]
      refine ⟨fs2, rfl, ?_, ?_⟩
      · intro i hi
        simp only [Nat.le_zero] at hi
        subst hi
        simpa using hasDirty_of_getNode fs2 rootC _ heff
      · intro r hr
        exact hframe r (by simpa using hr 0 (le_refl 0))
  | append_singleton cs c ih =>
    intro hgood fs fuel hdirs hnodirty hfuel
    have hgoodcs : goodNames cs := fun n hn => hgood n (List.mem_append.2 (Or.inl hn))
    have hgoodall : goodNames (rootC ++ (cs ++ [c])) :=
      goodNames_append _ _ hroot hgood
    have hdfull : kindAt fs (rootC ++ (cs ++ [c])) = some true := by
      have := hdirs (cs ++ [c]).length (le_refl _)
      rwa [List.take_length] at this
    have hnfull : kindAt fs ((rootC ++ (cs ++ [c])) ++ [dirtyName]) ≠ some true := by
      have := hnodirty (cs ++ [c]).length (le_refl _)
      rwa [List.take_length] at this
    cases fuel with
    | zero => omega
    | succ f =>
      obtain ⟨fs2, hw, heff, hframe⟩ :=
        markDirty_write_step fs (rootC ++ (cs ++ [c])) hgoodall hdfull hnfull
      rw [markDirtyF_run f (mkAbs rootC) fs fs2 (mkAbs (rootC ++ (cs ++ [c])))
        (isabs_mkAbs _) (mkAbs_isPrefixOf rootC (cs ++ [c]))
        (isfileP_false_of_kind fs _ (by rwa [pathComps_mkAbs _ hgoodall]))
        hw]
      have hneq : normpath (mkAbs (rootC ++ (cs ++ [c]))) ≠ mkAbs rootC := by
        rw [normpath_mkAbs _ hgoodall]
        intro hcon
        have heql := mkAbs_inj _ _ hgoodall hroot hcon
        have hlencon := congrArg List.length heql
        simp at hlencon
      rw [if_pos hneq]
      have hpar : parentdir (mkAbs (rootC ++ (cs ++ [c]))) = mkAbs (rootC ++ cs) := by
        rw [parentdir_mkAbs _ hgoodall]
        congr 1
        rw [show rootC ++ (cs ++ [c]) = (rootC ++ cs) ++ [c] by simp]
        exact List.dropLast_concat
      rw [hpar]
      have htarget_len : ∀ i, i ≤ cs.length →
          (rootC ++ cs.take i) ++ [dirtyName] ≠ (rootC ++ (cs ++ [c])) ++ [dirtyName] := by
        intro i hi hcon
        have hlc := congrArg List.length hcon
        simp only [List.length_append, List.length_take, List.length_cons] at hlc
        omega
      have hdirs2 : ∀ i, i ≤ cs.length → kindAt fs2 (rootC ++ cs.take i) = some true := by
        intro i hi
        rw [hframe _ (by
          intro hcon
          have hlc := congrArg List.length hcon
          simp only [List.length_append, List.length_take, List.length_cons] at hlc
          omega)]
        have := hdirs i (by simp only [List.length_append, List.length_cons, List.length_nil]; omega)
        rwa [List.take_append_of_le_length hi] at this
      have hnodirty2 : ∀ i, i ≤ cs.length →
          kindAt fs2 ((rootC ++ cs.take i) ++ [dirtyName]) ≠ some true := by
        intro i hi
        rw [hframe _ (htarget_len i hi)]
        have := hnodirty i (by simp only [List.length_append, List.length_cons, List.length_nil]; omega)
        rwa [List.take_append_of_le_length hi] at this
      obtain ⟨fs3, hrec, hmarks, hframe2⟩ :=
        ih hgoodcs fs2 f hdirs2 hnodirty2 (by
          simp only [List.length_append, List.length_cons, List.length_nil] at hfuel
          omega)
      rw [hrec]
      refine ⟨fs3, by simp, ?_, ?_⟩
      · intro i hi
        by_cases hic : i ≤ cs.length
        · rw [List.take_append_of_le_length hic]
          exact hmarks i hic
        · have hieq : i = cs.length + 1 := by
            simp only [List.length_append, List.length_cons, List.length_nil] at hi
            omega
          subst hieq
          rw [show (cs ++ [c]).take (cs.length + 1) = cs ++ [c] by
            have := List.take_length (l := cs ++ [c])
            simpa using this]
          rw [hasDirtyAt_eq_kind]
          rw [hframe2 _ (fun j hj hcon => htarget_len j hj hcon.symm)]
          have hkf : kindAt fs2 ((rootC ++ (cs ++ [c])) ++ [dirtyName]) = some false := by
            unfold kindAt
            rw [heff]
            rfl
          rw [hkf]
          rfl
      · intro r hr
        rw [hframe2 r (fun j hj => by
          have := hr j (by simp only [List.length_append, List.length_cons, List.length_nil]; omega)
          rwa [List.take_append_of_le_length hj] at this)]
        exact hframe r (by
          have := hr (cs ++ [c]).length (le_refl _)
          rwa [List.take_length] at this)

theorem take_dropLast_eq (cs : List Name) (i : Nat) (hi : i ≤ cs.length - 1) :
    cs.dropLast.take i = cs.take i := by
  rw [List.dropLast_eq_take, List.take_take]
  congr 1
  omega

/-- C1: for a file path lying `k` parent-directory steps below root
(`k = cs.length`, measured from the file's containing directory up to
root), `mark_dirty` writes a `.dirty` marker in the containing directory
and in every ancestor directory up to and including root, and returns `k`
— in particular 0 when the containing directory is root itself. -/
theorem markDirty_propagation_C1 (rootC cs : List Name) (fname : Name) (fs : FSNode)
    (hroot : goodNames rootC) (hcs : goodNames cs) (hf : goodName fname)
    (hfile : kindAt fs (rootC ++ cs ++ [fname]) = some false)
    (hdirs : ∀ i, i ≤ cs.length → kindAt fs (rootC ++ cs.take i) = some true)
    (hnodirty : ∀ i, i ≤ cs.length →
      kindAt fs ((rootC ++ cs.take i) ++ [dirtyName]) ≠ some true) :
    ∃ fs2, markDirty (mkAbs rootC) fs (mkAbs (rootC ++ cs ++ [fname]))
        = (fs2, .ok cs.length) ∧
      ∀ i, i ≤ cs.length → hasDirtyAt fs2 (rootC ++ cs.take i) = true := by
  have hgoodrc : goodNames (rootC ++ cs) := goodNames_append _ _ hroot hcs
  have hgoodp : goodNames ((rootC ++ cs) ++ [fname]) :=
    goodNames_append _ _ hgoodrc (by intro n hn; simp at hn; subst hn; exact hf)
  have hassoc : rootC ++ cs ++ [fname] = (rootC ++ cs) ++ [fname] := rfl
  have hdfull : kindAt fs (rootC ++ cs) = some true := by
    have := hdirs cs.length (le_refl _)
    rwa [List.take_length] at this
  have hnfull : kindAt fs ((rootC ++ cs) ++ [dirtyName]) ≠ some true := by
    have := hnodirty cs.length (le_refl _)
    rwa [List.take_length] at this
  obtain ⟨fs2, hw, heff, hframe⟩ :=
    markDirty_write_step fs (rootC ++ cs) hgoodrc hdfull hnfull
  have hdirn : dirname (mkAbs (rootC ++ cs ++ [fname])) = mkAbs (rootC ++ cs) := by
    rw [hassoc]
    exact dirname_mkAbs (rootC ++ cs) fname hgoodrc hf.2.1
  have hisfile : isfileP fs (mkAbs (rootC ++ cs ++ [fname])) = true := by
    apply isfileP_of_kind
    rw [hassoc, pathComps_mkAbs _ hgoodp]
    rwa [hassoc] at hfile
  have hlenp : cs.length + 1 ≤ (mkAbs (rootC ++ cs ++ [fname])).length := by
    have h1 := length_mkAbs_ge (rootC ++ cs ++ [fname])
      (fun n hn => (hgoodp n (hassoc ▸ hn)).1)
    simp only [List.length_append, List.length_cons, List.length_nil] at h1
    omega
  unfold markDirty
  rw [show (mkAbs (rootC ++ cs ++ [fname])).length + 2
      = ((mkAbs (rootC ++ cs ++ [fname])).length + 1) + 1 from rfl]
  rw [markDirtyF_run_file _ (mkAbs rootC) fs fs2 _ (isabs_mkAbs _)
    (by rw [List.append_assoc]; exact mkAbs_isPrefixOf rootC (cs ++ [fname]))
    hisfile (by rw [hdirn]; exact hw)]
  rw [hdirn]
  rw [normpath_mkAbs _ hgoodrc]
  by_cases hcnil : cs = []
  · subst hcnil
    rw [if_neg (by simp)]
    refine ⟨fs2, rfl, ?_⟩
    intro i hi
    simp only [List.length_nil, Nat.le_zero] at hi
    subst hi
    simp only [List.take_nil, List.append_nil]
    exact hasDirty_of_getNode fs2 rootC _ (by simpa using heff)
  · have hneq : mkAbs (rootC ++ cs) ≠ mkAbs rootC := by
      intro hcon
      have heql := mkAbs_inj _ _ hgoodrc hroot hcon
      have hlencon := congrArg List.length heql
      simp only [List.length_append] at hlencon
      have : cs.length = 0 := by omega
      exact hcnil (List.length_eq_zero.1 this)
    rw [if_pos hneq]
    have hpar : parentdir (mkAbs (rootC ++ cs)) = mkAbs (rootC ++ cs.dropLast) := by
      rw [parentdir_mkAbs _ hgoodrc]
      congr 1
      exact List.dropLast_append_of_ne_nil rootC hcnil
    rw [hpar]
    have hlpos : 1 ≤ cs.length := by
      cases hc2 : cs with
      | nil => exact absurd hc2 hcnil
      | cons a b => simp
    have htarget_len : ∀ i, i ≤ cs.length - 1 →
        (rootC ++ cs.take i) ++ [dirtyName] ≠ (rootC ++ cs) ++ [dirtyName] := by
      intro i hi hcon
      have hlc := congrArg List.length hcon
      simp only [List.length_append, List.length_take, List.length_cons] at hlc
      omega
    have hdirs2 : ∀ i, i ≤ cs.dropLast.length →
        kindAt fs2 (rootC ++ cs.dropLast.take i) = some true := by
      intro i hi
      rw [List.length_dropLast] at hi
      rw [take_dropLast_eq cs i hi]
      rw [hframe _ (by
        intro hcon
        have hlc := congrArg List.length hcon
        simp only [List.length_append, List.length_take] at hlc
        omega)]
      exact hdirs i (by omega)
    have hnodirty2 : ∀ i, i ≤ cs.dropLast.length →
        kindAt fs2 ((rootC ++ cs.dropLast.take i) ++ [dirtyName]) ≠ some true := by
      intro i hi
      rw [List.length_dropLast] at hi
      rw [take_dropLast_eq cs i hi]
      rw [hframe _ (htarget_len i hi)]
      exact hnodirty i (by omega)
    obtain ⟨fs3, hrec, hmarks, hframe2⟩ :=
      markDirtyF_dir_levels rootC hroot cs.dropLast (goodNames_dropLast cs hcs)
        fs2 ((mkAbs (rootC ++ cs ++ [fname])).length + 1)
        hdirs2 hnodirty2 (by
          rw [List.length_dropLast]
          omega)
    rw [hrec]
    have hlendl : cs.dropLast.length = cs.length - 1 := List.length_dropLast cs
    refine ⟨fs3, ?_, ?_⟩
    · rw [show cs.length = cs.dropLast.length + 1 by rw [hlendl]; omega]
    · intro i hi
      by_cases hic : i ≤ cs.length - 1
      · have := hmarks i (by rw [hlendl]; omega)
        rwa [take_dropLast_eq cs i hic] at this
      · have hieq : i = cs.length := by omega
        subst hieq
        rw [List.take_length]
        rw [hasDirtyAt_eq_kind]
        rw [hframe2 _ (fun j hj hcon => by
          rw [take_dropLast_eq cs j (by rw [hlendl] at hj; omega)] at hcon
          exact htarget_len j (by rw [hlendl] at hj; omega) hcon.symm)]
        have hkf : kindAt fs2 ((rootC ++ cs) ++ [dirtyName]) = some false := by
          unfold kindAt
          rw [heff]
          rfl
        rw [hkf]
        rfl

end ClaimC1
theorem markDirty_propagation_C1_witness :
    ∃ fs2, markDirty (mkAbs [['r']])
        (.dir (.cons ['r'] (.dir (.cons ['a'] (.dir (.cons ['b'] (.dir (.cons ['c']
          (.dir (.cons ['f'] (.file (.text "x") 0) .nil)) .nil)) .nil)) .nil)) .nil))
        (mkAbs ([['r']] ++ [['a'], ['b'], ['c']] ++ [['f']]))
        = (fs2, .ok ([['a'], ['b'], ['c']] : List Name).length) ∧
      ∀ i, i ≤ ([['a'], ['b'], ['c']] : List Name).length →
        hasDirtyAt fs2 ([['r']] ++ ([['a'], ['b'], ['c']] : List Name).take i) = true :=
  markDirty_propagation_C1 [['r']] [['a'], ['b'], ['c']] ['f']
    (.dir (.cons ['r'] (.dir (.cons ['a'] (.dir (.cons ['b'] (.dir (.cons ['c']
      (.dir (.cons ['f'] (.file (.text "x") 0) .nil)) .nil)) .nil)) .nil)) .nil))
    (by decide) (by decide) (by decide) (by decide) (by decide) (by decide)


section UpdateMachinery

mutual
theorem FS.recN (motN : FSNode → Prop) (motL : FSList → Prop)
    (hfile : ∀ d mt, motN (.file d mt))
    (hdir : ∀ cs, motL cs → motN (.dir cs))
    (hnil : motL .nil)
    (hcons : ∀ n t rest, motN t → motL rest → motL (.cons n t rest)) :
    ∀ t, motN t
  | .file d mt => hfile d mt
  | .dir cs => hdir cs (FS.recL motN motL hfile hdir hnil hcons cs)
theorem FS.recL (motN : FSNode → Prop) (motL : FSList → Prop)
    (hfile : ∀ d mt, motN (.file d mt))
    (hdir : ∀ cs, motL cs → motN (.dir cs))
    (hnil : motL .nil)
    (hcons : ∀ n t rest, motN t → motL rest → motL (.cons n t rest)) :
    ∀ cs, motL cs
  | .nil => hnil
  | .cons n t rest => hcons n t rest (FS.recN motN motL hfile hdir hnil hcons t)
      (FS.recL motN motL hfile hdir hnil hcons rest)
end

theorem updateNode_file_eq (cfg : Cfg) (force : Bool) (cur : PathStr)
    (qc : List Name) (d : FData) (mt : Int) (ctr : Counters) :
    updateNode cfg force cur qc (.file d mt) ctr
      = ⟨.file d mt, [], .error .listNonDir⟩ := rfl

theorem updateNode_rebuild_eq (cfg : Cfg) (force : Bool) (cur : PathStr)
    (qc : List Name) (cs : FSList) (ctr : Counters)
    (h : takesFastPath force (.dir cs) = false) :
    updateNode cfg force cur qc (.dir cs) ctr
      = (match updateChildren cfg force cur qc cs emptyCache ctr with
         | ⟨cs2, tr, .error e⟩ => ⟨.dir cs2, tr, .error e⟩
         | ⟨cs2, tr, .ok (cache, ctr2)⟩ =>
           (match cs2.find? cacheName with
            | some (.dir _) => ⟨.dir cs2, tr, .error .openDir⟩
            | _ =>
              let cs3 := cs2.setEntry cacheName (.file (.pickle cache) 0)
              (match cs3.find? dirtyName with
               | some (.dir _) => ⟨.dir cs3, tr ++ [.syncEv qc], .error .removeDir⟩
               | some (.file _ _) =>
                 ⟨.dir (cs3.erase dirtyName), tr ++ [.syncEv qc, .rmDirtyEv qc],
                   .ok (cache, { ctr2 with
                     directories_processed := ctr2.directories_processed + 1 })⟩
               | none =>
                 ⟨.dir cs3, tr ++ [.syncEv qc],
                   .ok (cache, { ctr2 with
                     directories_processed := ctr2.directories_processed + 1 })⟩))) := by
  rw [updateNode, h]
  rfl

theorem updateNode_fast_pickle (cfg : Cfg) (force : Bool) (cur : PathStr)
    (qc : List Name) (cs : FSList) (ctr : Counters) (c : Cache) (mt : Int)
    (h : takesFastPath force (.dir cs) = true)
    (hc : cs.find? cacheName = some (.file (.pickle c) mt)) :
    updateNode cfg force cur qc (.dir cs) ctr = ⟨.dir cs, [], .ok (c, ctr)⟩ := by
  rw [updateNode, h, hc]
  rfl

theorem updateNode_fast_text (cfg : Cfg) (force : Bool) (cur : PathStr)
    (qc : List Name) (cs : FSList) (ctr : Counters) (s : String) (mt : Int)
    (h : takesFastPath force (.dir cs) = true)
    (hc : cs.find? cacheName = some (.file (.text s) mt)) :
    updateNode cfg force cur qc (.dir cs) ctr = ⟨.dir cs, [], .error .unpickle⟩ := by
  rw [updateNode, h, hc]
  rfl

theorem updateNode_fast_dircache (cfg : Cfg) (force : Bool) (cur : PathStr)
    (qc : List Name) (cs : FSList) (ctr : Counters) (ccs : FSList)
    (h : takesFastPath force (.dir cs) = true)
    (hc : cs.find? cacheName = some (.dir ccs)) :
    updateNode cfg force cur qc (.dir cs) ctr = ⟨.dir cs, [], .error .openDir⟩ := by
  rw [updateNode, h, hc]
  rfl

theorem updateNode_fast_none (cfg : Cfg) (force : Bool) (cur : PathStr)
    (qc : List Name) (cs : FSList) (ctr : Counters)
    (h : takesFastPath force (.dir cs) = true)
    (hc : cs.find? cacheName = none) :
    updateNode cfg force cur qc (.dir cs) ctr = ⟨.dir cs, [], .error .unpickle⟩ := by
  rw [updateNode, h, hc]
  rfl

theorem updateChildren_nil_eq (cfg : Cfg) (force : Bool) (cur : PathStr)
    (qc : List Name) (cache : Cache) (ctr : Counters) :
    updateChildren cfg force cur qc .nil cache ctr = ⟨.nil, [], .ok (cache, ctr)⟩ := rfl

theorem updateChildren_cons_hidden (cfg : Cfg) (force : Bool) (cur : PathStr)
    (qc : List Name) (n : Name) (child : FSNode) (rest : FSList)
    (cache : Cache) (ctr : Counters) (h : hiddenName n = true) :
    updateChildren cfg force cur qc (.cons n child rest) cache ctr
      = (match updateChildren cfg force cur qc rest cache ctr with
         | ⟨rest2, tr, r⟩ => ⟨.cons n child rest2, tr, r⟩) := by
  rw [updateChildren, h]
  rfl

theorem updateChildren_cons_dir (cfg : Cfg) (force : Bool) (cur : PathStr)
    (qc : List Name) (n : Name) (ccs : FSList) (rest : FSList)
    (cache : Cache) (ctr : Counters) (h : hiddenName n = false) :
    updateChildren cfg force cur qc (.cons n (.dir ccs) rest) cache ctr
      = (match updateNode cfg force (pjoin cur n) (qc ++ [n]) (.dir ccs) ctr with
         | ⟨child2, trc, .error e⟩ => ⟨.cons n child2 rest, trc, .error e⟩
         | ⟨child2, trc, .ok (sub, ctr2)⟩ =>
           (match updateChildren cfg force cur qc rest
               (Cache.addSubCache { cache with
                 files := setAdd cache.files (pjoin cur n) } sub) ctr2 with
            | ⟨rest2, tr2, r⟩ => ⟨.cons n child2 rest2, trc ++ tr2, r⟩)) := by
  rw [updateChildren, h]
  rfl

theorem updateChildren_cons_file (cfg : Cfg) (force : Bool) (cur : PathStr)
    (qc : List Name) (n : Name) (d : FData) (mt : Int) (rest : FSList)
    (cache : Cache) (ctr : Counters) (h : hiddenName n = false) :
    updateChildren cfg force cur qc (.cons n (.file d mt) rest) cache ctr
      = (match fileStepContent cfg n (pjoin cur n) d
            { cache with files := setAdd cache.files (pjoin cur n) } ctr with
         | .error e => ⟨.cons n (.file d mt) rest, [], .error e⟩
         | .ok (cache3, ctr3) =>
           (match fileStepMtime cfg n (pjoin cur n) mt cache3 ctr3 with
            | (cache4, ctr4) =>
              (match updateChildren cfg force cur qc rest cache4 ctr4 with
               | ⟨rest2, tr2, r⟩ => ⟨.cons n (.file d mt) rest2, tr2, r⟩))) := by
  rw [updateChildren, h]
  rfl

end UpdateMachinery

section C10Helpers

theorem FSList.find?_cons (n : Name) (t : FSNode) (rest : FSList) (m : Name) :
    (FSList.cons n t rest).find? m = if n = m then some t else rest.find? m := rfl

theorem visible_ne_dirty (n : Name) (h : hiddenName n = false) : n ≠ dirtyName := by
  intro hcon
  subst hcon
  simp [hiddenName, dirtyName] at h

theorem visible_ne_cache (n : Name) (h : hiddenName n = false) : n ≠ cacheName := by
  intro hcon
  subst hcon
  simp [hiddenName, cacheName] at h

theorem hasDirtyAt_nil_eq (cs : FSList) :
    hasDirtyAt (.dir cs) [] = (cs.find? dirtyName).isSome := by
  unfold hasDirtyAt
  simp only [List.nil_append, getNode]
  cases hf : cs.find? dirtyName with
  | none => rfl
  | some t => rfl

theorem hasDirtyAt_dir_cons_q (cs : FSList) (m : Name) (q2 : List Name) :
    hasDirtyAt (.dir cs) (m :: q2)
      = (match cs.find? m with
         | some t => hasDirtyAt t q2
         | none => false) := by
  unfold hasDirtyAt
  simp only [List.cons_append, getNode]
  cases hf : cs.find? m with
  | none => rfl
  | some t => rfl

theorem hasDirtyAt_file (d : FData) (mt : Int) (q : List Name) :
    hasDirtyAt (.file d mt) q = false := by
  unfold hasDirtyAt
  cases q with
  | nil => rfl
  | cons a b => rfl

theorem traceOrder_nil : TraceOrder [] := by
  intro q l1 l2 h
  exact absurd h (by simp)

theorem traceOrder_append (t1 t2 : List Ev) (h1 : TraceOrder t1) (h2 : TraceOrder t2) :
    TraceOrder (t1 ++ t2) := by
  intro q l1 l2 heq
  rcases List.append_eq_append_iff.1 heq with ⟨w, hc, hd⟩ | ⟨w, hc, hd⟩
  · have := h2 q w l2 hd
    rw [hc]
    exact List.mem_append.2 (Or.inr this)
  · cases w with
    | nil =>
      have := h2 q [] l2 (by simpa using hd.symm)
      simp at this
    | cons e w2 =>
      injection hd with he hl
      subst he
      exact h1 q l1 w2 hc

theorem traceOrder_single_sync (q0 : List Name) : TraceOrder [Ev.syncEv q0] := by
  intro q l1 l2 heq
  cases l1 with
  | nil => simp at heq
  | cons a l1b => simp at heq

end C10Helpers

theorem traceOrder_append_sync_rm (tr : List Ev) (q0 : List Name)
    (h : TraceOrder tr) :
    TraceOrder (tr ++ [Ev.syncEv q0, Ev.rmDirtyEv q0]) := by
  intro q l1 l2 heq
  rcases List.append_eq_append_iff.1 heq with ⟨w, hc, hd⟩ | ⟨w, hc, hd⟩
  · cases w with
    | nil => simp at hd
    | cons e w2 =>
      injection hd with he hl
      subst he
      cases w2 with
      | nil =>
        injection hl with he2 hl2
        injection he2 with hq
        rw [hc, ← hq]
        simp
      | cons e2 w3 =>
        injection hl with he2 hl2
        subst he2
        simp at hl2
  · cases w with
    | nil => simp at hd
    | cons e w2 =>
      injection hd with he hl
      subst he
      exact h q l1 w2 hc

theorem dirty_no_fastPath (force : Bool) (node : FSNode)
    (h : hasDirtyAt node [] = true) : takesFastPath force node = false := by
  cases node with
  | file d mt => simp [takesFastPath]
  | dir cs =>
    rw [hasDirtyAt_nil_eq] at h
    unfold takesFastPath
    cases hf : cs.find? dirtyName with
    | none => rw [hf] at h; simp at h
    | some t => simp [hf]

theorem updateChildren_find?_hidden (cfg : Cfg) (force : Bool) (cur : PathStr)
    (qc : List Name) (cs : FSList) :
    ∀ (cache : Cache) (ctr : Counters) (n : Name), hiddenName n = true →
      ((updateChildren cfg force cur qc cs cache ctr).cs).find? n = cs.find? n := by
  induction cs using FSList.indL with
  | h0 => intro cache ctr n hn; rfl
  | h1 m child rest ih =>
    intro cache ctr n hn
    by_cases hm : hiddenName m = true
    · have hEQ := updateChildren_cons_hidden cfg force cur qc m child rest cache ctr hm
      cases hu : updateChildren cfg force cur qc rest cache ctr with
      | mk rest2 tr r =>
        rw [hu] at hEQ
        have hEQ2 : updateChildren cfg force cur qc (.cons m child rest) cache ctr
            = ⟨.cons m child rest2, tr, r⟩ := hEQ
        rw [hEQ2]
        show (FSList.cons m child rest2).find? n = (FSList.cons m child rest).find? n
        rw [FSList.find?_cons, FSList.find?_cons]
        by_cases hmn : m = n
        · simp [hmn]
        · rw [if_neg hmn, if_neg hmn]
          have hr := ih cache ctr n hn
          rw [hu] at hr
          exact hr
    · have hmf : hiddenName m = false := by simpa using hm
      have hmn : m ≠ n := by
        intro hcon
        rw [hcon, hn] at hmf
        cases hmf
      cases child with
      | dir ccs =>
        have hEQ := updateChildren_cons_dir cfg force cur qc m ccs rest cache ctr hmf
        cases hn2 : updateNode cfg force (pjoin cur m) (qc ++ [m]) (.dir ccs) ctr with
        | mk child2 trc rc =>
          rw [hn2] at hEQ
          cases rc with
          | error e =>
            have hEQ2 : updateChildren cfg force cur qc (.cons m (.dir ccs) rest) cache ctr
                = ⟨.cons m child2 rest, trc, .error e⟩ := hEQ
            rw [hEQ2]
            show (FSList.cons m child2 rest).find? n = (FSList.cons m (.dir ccs) rest).find? n
            rw [FSList.find?_cons, FSList.find?_cons, if_neg hmn, if_neg hmn]
          | ok pr =>
            obtain ⟨sub, ctr2⟩ := pr
            have hEQb : updateChildren cfg force cur qc (.cons m (.dir ccs) rest) cache ctr
                = (match updateChildren cfg force cur qc rest
                    (Cache.addSubCache { cache with
                      files := setAdd cache.files (pjoin cur m) } sub) ctr2 with
                   | ⟨rest2, tr2, r⟩ => ⟨.cons m child2 rest2, trc ++ tr2, r⟩) := hEQ
            cases hu : updateChildren cfg force cur qc rest
                (Cache.addSubCache { cache with
                  files := setAdd cache.files (pjoin cur m) } sub) ctr2 with
            | mk rest2 tr2 r =>
              rw [hu] at hEQb
              have hEQ2 : updateChildren cfg force cur qc (.cons m (.dir ccs) rest) cache ctr
                  = ⟨.cons m child2 rest2, trc ++ tr2, r⟩ := hEQb
              rw [hEQ2]
              show (FSList.cons m child2 rest2).find? n
                  = (FSList.cons m (.dir ccs) rest).find? n
              rw [FSList.find?_cons, FSList.find?_cons, if_neg hmn, if_neg hmn]
              have hr := ih (Cache.addSubCache { cache with
                  files := setAdd cache.files (pjoin cur m) } sub) ctr2 n hn
              rw [hu] at hr
              exact hr
      | file d mt =>
        have hEQ := updateChildren_cons_file cfg force cur qc m d mt rest cache ctr hmf
        cases hfc : fileStepContent cfg m (pjoin cur m) d
            { cache with files := setAdd cache.files (pjoin cur m) } ctr with
        | error e =>
          rw [hfc] at hEQ
          have hEQ2 : updateChildren cfg force cur qc (.cons m (.file d mt) rest) cache ctr
              = ⟨.cons m (.file d mt) rest, [], .error e⟩ := hEQ
          rw [hEQ2]
        | ok pr =>
          obtain ⟨cache3, ctr3⟩ := pr
          rw [hfc] at hEQ
          have hEQc : updateChildren cfg force cur qc (.cons m (.file d mt) rest) cache ctr
              = (match fileStepMtime cfg m (pjoin cur m) mt cache3 ctr3 with
                 | (cache4, ctr4) =>
                   (match updateChildren cfg force cur qc rest cache4 ctr4 with
                    | ⟨rest2, tr2, r⟩ => ⟨.cons m (.file d mt) rest2, tr2, r⟩)) := hEQ
          cases hms : fileStepMtime cfg m (pjoin cur m) mt cache3 ctr3 with
          | mk cache4 ctr4 =>
            rw [hms] at hEQc
            have hEQb : updateChildren cfg force cur qc (.cons m (.file d mt) rest) cache ctr
                = (match updateChildren cfg force cur qc rest cache4 ctr4 with
                   | ⟨rest2, tr2, r⟩ => ⟨.cons m (.file d mt) rest2, tr2, r⟩) := hEQc
            cases hu : updateChildren cfg force cur qc rest cache4 ctr4 with
            | mk rest2 tr2 r =>
              rw [hu] at hEQb
              have hEQ2 : updateChildren cfg force cur qc (.cons m (.file d mt) rest) cache ctr
                  = ⟨.cons m (.file d mt) rest2, tr2, r⟩ := hEQb
              rw [hEQ2]
              show (FSList.cons m (.file d mt) rest2).find? n
                  = (FSList.cons m (.file d mt) rest).find? n
              rw [FSList.find?_cons, FSList.find?_cons, if_neg hmn, if_neg hmn]
              have hr := ih cache4 ctr4 n hn
              rw [hu] at hr
              exact hr

section C10Main

theorem uNodeSafe_file : ∀ (d : FData) (mt : Int), UNodeSafe (.file d mt) := by
  intro d mt cfg force cur qc ctr
  rw [updateNode_file_eq]
  exact ⟨traceOrder_nil, fun q hq _ => hq⟩

theorem uListSafe_nil : UListSafe .nil := by
  intro cfg force cur qc cache ctr
  rw [updateChildren_nil_eq]
  exact ⟨traceOrder_nil, fun q hq _ => hq⟩

theorem uNodeSafe_dir : ∀ cs, UListSafe cs → UNodeSafe (.dir cs) := by
  intro cs ihL cfg force cur qc ctr
  by_cases hfp : takesFastPath force (.dir cs) = true
  · cases hcf : cs.find? cacheName with
    | none =>
      rw [updateNode_fast_none cfg force cur qc cs ctr hfp hcf]
      exact ⟨traceOrder_nil, fun q hq _ => hq⟩
    | some t =>
      cases t with
      | dir ccs =>
        rw [updateNode_fast_dircache cfg force cur qc cs ctr ccs hfp hcf]
        exact ⟨traceOrder_nil, fun q hq _ => hq⟩
      | file d mt =>
        cases d with
        | text s =>
          rw [updateNode_fast_text cfg force cur qc cs ctr s mt hfp hcf]
          exact ⟨traceOrder_nil, fun q hq _ => hq⟩
        | pickle c =>
          rw [updateNode_fast_pickle cfg force cur qc cs ctr c mt hfp hcf]
          exact ⟨traceOrder_nil, fun q hq _ => hq⟩
  · have hfp2 : takesFastPath force (.dir cs) = false := by simpa using hfp
    have hEQ := updateNode_rebuild_eq cfg force cur qc cs ctr hfp2
    obtain ⟨htrL, hdirtyL⟩ := ihL cfg force cur qc emptyCache ctr
    have hfindDirty := updateChildren_find?_hidden cfg force cur qc cs emptyCache ctr
      dirtyName (by decide)
    have hfindCache := updateChildren_find?_hidden cfg force cur qc cs emptyCache ctr
      cacheName (by decide)
    cases hu : updateChildren cfg force cur qc cs emptyCache ctr with
    | mk cs2 tr r =>
      rw [hu] at hEQ htrL hdirtyL hfindDirty hfindCache
      have htr2 : TraceOrder tr := htrL
      have hdirty2 : ∀ q, hasDirtyAt (.dir cs) q = true →
          Ev.syncEv (qc ++ q) ∉ tr → hasDirtyAt (.dir cs2) q = true := hdirtyL
      have hfD : cs2.find? dirtyName = cs.find? dirtyName := hfindDirty
      have hfC : cs2.find? cacheName = cs.find? cacheName := hfindCache
      cases r with
      | error e =>
        have hEQ2 : updateNode cfg force cur qc (.dir cs) ctr
            = ⟨.dir cs2, tr, .error e⟩ := hEQ
        rw [hEQ2]
        exact ⟨htr2, fun q hq hs => hdirty2 q hq hs⟩
      | ok pr =>
        obtain ⟨cache, ctr2⟩ := pr
        have hEQb : updateNode cfg force cur qc (.dir cs) ctr
            = (match cs2.find? cacheName with
               | some (.dir _) => (⟨.dir cs2, tr, .error .openDir⟩ : URes)
               | _ =>
                 (match (cs2.setEntry cacheName
                     (.file (.pickle cache) 0)).find? dirtyName with
                  | some (.dir _) =>
                    ⟨.dir (cs2.setEntry cacheName (.file (.pickle cache) 0)),
                      tr ++ [.syncEv qc], .error .removeDir⟩
                  | some (.file _ _) =>
                    ⟨.dir ((cs2.setEntry cacheName
                        (.file (.pickle cache) 0)).erase dirtyName),
                      tr ++ [.syncEv qc, .rmDirtyEv qc],
                      .ok (cache, { ctr2 with
                        directories_processed := ctr2.directories_processed + 1 })⟩
                  | none =>
                    ⟨.dir (cs2.setEntry cacheName (.file (.pickle cache) 0)),
                      tr ++ [.syncEv qc],
                      .ok (cache, { ctr2 with
                        directories_processed := ctr2.directories_processed + 1 })⟩)) := hEQ
        have hset : ∀ m, m ≠ cacheName →
            (cs2.setEntry cacheName (.file (.pickle cache) 0)).find? m = cs2.find? m :=
          fun m hm => FSList.find?_setEntry_ne cs2 cacheName m _ hm
        have hcommon : ∀ (cs3 : FSList) (m : Name) (q2 : List Name),
            (m ≠ cacheName → cs3.find? m = cs2.find? m) →
            (cs.find? cacheName = none ∨
              ∃ d0 mt0, cs.find? cacheName = some (.file d0 mt0)) →
            hasDirtyAt (.dir cs) (m :: q2) = true →
            Ev.syncEv (qc ++ (m :: q2)) ∉ tr →
            hasDirtyAt (.dir cs3) (m :: q2) = true := by
          intro cs3 m q2 h3 hcc hq hs
          rw [hasDirtyAt_dir_cons_q] at hq ⊢
          by_cases hmc : m = cacheName
          · exfalso
            subst hmc
            rcases hcc with hnone | ⟨d0, mt0, hfile0⟩
            · rw [hnone] at hq
              exact Bool.noConfusion hq
            · rw [hfile0] at hq
              have hq2 : hasDirtyAt (.file d0 mt0) q2 = true := hq
              rw [hasDirtyAt_file] at hq2
              exact Bool.noConfusion hq2
          · rw [h3 hmc]
            have := hdirty2 (m :: q2) (by rw [hasDirtyAt_dir_cons_q]; exact hq) hs
            rwa [hasDirtyAt_dir_cons_q] at this
        have hfinish : (cs.find? cacheName = none ∨
            ∃ d1 mt1, cs.find? cacheName = some (.file d1 mt1)) →
            (updateNode cfg force cur qc (.dir cs) ctr
              = (match (cs2.setEntry cacheName
                    (.file (.pickle cache) 0)).find? dirtyName with
                 | some (.dir _) =>
                   (⟨.dir (cs2.setEntry cacheName (.file (.pickle cache) 0)),
                     tr ++ [.syncEv qc], .error .removeDir⟩ : URes)
                 | some (.file _ _) =>
                   ⟨.dir ((cs2.setEntry cacheName
                       (.file (.pickle cache) 0)).erase dirtyName),
                     tr ++ [.syncEv qc, .rmDirtyEv qc],
                     .ok (cache, { ctr2 with
                       directories_processed := ctr2.directories_processed + 1 })⟩
                 | none =>
                   ⟨.dir (cs2.setEntry cacheName (.file (.pickle cache) 0)),
                     tr ++ [.syncEv qc],
                     .ok (cache, { ctr2 with
                       directories_processed := ctr2.directories_processed + 1 })⟩)) →
            TraceOrder (updateNode cfg force cur qc (.dir cs) ctr).tr ∧
            (∀ q, hasDirtyAt (.dir cs) q = true →
              Ev.syncEv (qc ++ q) ∉ (updateNode cfg force cur qc (.dir cs) ctr).tr →
              hasDirtyAt (updateNode cfg force cur qc (.dir cs) ctr).node q = true) := by
          intro hcc hEQc
          cases hd3 : (cs2.setEntry cacheName
              (.file (.pickle cache) 0)).find? dirtyName with
          | none =>
            rw [hd3] at hEQc
            have hEQ2 : updateNode cfg force cur qc (.dir cs) ctr
                = ⟨.dir (cs2.setEntry cacheName (.file (.pickle cache) 0)),
                    tr ++ [.syncEv qc],
                    .ok (cache, { ctr2 with
                      directories_processed := ctr2.directories_processed + 1 })⟩ := hEQc
            rw [hEQ2]
            refine ⟨traceOrder_append tr [Ev.syncEv qc] htr2 (traceOrder_single_sync qc), ?_⟩
            intro q hq hs
            cases q with
            | nil =>
              exfalso
              apply hs
              simp
            | cons m q2 =>
              exact hcommon _ m q2 (fun hmc => hset m hmc) hcc hq
                (fun hm => hs (List.mem_append.2 (Or.inl hm)))
          | some t =>
            cases t with
            | dir dcs =>
              rw [hd3] at hEQc
              have hEQ2 : updateNode cfg force cur qc (.dir cs) ctr
                  = ⟨.dir (cs2.setEntry cacheName (.file (.pickle cache) 0)),
                      tr ++ [.syncEv qc], .error .removeDir⟩ := hEQc
              rw [hEQ2]
              refine ⟨traceOrder_append tr [Ev.syncEv qc] htr2 (traceOrder_single_sync qc), ?_⟩
              intro q hq hs
              cases q with
              | nil =>
                exfalso
                apply hs
                simp
              | cons m q2 =>
                exact hcommon _ m q2 (fun hmc => hset m hmc) hcc hq
                  (fun hm => hs (List.mem_append.2 (Or.inl hm)))
            | file df mtf =>
              rw [hd3] at hEQc
              have hEQ2 : updateNode cfg force cur qc (.dir cs) ctr
                  = ⟨.dir ((cs2.setEntry cacheName
                      (.file (.pickle cache) 0)).erase dirtyName),
                      tr ++ [.syncEv qc, .rmDirtyEv qc],
                      .ok (cache, { ctr2 with
                        directories_processed := ctr2.directories_processed + 1 })⟩ := hEQc
              rw [hEQ2]
              refine ⟨traceOrder_append_sync_rm tr qc htr2, ?_⟩
              intro q hq hs
              cases q with
              | nil =>
                exfalso
                apply hs
                simp
              | cons m q2 =>
                by_cases hmd : m = dirtyName
                · exfalso
                  subst hmd
                  rw [hasDirtyAt_dir_cons_q] at hq
                  have hcsd : cs.find? dirtyName = some (.file df mtf) := by
                    rw [← hfD, ← hset dirtyName (by decide)]
                    exact hd3
                  rw [hcsd] at hq
                  have hq2 : hasDirtyAt (.file df mtf) q2 = true := hq
                  rw [hasDirtyAt_file] at hq2
                  exact Bool.noConfusion hq2
                · exact hcommon _ m q2
                    (fun hmc => by
                      rw [FSList.find?_erase_ne _ dirtyName m hmd]
                      exact hset m hmc)
                    hcc hq
                    (fun hm => hs (List.mem_append.2 (Or.inl hm)))
        cases hc2 : cs2.find? cacheName with
        | some t =>
          cases t with
          | dir ccs =>
            rw [hc2] at hEQb
            have hEQ2 : updateNode cfg force cur qc (.dir cs) ctr
                = ⟨.dir cs2, tr, .error .openDir⟩ := hEQb
            rw [hEQ2]
            exact ⟨htr2, fun q hq hs => hdirty2 q hq hs⟩
          | file d0 mt0 =>
            rw [hc2] at hEQb
            exact hfinish (Or.inr ⟨d0, mt0, by rw [← hfC]; exact hc2⟩) hEQb
        | none =>
          rw [hc2] at hEQb
          exact hfinish (Or.inl (by rw [← hfC]; exact hc2)) hEQb

theorem getNode_append (q q2 : List Name) : ∀ (fs : FSNode),
    getNode fs (q ++ q2) = (getNode fs q).bind (fun t => getNode t q2) := by
  induction q with
  | nil =>
    intro fs
    rw [List.nil_append]
    cases fs with
    | file d mt => rfl
    | dir cs => rfl
  | cons n rest ih =>
    intro fs
    cases fs with
    | file d mt => rfl
    | dir cs =>
      rw [List.cons_append]
      show (match cs.find? n with
            | some c => getNode c (rest ++ q2)
            | none => none)
        = ((match cs.find? n with
            | some c => getNode c rest
            | none => none).bind (fun t => getNode t q2))
      cases hf : cs.find? n with
      | none => rfl
      | some c => exact ih c

theorem hasDirtyAt_sub (fs : FSNode) (q : List Name) (sub : FSNode)
    (hg : getNode fs q = some sub) (hd : hasDirtyAt fs q = true) :
    hasDirtyAt sub [] = true := by
  unfold hasDirtyAt at hd ⊢
  rw [getNode_append, hg] at hd
  simpa using hd

theorem hasDirtyAt_cons_preserve (n : Name) (child child2 : FSNode)
    (rest rest2 : FSList) (q : List Name)
    (hhead : ∀ q2, q = n :: q2 → hasDirtyAt child q2 = true →
      hasDirtyAt child2 q2 = true)
    (htail : hasDirtyAt (.dir rest) q = true → hasDirtyAt (.dir rest2) q = true)
    (hq : hasDirtyAt (.dir (.cons n child rest)) q = true) :
    hasDirtyAt (.dir (.cons n child2 rest2)) q = true := by
  cases q with
  | nil =>
    rw [hasDirtyAt_nil_eq, FSList.find?_cons] at hq ⊢
    by_cases hnd : n = dirtyName
    · rw [if_pos hnd]
      simp
    · rw [if_neg hnd] at hq ⊢
      have := htail (by rw [hasDirtyAt_nil_eq]; exact hq)
      rw [hasDirtyAt_nil_eq] at this
      exact this
  | cons m q2 =>
    rw [hasDirtyAt_dir_cons_q, FSList.find?_cons] at hq ⊢
    by_cases hnm : n = m
    · rw [if_pos hnm] at hq ⊢
      exact hhead q2 (by rw [hnm]) hq
    · rw [if_neg hnm] at hq ⊢
      have := htail (by rw [hasDirtyAt_dir_cons_q]; exact hq)
      rw [hasDirtyAt_dir_cons_q] at this
      exact this

theorem uListSafe_cons : ∀ (n : Name) (child : FSNode) (rest : FSList),
    UNodeSafe child → UListSafe rest → UListSafe (.cons n child rest) := by
  intro n child rest ihN ihL cfg force cur qc cache ctr
  by_cases hm : hiddenName n = true
  · have hEQ := updateChildren_cons_hidden cfg force cur qc n child rest cache ctr hm
    obtain ⟨htr, hd⟩ := ihL cfg force cur qc cache ctr
    cases hu : updateChildren cfg force cur qc rest cache ctr with
    | mk rest2 tr r =>
      rw [hu] at hEQ htr hd
      have htr2 : TraceOrder tr := htr
      have hd2 : ∀ q, hasDirtyAt (.dir rest) q = true →
          Ev.syncEv (qc ++ q) ∉ tr → hasDirtyAt (.dir rest2) q = true := hd
      have hEQ2 : updateChildren cfg force cur qc (.cons n child rest) cache ctr
          = ⟨.cons n child rest2, tr, r⟩ := hEQ
      rw [hEQ2]
      refine ⟨htr2, ?_⟩
      intro q hq hs
      exact hasDirtyAt_cons_preserve n child child rest rest2 q
        (fun q2 _ h => h) (fun h => hd2 q h hs) hq
  · have hm2 : hiddenName n = false := by simpa using hm
    cases child with
    | dir ccs =>
      have hEQ := updateChildren_cons_dir cfg force cur qc n ccs rest cache ctr hm2
      obtain ⟨htrN, hdN⟩ := ihN cfg force (pjoin cur n) (qc ++ [n]) ctr
      cases hun : updateNode cfg force (pjoin cur n) (qc ++ [n]) (.dir ccs) ctr with
      | mk child2 trc rc =>
        rw [hun] at hEQ htrN hdN
        have htrN2 : TraceOrder trc := htrN
        have hdN2 : ∀ q2, hasDirtyAt (.dir ccs) q2 = true →
            Ev.syncEv ((qc ++ [n]) ++ q2) ∉ trc →
            hasDirtyAt child2 q2 = true := hdN
        cases rc with
        | error e =>
          have hEQ2 : updateChildren cfg force cur qc (.cons n (.dir ccs) rest) cache ctr
              = ⟨.cons n child2 rest, trc, .error e⟩ := hEQ
          rw [hEQ2]
          refine ⟨htrN2, ?_⟩
          intro q hq hs
          refine hasDirtyAt_cons_preserve n (.dir ccs) child2 rest rest q
            (fun q2 hq2 h => ?_) (fun h => h) hq
          subst hq2
          exact hdN2 q2 h (by rw [List.append_cons] at hs; exact hs)
        | ok pr =>
          obtain ⟨sub, ctr2⟩ := pr
          have hEQc : updateChildren cfg force cur qc (.cons n (.dir ccs) rest) cache ctr
              = (match updateChildren cfg force cur qc rest
                    (Cache.addSubCache { cache with
                      files := setAdd cache.files (pjoin cur n) } sub) ctr2 with
                 | ⟨rest2, tr2, r⟩ => ⟨.cons n child2 rest2, trc ++ tr2, r⟩) := hEQ
          obtain ⟨htrL, hdL⟩ := ihL cfg force cur qc
            (Cache.addSubCache { cache with
              files := setAdd cache.files (pjoin cur n) } sub) ctr2
          cases hur : updateChildren cfg force cur qc rest
              (Cache.addSubCache { cache with
                files := setAdd cache.files (pjoin cur n) } sub) ctr2 with
          | mk rest2 tr2 r2 =>
            rw [hur] at hEQc htrL hdL
            have htrL2 : TraceOrder tr2 := htrL
            have hdL2 : ∀ q, hasDirtyAt (.dir rest) q = true →
                Ev.syncEv (qc ++ q) ∉ tr2 → hasDirtyAt (.dir rest2) q = true := hdL
            have hEQ2 : updateChildren cfg force cur qc (.cons n (.dir ccs) rest) cache ctr
                = ⟨.cons n child2 rest2, trc ++ tr2, r2⟩ := hEQc
            rw [hEQ2]
            refine ⟨traceOrder_append trc tr2 htrN2 htrL2, ?_⟩
            intro q hq hs
            refine hasDirtyAt_cons_preserve n (.dir ccs) child2 rest rest2 q
              (fun q2 hq2 h => ?_)
              (fun h => hdL2 q h (fun hmem => hs (List.mem_append.2 (Or.inr hmem)))) hq
            subst hq2
            refine hdN2 q2 h (fun hmem => hs (List.mem_append.2 (Or.inl ?_)))
            rw [← List.append_cons] at hmem
            exact hmem
    | file d mt =>
      have hEQ := updateChildren_cons_file cfg force cur qc n d mt rest cache ctr hm2
      cases hfc : fileStepContent cfg n (pjoin cur n) d
          { cache with files := setAdd cache.files (pjoin cur n) } ctr with
      | error e =>
        rw [hfc] at hEQ
        have hEQ2 : updateChildren cfg force cur qc (.cons n (.file d mt) rest) cache ctr
            = ⟨.cons n (.file d mt) rest, [], .error e⟩ := hEQ
        rw [hEQ2]
        exact ⟨traceOrder_nil, fun q hq _ => hq⟩
      | ok pr =>
        obtain ⟨cache3, ctr3⟩ := pr
        rw [hfc] at hEQ
        have hEQc : updateChildren cfg force cur qc (.cons n (.file d mt) rest) cache ctr
            = (match fileStepMtime cfg n (pjoin cur n) mt cache3 ctr3 with
               | (cache4, ctr4) =>
                 (match updateChildren cfg force cur qc rest cache4 ctr4 with
                  | ⟨rest2, tr2, r⟩ => ⟨.cons n (.file d mt) rest2, tr2, r⟩)) := hEQ
        cases hfm : fileStepMtime cfg n (pjoin cur n) mt cache3 ctr3 with
        | mk cache4 ctr4 =>
          rw [hfm] at hEQc
          have hEQd : updateChildren cfg force cur qc (.cons n (.file d mt) rest) cache ctr
              = (match updateChildren cfg force cur qc rest cache4 ctr4 with
                 | ⟨rest2, tr2, r⟩ => ⟨.cons n (.file d mt) rest2, tr2, r⟩) := hEQc
          obtain ⟨htrL, hdL⟩ := ihL cfg force cur qc cache4 ctr4
          cases hur : updateChildren cfg force cur qc rest cache4 ctr4 with
          | mk rest2 tr2 r2 =>
            rw [hur] at hEQd htrL hdL
            have htrL2 : TraceOrder tr2 := htrL
            have hdL2 : ∀ q, hasDirtyAt (.dir rest) q = true →
                Ev.syncEv (qc ++ q) ∉ tr2 → hasDirtyAt (.dir rest2) q = true := hdL
            have hEQ2 : updateChildren cfg force cur qc (.cons n (.file d mt) rest) cache ctr
                = ⟨.cons n (.file d mt) rest2, tr2, r2⟩ := hEQd
            rw [hEQ2]
            refine ⟨htrL2, ?_⟩
            intro q hq hs
            exact hasDirtyAt_cons_preserve n (.file d mt) (.file d mt) rest rest2 q
              (fun q2 _ h => h) (fun h => hdL2 q h hs) hq

theorem uNodeSafe_all : ∀ node, UNodeSafe node :=
  FS.recN UNodeSafe UListSafe uNodeSafe_file uNodeSafe_dir uListSafe_nil uListSafe_cons

/-- C10: the rebuild of `update` removes a directory's `.dirty` marker only
after that directory's cache file was successfully synced: every `rmDirty`
event in the trace is preceded (strictly earlier) by the same directory's
`sync` event, and any marker whose directory was never synced — in
particular when an exception aborts the run before that sync — survives in
the resulting tree, so a later `update(force=False)` of that directory
cannot take the fast path. -/
theorem update_dirty_preserved_C10 (node : FSNode) (cfg : Cfg) (force : Bool)
    (cur : PathStr) (qc : List Name) (ctr : Counters) :
    TraceOrder (updateNode cfg force cur qc node ctr).tr ∧
    (∀ q, hasDirtyAt node q = true →
      Ev.syncEv (qc ++ q) ∉ (updateNode cfg force cur qc node ctr).tr →
      hasDirtyAt (updateNode cfg force cur qc node ctr).node q = true ∧
      ∀ sub, getNode (updateNode cfg force cur qc node ctr).node q = some sub →
        takesFastPath false sub = false) := by
  obtain ⟨h1, h2⟩ := uNodeSafe_all node cfg force cur qc ctr
  refine ⟨h1, fun q hq hs => ?_⟩
  have hd := h2 q hq hs
  exact ⟨hd, fun sub hg =>
    dirty_no_fastPath false sub (hasDirtyAt_sub _ q sub hg hd)⟩

/-- Concrete run of the C10 theorem: the rebuild of `c10Tree` aborts on the
unreadable file `b` before any sync, and subdirectory `s` keeps its `.dirty`
marker and still fails the fast-path test afterwards. -/
theorem update_dirty_preserved_C10_witness :
    hasDirtyAt c10Tree [['s']] = true ∧
    hasDirtyAt (updateNode c10Cfg false ['/', 'r'] [] c10Tree ctrZero).node
      [['s']] = true ∧
    takesFastPath false c10Sub = false :=
  ⟨by decide,
   ((update_dirty_preserved_C10 c10Tree c10Cfg false ['/', 'r'] [] ctrZero).2
      [['s']] (by decide) (by decide)).1,
   ((update_dirty_preserved_C10 c10Tree c10Cfg false ['/', 'r'] [] ctrZero).2
      [['s']] (by decide) (by decide)).2 c10Sub (by rfl)⟩

end C10Main

section C5Inv

theorem setUnion_cons (s : List PathStr) (a : PathStr) (t : List PathStr) :
    setUnion s (a :: t) = setUnion (setAdd s a) t := rfl

theorem mem_setAdd_self (s : List PathStr) (x : PathStr) : x ∈ setAdd s x := by
  unfold setAdd
  split
  · assumption
  · simp

theorem mem_setAdd_of_mem (s : List PathStr) (x y : PathStr) (h : y ∈ s) :
    y ∈ setAdd s x := by
  unfold setAdd
  split
  · exact h
  · exact List.mem_append.2 (Or.inl h)

theorem mem_setUnion_left (t : List PathStr) : ∀ (s : List PathStr) (y : PathStr),
    y ∈ s → y ∈ setUnion s t := by
  induction t with
  | nil => intro s y h; exact h
  | cons a t ih =>
    intro s y h
    rw [setUnion_cons]
    exact ih _ y (mem_setAdd_of_mem s a y h)

theorem mem_setUnion_right (t : List PathStr) : ∀ (s : List PathStr) (y : PathStr),
    y ∈ t → y ∈ setUnion s t := by
  induction t with
  | nil => intro s y h; cases h
  | cons a t ih =>
    intro s y h
    rw [setUnion_cons]
    rcases List.mem_cons.1 h with h1 | h2
    · subst h1
      exact mem_setUnion_left t _ y (mem_setAdd_self s y)
    · exact ih _ y h2

theorem keys_dictInsert {α : Type} (d : List (PathStr × α)) (k k' : PathStr) (v : α)
    (h : k' ∈ (dictInsert d k v).map Prod.fst) : k' ∈ d.map Prod.fst ∨ k' = k := by
  unfold dictInsert at h
  split at h
  · rw [List.map_map] at h
    obtain ⟨kv, hkv, heq⟩ := List.mem_map.1 h
    simp only [Function.comp_apply] at heq
    split at heq
    · right
      exact heq.symm
    · left
      rw [← heq]
      exact List.mem_map_of_mem Prod.fst hkv
  · rw [List.map_append] at h
    rcases List.mem_append.1 h with h1 | h2
    · left
      exact h1
    · right
      simpa using h2

theorem dictUpdate_cons {α : Type} (d : List (PathStr × α)) (kv : PathStr × α)
    (e : List (PathStr × α)) :
    dictUpdate d (kv :: e) = dictUpdate (dictInsert d kv.1 kv.2) e := rfl

theorem keys_dictUpdate {α : Type} (e : List (PathStr × α)) :
    ∀ (d : List (PathStr × α)) (k' : PathStr),
      k' ∈ (dictUpdate d e).map Prod.fst →
      k' ∈ d.map Prod.fst ∨ k' ∈ e.map Prod.fst := by
  induction e with
  | nil => intro d k' h; left; exact h
  | cons kv e ih =>
    intro d k' h
    rw [dictUpdate_cons] at h
    rcases ih _ k' h with h1 | h2
    · rcases keys_dictInsert d kv.1 k' kv.2 h1 with ha | hb
      · left
        exact ha
      · right
        rw [hb, List.map_cons]
        exact List.mem_cons_self _ _
    · right
      rw [List.map_cons]
      exact List.mem_cons_of_mem _ h2

theorem cacheInv_empty : CacheInv emptyCache := by
  constructor
  · intro k h
    exact absurd h (by simp [emptyCache])
  · intro k h
    exact absurd h (by simp [emptyCache])

theorem cacheInv_addSub (c sub : Cache) (hc : CacheInv c) (hs : CacheInv sub) :
    CacheInv (c.addSubCache sub) := by
  constructor
  · intro k h
    rcases keys_dictUpdate _ _ k h with h1 | h2
    · exact mem_setUnion_left _ _ k (hc.1 k h1)
    · exact mem_setUnion_right _ _ k (hs.1 k h2)
  · intro k h
    rcases keys_dictUpdate _ _ k h with h1 | h2
    · exact mem_setUnion_left _ _ k (hc.2 k h1)
    · exact mem_setUnion_right _ _ k (hs.2 k h2)

theorem cacheInv_addFile (c : Cache) (x : PathStr) (h : CacheInv c) :
    CacheInv { c with files := setAdd c.files x } := by
  constructor
  · intro k hk
    exact mem_setAdd_of_mem _ x k (h.1 k hk)
  · intro k hk
    exact mem_setAdd_of_mem _ x k (h.2 k hk)

theorem fileStepContent_inv (cfg : Cfg) (n : Name) (fp : PathStr) (d : FData)
    (cache : Cache) (ctr : Counters) (cache3 : Cache) (ctr3 : Counters)
    (hinv : CacheInv cache) (hfp : fp ∈ cache.files)
    (h : fileStepContent cfg n fp d cache ctr = .ok (cache3, ctr3)) :
    CacheInv cache3 ∧ cache3.files = cache.files := by
  unfold fileStepContent at h
  split at h
  · cases d with
    | text s =>
      have h2 : (Except.ok ({ cache with data := dictInsert cache.data fp s },
          { ctr with files_read := ctr.files_read + 1 })
          : Except UErr (Cache × Counters)) = .ok (cache3, ctr3) := h
      injection h2 with h3
      injection h3 with h4 h5
      subst h4
      refine ⟨⟨?_, ?_⟩, rfl⟩
      · intro k hk
        rcases keys_dictInsert cache.data fp k s hk with h6 | h7
        · exact hinv.1 k h6
        · rw [h7]
          exact hfp
      · intro k hk
        exact hinv.2 k hk
    | pickle c =>
      exact Except.noConfusion
        (show (Except.error UErr.decodeText : Except UErr (Cache × Counters))
          = .ok (cache3, ctr3) from h)
  · have h2 : (Except.ok (cache, ctr) : Except UErr (Cache × Counters))
        = .ok (cache3, ctr3) := h
    injection h2 with h3
    injection h3 with h4 h5
    subst h4
    exact ⟨hinv, rfl⟩

theorem fileStepMtime_inv (cfg : Cfg) (n : Name) (fp : PathStr) (mt : Int)
    (cache : Cache) (ctr : Counters) (cache4 : Cache) (ctr4 : Counters)
    (hinv : CacheInv cache) (hfp : fp ∈ cache.files)
    (h : fileStepMtime cfg n fp mt cache ctr = (cache4, ctr4)) :
    CacheInv cache4 ∧ cache4.files = cache.files := by
  unfold fileStepMtime at h
  split at h
  · have h2 : ({ cache with mtime := dictInsert cache.mtime fp mt },
        { ctr with files_stat := ctr.files_stat + 1 }) = (cache4, ctr4) := h
    injection h2 with h3 h4
    subst h3
    refine ⟨⟨?_, ?_⟩, rfl⟩
    · intro k hk
      exact hinv.1 k hk
    · intro k hk
      rcases keys_dictInsert cache.mtime fp k mt hk with h6 | h7
      · exact hinv.2 k h6
      · rw [h7]
        exact hfp
  · injection h with h3 h4
    subst h3
    exact ⟨hinv, rfl⟩

theorem uNodeInv_file : ∀ (d : FData) (mt : Int), UNodeInv (.file d mt) := by
  intro d mt cfg force cur qc ctr cache ctr2 hcaches hres
  exact Except.noConfusion
    (show (Except.error UErr.listNonDir : Except UErr (Cache × Counters))
      = .ok (cache, ctr2) from hres)

theorem uListInv_nil : UListInv .nil := by
  intro cfg force cur qc cache ctr cache2 ctr2 hcaches hinv hres
  have h2 : (Except.ok (cache, ctr) : Except UErr (Cache × Counters))
      = .ok (cache2, ctr2) := hres
  injection h2 with h3
  injection h3 with h4 h5
  subst h4
  exact hinv

theorem uNodeInv_dir : ∀ cs, UListInv cs → UNodeInv (.dir cs) := by
  intro cs ihL cfg force cur qc ctr cache ctr2 hcaches hres
  obtain ⟨hP, hL⟩ := hcaches
  by_cases hfp : takesFastPath force (.dir cs) = true
  · cases hcf : cs.find? cacheName with
    | none =>
      rw [updateNode_fast_none cfg force cur qc cs ctr hfp hcf] at hres
      exact Except.noConfusion
        (show (Except.error UErr.unpickle : Except UErr (Cache × Counters))
          = .ok (cache, ctr2) from hres)
    | some t =>
      cases t with
      | dir ccs =>
        rw [updateNode_fast_dircache cfg force cur qc cs ctr ccs hfp hcf] at hres
        exact Except.noConfusion
          (show (Except.error UErr.openDir : Except UErr (Cache × Counters))
            = .ok (cache, ctr2) from hres)
      | file d mt =>
        cases d with
        | text s =>
          rw [updateNode_fast_text cfg force cur qc cs ctr s mt hfp hcf] at hres
          exact Except.noConfusion
            (show (Except.error UErr.unpickle : Except UErr (Cache × Counters))
              = .ok (cache, ctr2) from hres)
        | pickle c =>
          rw [updateNode_fast_pickle cfg force cur qc cs ctr c mt hfp hcf] at hres
          have h2 : (Except.ok (c, ctr) : Except UErr (Cache × Counters))
              = .ok (cache, ctr2) := hres
          injection h2 with h3
          injection h3 with h4 h5
          exact h4 ▸ hP c mt hcf
  · have hfp2 : takesFastPath force (.dir cs) = false := by simpa using hfp
    have hEQ := updateNode_rebuild_eq cfg force cur qc cs ctr hfp2
    cases hu : updateChildren cfg force cur qc cs emptyCache ctr with
    | mk cs2 tr r =>
      rw [hu] at hEQ
      cases r with
      | error e =>
        have hEQ2 : updateNode cfg force cur qc (.dir cs) ctr
            = ⟨.dir cs2, tr, .error e⟩ := hEQ
        rw [hEQ2] at hres
        exact Except.noConfusion
          (show (Except.error e : Except UErr (Cache × Counters))
            = .ok (cache, ctr2) from hres)
      | ok pr =>
        obtain ⟨cacheU, ctrU⟩ := pr
        have hCU : CacheInv cacheU :=
          ihL cfg force cur qc emptyCache ctr cacheU ctrU hL cacheInv_empty
            (by rw [hu])
        have hEQb : updateNode cfg force cur qc (.dir cs) ctr
            = (match cs2.find? cacheName with
               | some (.dir _) => (⟨.dir cs2, tr, .error .openDir⟩ : URes)
               | _ =>
                 (match (cs2.setEntry cacheName
                     (.file (.pickle cacheU) 0)).find? dirtyName with
                  | some (.dir _) =>
                    ⟨.dir (cs2.setEntry cacheName (.file (.pickle cacheU) 0)),
                      tr ++ [.syncEv qc], .error .removeDir⟩
                  | some (.file _ _) =>
                    ⟨.dir ((cs2.setEntry cacheName
                        (.file (.pickle cacheU) 0)).erase dirtyName),
                      tr ++ [.syncEv qc, .rmDirtyEv qc],
                      .ok (cacheU, { ctrU with
                        directories_processed := ctrU.directories_processed + 1 })⟩
                  | none =>
                    ⟨.dir (cs2.setEntry cacheName (.file (.pickle cacheU) 0)),
                      tr ++ [.syncEv qc],
                      .ok (cacheU, { ctrU with
                        directories_processed := ctrU.directories_processed + 1 })⟩)) := hEQ
        have hfinish : (updateNode cfg force cur qc (.dir cs) ctr
            = (match (cs2.setEntry cacheName
                  (.file (.pickle cacheU) 0)).find? dirtyName with
               | some (.dir _) =>
                 (⟨.dir (cs2.setEntry cacheName (.file (.pickle cacheU) 0)),
                   tr ++ [.syncEv qc], .error .removeDir⟩ : URes)
               | some (.file _ _) =>
                 ⟨.dir ((cs2.setEntry cacheName
                     (.file (.pickle cacheU) 0)).erase dirtyName),
                   tr ++ [.syncEv qc, .rmDirtyEv qc],
                   .ok (cacheU, { ctrU with
                     directories_processed := ctrU.directories_processed + 1 })⟩
               | none =>
                 ⟨.dir (cs2.setEntry cacheName (.file (.pickle cacheU) 0)),
                   tr ++ [.syncEv qc],
                   .ok (cacheU, { ctrU with
                     directories_processed := ctrU.directories_processed + 1 })⟩)) →
            CacheInv cache := by
          intro hEQc
          cases hd3 : (cs2.setEntry cacheName
              (.file (.pickle cacheU) 0)).find? dirtyName with
          | none =>
            rw [hd3] at hEQc
            have hEQ2 : updateNode cfg force cur qc (.dir cs) ctr
                = ⟨.dir (cs2.setEntry cacheName (.file (.pickle cacheU) 0)),
                    tr ++ [.syncEv qc],
                    .ok (cacheU, { ctrU with
                      directories_processed := ctrU.directories_processed + 1 })⟩ := hEQc
            rw [hEQ2] at hres
            have h2 : (Except.ok (cacheU, { ctrU with
                directories_processed := ctrU.directories_processed + 1 })
                : Except UErr (Cache × Counters)) = .ok (cache, ctr2) := hres
            injection h2 with h3
            injection h3 with h4 h5
            exact h4 ▸ hCU
          | some t =>
            cases t with
            | dir dcs =>
              rw [hd3] at hEQc
              have hEQ2 : updateNode cfg force cur qc (.dir cs) ctr
                  = ⟨.dir (cs2.setEntry cacheName (.file (.pickle cacheU) 0)),
                      tr ++ [.syncEv qc], .error .removeDir⟩ := hEQc
              rw [hEQ2] at hres
              exact Except.noConfusion
                (show (Except.error UErr.removeDir : Except UErr (Cache × Counters))
                  = .ok (cache, ctr2) from hres)
            | file df mtf =>
              rw [hd3] at hEQc
              have hEQ2 : updateNode cfg force cur qc (.dir cs) ctr
                  = ⟨.dir ((cs2.setEntry cacheName
                      (.file (.pickle cacheU) 0)).erase dirtyName),
                      tr ++ [.syncEv qc, .rmDirtyEv qc],
                      .ok (cacheU, { ctrU with
                        directories_processed := ctrU.directories_processed + 1 })⟩ := hEQc
              rw [hEQ2] at hres
              have h2 : (Except.ok (cacheU, { ctrU with
                  directories_processed := ctrU.directories_processed + 1 })
                  : Except UErr (Cache × Counters)) = .ok (cache, ctr2) := hres
              injection h2 with h3
              injection h3 with h4 h5
              exact h4 ▸ hCU
        cases hc2 : cs2.find? cacheName with
        | some t =>
          cases t with
          | dir ccs =>
            rw [hc2] at hEQb
            have hEQ2 : updateNode cfg force cur qc (.dir cs) ctr
                = ⟨.dir cs2, tr, .error .openDir⟩ := hEQb
            rw [hEQ2] at hres
            exact Except.noConfusion
              (show (Except.error UErr.openDir : Except UErr (Cache × Counters))
                = .ok (cache, ctr2) from hres)
          | file d0 mt0 =>
            rw [hc2] at hEQb
            exact hfinish hEQb
        | none =>
          rw [hc2] at hEQb
          exact hfinish hEQb

theorem uListInv_cons : ∀ (n : Name) (child : FSNode) (rest : FSList),
    UNodeInv child → UListInv rest → UListInv (.cons n child rest) := by
  intro n child rest ihN ihL cfg force cur qc cache ctr cache2 ctr2 hcaches hinv hres
  obtain ⟨hPc, hPr⟩ := hcaches
  by_cases hm : hiddenName n = true
  · have hEQ := updateChildren_cons_hidden cfg force cur qc n child rest cache ctr hm
    cases hu : updateChildren cfg force cur qc rest cache ctr with
    | mk rest2 tr r =>
      rw [hu] at hEQ
      have hEQ2 : updateChildren cfg force cur qc (.cons n child rest) cache ctr
          = ⟨.cons n child rest2, tr, r⟩ := hEQ
      rw [hEQ2] at hres
      have hres2 : r = .ok (cache2, ctr2) := hres
      exact ihL cfg force cur qc cache ctr cache2 ctr2 hPr hinv
        (by rw [hu]; exact hres2)
  · have hm2 : hiddenName n = false := by simpa using hm
    cases child with
    | dir ccs =>
      have hEQ := updateChildren_cons_dir cfg force cur qc n ccs rest cache ctr hm2
      cases hun : updateNode cfg force (pjoin cur n) (qc ++ [n]) (.dir ccs) ctr with
      | mk child2 trc rc =>
        rw [hun] at hEQ
        cases rc with
        | error e =>
          have hEQ2 : updateChildren cfg force cur qc (.cons n (.dir ccs) rest) cache ctr
              = ⟨.cons n child2 rest, trc, .error e⟩ := hEQ
          rw [hEQ2] at hres
          exact Except.noConfusion
            (show (Except.error e : Except UErr (Cache × Counters))
              = .ok (cache2, ctr2) from hres)
        | ok pr =>
          obtain ⟨sub, ctrS⟩ := pr
          have hSub : CacheInv sub :=
            ihN cfg force (pjoin cur n) (qc ++ [n]) ctr sub ctrS (hPc hm2)
              (by rw [hun])
          have hEQc : updateChildren cfg force cur qc (.cons n (.dir ccs) rest) cache ctr
              = (match updateChildren cfg force cur qc rest
                    (Cache.addSubCache { cache with
                      files := setAdd cache.files (pjoin cur n) } sub) ctrS with
                 | ⟨rest2, tr2, r⟩ => ⟨.cons n child2 rest2, trc ++ tr2, r⟩) := hEQ
          cases hur : updateChildren cfg force cur qc rest
              (Cache.addSubCache { cache with
                files := setAdd cache.files (pjoin cur n) } sub) ctrS with
          | mk rest2 tr2 r2 =>
            rw [hur] at hEQc
            have hEQ2 : updateChildren cfg force cur qc (.cons n (.dir ccs) rest) cache ctr
                = ⟨.cons n child2 rest2, trc ++ tr2, r2⟩ := hEQc
            rw [hEQ2] at hres
            have hres2 : r2 = .ok (cache2, ctr2) := hres
            exact ihL cfg force cur qc
              (Cache.addSubCache { cache with
                files := setAdd cache.files (pjoin cur n) } sub) ctrS cache2 ctr2 hPr
              (cacheInv_addSub _ sub (cacheInv_addFile cache _ hinv) hSub)
              (by rw [hur]; exact hres2)
    | file d mt =>
      have hEQ := updateChildren_cons_file cfg force cur qc n d mt rest cache ctr hm2
      cases hfc : fileStepContent cfg n (pjoin cur n) d
          { cache with files := setAdd cache.files (pjoin cur n) } ctr with
      | error e =>
        rw [hfc] at hEQ
        have hEQ2 : updateChildren cfg force cur qc (.cons n (.file d mt) rest) cache ctr
            = ⟨.cons n (.file d mt) rest, [], .error e⟩ := hEQ
        rw [hEQ2] at hres
        exact Except.noConfusion
          (show (Except.error e : Except UErr (Cache × Counters))
            = .ok (cache2, ctr2) from hres)
      | ok pr =>
        obtain ⟨cache3, ctr3⟩ := pr
        rw [hfc] at hEQ
        obtain ⟨hI3, hF3⟩ := fileStepContent_inv cfg n (pjoin cur n) d
          { cache with files := setAdd cache.files (pjoin cur n) } ctr cache3 ctr3
          (cacheInv_addFile cache _ hinv) (mem_setAdd_self _ _) hfc
        have hEQc : updateChildren cfg force cur qc (.cons n (.file d mt) rest) cache ctr
            = (match fileStepMtime cfg n (pjoin cur n) mt cache3 ctr3 with
               | (cache4, ctr4) =>
                 (match updateChildren cfg force cur qc rest cache4 ctr4 with
                  | ⟨rest2, tr2, r⟩ => ⟨.cons n (.file d mt) rest2, tr2, r⟩)) := hEQ
        cases hfm : fileStepMtime cfg n (pjoin cur n) mt cache3 ctr3 with
        | mk cache4 ctr4 =>
          rw [hfm] at hEQc
          obtain ⟨hI4, hF4⟩ := fileStepMtime_inv cfg n (pjoin cur n) mt cache3 ctr3
            cache4 ctr4 hI3 (by rw [hF3]; exact mem_setAdd_self _ _) hfm
          have hEQd : updateChildren cfg force cur qc (.cons n (.file d mt) rest) cache ctr
              = (match updateChildren cfg force cur qc rest cache4 ctr4 with
                 | ⟨rest2, tr2, r⟩ => ⟨.cons n (.file d mt) rest2, tr2, r⟩) := hEQc
          cases hur : updateChildren cfg force cur qc rest cache4 ctr4 with
          | mk rest2 tr2 r2 =>
            rw [hur] at hEQd
            have hEQ2 : updateChildren cfg force cur qc (.cons n (.file d mt) rest) cache ctr
                = ⟨.cons n (.file d mt) rest2, tr2, r2⟩ := hEQd
            rw [hEQ2] at hres
            have hres2 : r2 = .ok (cache2, ctr2) := hres
            exact ihL cfg force cur qc cache4 ctr4 cache2 ctr2 hPr hI4
              (by rw [hur]; exact hres2)

theorem uNodeInv_all : ∀ node, UNodeInv node :=
  FS.recN UNodeInv UListInv uNodeInv_file uNodeInv_dir uListInv_nil uListInv_cons

/-- C5: in every CacheStore reachable through the public operations — the
empty store, a store built by a successful `update` rebuild (provided the
cache files already on disk satisfy the invariant, which holds of files
written by `sync`), an `add_sub_cache` merge of two invariant stores, and a
store loaded from a file that `sync` itself wrote — the key set of the
`data` map and the key set of the `mtime` map are each subsets of the
`files` set. -/
theorem cache_keys_subset_C5 :
    CacheInv emptyCache ∧
    (∀ c sub, CacheInv c → CacheInv sub → CacheInv (c.addSubCache sub)) ∧
    (∀ (node : FSNode) (cfg : Cfg) (force : Bool) (cur : PathStr) (qc : List Name)
      (ctr : Counters) (cache : Cache) (ctr2 : Counters),
      NodeCachesP (fun _ c => CacheInv c) qc node →
      (updateNode cfg force cur qc node ctr).res = .ok (cache, ctr2) →
      CacheInv cache) ∧
    (∀ (fs fs2 : FSNode) (q : List Name) (c c2 : Cache),
      CacheInv c → cacheSync fs q c = some fs2 → cacheLoad fs2 q = .ok c2 →
      CacheInv c2) := by
  refine ⟨cacheInv_empty, cacheInv_addSub,
    fun node cfg force cur qc ctr cache ctr2 h1 h2 =>
      uNodeInv_all node cfg force cur qc ctr cache ctr2 h1 h2, ?_⟩
  intro fs fs2 q c c2 hc hsync hload
  obtain ⟨fs3, hw⟩ := cacheSync_writeAt fs fs2 q c hsync
  have hld : cacheLoad fs2 q = .ok c := by
    unfold cacheLoad
    rw [getNode_writeAt_self fs3 fs2 q cacheName (.pickle c) 0 hw]
  rw [hld] at hload
  injection hload with h1
  exact h1 ▸ hc

/-- Concrete run of the C5 theorem: the store `update` builds for `c5Tree`
satisfies the invariant, and so does a store synced to disk and loaded
back. -/
theorem cache_keys_subset_C5_witness :
    CacheInv c5Cache ∧ CacheInv c5Pickled :=
  ⟨cache_keys_subset_C5.2.2.1 c5Tree c5Cfg false ['/'] [] ctrZero c5Cache
    ⟨1, 1, 1⟩
    ⟨fun c mt h => Option.noConfusion
        (show (none : Option FSNode)
          = some (FSNode.file (.pickle c) mt) from h),
      fun _ => trivial, trivial⟩
    (by rfl),
   cache_keys_subset_C5.2.2.2 (FSNode.dir .nil)
     (FSNode.dir (.cons cacheName (.file (.pickle c5Pickled) 0) .nil)) []
     c5Pickled c5Pickled (by decide) (by rfl) (by rfl)⟩

end C5Inv

section C9Clean

theorem isabs_false_of_good (n : Name) (hne : n ≠ []) (hns : '/' ∉ n) :
    isabs n = false := by
  cases n with
  | nil => exact absurd rfl hne
  | cons c rest =>
    have hc : c ≠ '/' := fun h => hns (by simp [h])
    unfold isabs
    split
    · rename_i heq
      injection heq with h1 h2
      exact absurd h1 hc
    · rfl

theorem basename_nil_of_last_slash (cur : PathStr) (h : cur.getLast? = some '/') :
    basename cur = [] := by
  induction cur using List.reverseRecOn with
  | nil => simp at h
  | append_singleton init last ih =>
    rw [List.getLast?_concat] at h
    injection h with h1
    subst h1
    unfold basename
    rw [List.foldl_append]
    simp

theorem basename_pjoin (cur : PathStr) (n : Name) (hne : n ≠ []) (hns : '/' ∉ n) :
    basename (pjoin cur n) = n := by
  unfold pjoin
  rw [if_neg (by rw [isabs_false_of_good n hne hns]; exact Bool.false_ne_true)]
  split
  · rename_i hcase
    unfold basename
    rw [List.foldl_append, foldl_basename_no_slash n hns]
    rcases hcase with hnil | hlast
    · subst hnil
      rfl
    · have hb := basename_nil_of_last_slash cur hlast
      unfold basename at hb
      rw [hb]
      rfl
  · exact basename_concat cur n hns

theorem mem_setAdd_elim (s : List PathStr) (x y : PathStr) (h : y ∈ setAdd s x) :
    y ∈ s ∨ y = x := by
  unfold setAdd at h
  split at h
  · left
    exact h
  · rcases List.mem_append.1 h with h1 | h2
    · left
      exact h1
    · right
      simpa using h2

theorem mem_setUnion_elim (t : List PathStr) : ∀ (s : List PathStr) (y : PathStr),
    y ∈ setUnion s t → y ∈ s ∨ y ∈ t := by
  induction t with
  | nil => intro s y h; left; exact h
  | cons a t ih =>
    intro s y h
    rw [setUnion_cons] at h
    rcases ih _ y h with h1 | h2
    · rcases mem_setAdd_elim s a y h1 with ha | hb
      · left
        exact ha
      · right
        rw [hb]
        exact List.mem_cons_self _ _
    · right
      exact List.mem_cons_of_mem _ h2

theorem keyPred_empty (P : PathStr → Prop) : KeyPred P emptyCache := by
  intro k hk
  rcases hk with h | h | h <;> exact absurd h (by simp [emptyCache])

theorem keyPred_addSub (P : PathStr → Prop) (c sub : Cache)
    (hc : KeyPred P c) (hs : KeyPred P sub) : KeyPred P (c.addSubCache sub) := by
  intro k hk
  rcases hk with h | h | h
  · rcases mem_setUnion_elim _ _ k h with h1 | h2
    · exact hc k (Or.inl h1)
    · exact hs k (Or.inl h2)
  · rcases keys_dictUpdate _ _ k h with h1 | h2
    · exact hc k (Or.inr (Or.inl h1))
    · exact hs k (Or.inr (Or.inl h2))
  · rcases keys_dictUpdate _ _ k h with h1 | h2
    · exact hc k (Or.inr (Or.inr h1))
    · exact hs k (Or.inr (Or.inr h2))

theorem keyPred_addFile (P : PathStr → Prop) (c : Cache) (x : PathStr)
    (hc : KeyPred P c) (hx : P x) :
    KeyPred P { c with files := setAdd c.files x } := by
  intro k hk
  rcases hk with h | h | h
  · rcases mem_setAdd_elim c.files x k h with h1 | h2
    · exact hc k (Or.inl h1)
    · exact h2 ▸ hx
  · exact hc k (Or.inr (Or.inl h))
  · exact hc k (Or.inr (Or.inr h))

theorem fileStepContent_keyPred (P : PathStr → Prop) (cfg : Cfg) (n : Name)
    (fp : PathStr) (d : FData) (cache : Cache) (ctr : Counters)
    (cache3 : Cache) (ctr3 : Counters)
    (hk : KeyPred P cache) (hfp : P fp)
    (h : fileStepContent cfg n fp d cache ctr = .ok (cache3, ctr3)) :
    KeyPred P cache3 := by
  unfold fileStepContent at h
  split at h
  · cases d with
    | text s =>
      have h2 : (Except.ok ({ cache with data := dictInsert cache.data fp s },
          { ctr with files_read := ctr.files_read + 1 })
          : Except UErr (Cache × Counters)) = .ok (cache3, ctr3) := h
      injection h2 with h3
      injection h3 with h4 h5
      subst h4
      intro k hkk
      rcases hkk with h6 | h6 | h6
      · exact hk k (Or.inl h6)
      · rcases keys_dictInsert cache.data fp k s h6 with h7 | h7
        · exact hk k (Or.inr (Or.inl h7))
        · exact h7 ▸ hfp
      · exact hk k (Or.inr (Or.inr h6))
    | pickle c =>
      exact Except.noConfusion
        (show (Except.error UErr.decodeText : Except UErr (Cache × Counters))
          = .ok (cache3, ctr3) from h)
  · have h2 : (Except.ok (cache, ctr) : Except UErr (Cache × Counters))
        = .ok (cache3, ctr3) := h
    injection h2 with h3
    injection h3 with h4 h5
    subst h4
    exact hk

theorem fileStepMtime_keyPred (P : PathStr → Prop) (cfg : Cfg) (n : Name)
    (fp : PathStr) (mt : Int) (cache : Cache) (ctr : Counters)
    (cache4 : Cache) (ctr4 : Counters)
    (hk : KeyPred P cache) (hfp : P fp)
    (h : fileStepMtime cfg n fp mt cache ctr = (cache4, ctr4)) :
    KeyPred P cache4 := by
  unfold fileStepMtime at h
  split at h
  · have h2 : ({ cache with mtime := dictInsert cache.mtime fp mt },
        { ctr with files_stat := ctr.files_stat + 1 }) = (cache4, ctr4) := h
    injection h2 with h3 h4
    subst h3
    intro k hkk
    rcases hkk with h6 | h6 | h6
    · exact hk k (Or.inl h6)
    · exact hk k (Or.inr (Or.inl h6))
    · rcases keys_dictInsert cache.mtime fp k mt h6 with h7 | h7
      · exact hk k (Or.inr (Or.inr h7))
      · exact h7 ▸ hfp
  · injection h with h3 h4
    subst h3
    exact hk

theorem uNodeClean_file : ∀ (d : FData) (mt : Int), UNodeClean (.file d mt) := by
  intro d mt cfg force cur qc ctr cache ctr2 hWF hcaches hres
  exact Except.noConfusion
    (show (Except.error UErr.listNonDir : Except UErr (Cache × Counters))
      = .ok (cache, ctr2) from hres)

theorem uListClean_nil : UListClean .nil := by
  intro cfg force cur qc cache ctr cache2 ctr2 hnames hLWF hcaches hclean hres
  have h2 : (Except.ok (cache, ctr) : Except UErr (Cache × Counters))
      = .ok (cache2, ctr2) := hres
  injection h2 with h3
  injection h3 with h4 h5
  subst h4
  exact hclean

theorem uNodeClean_dir : ∀ cs, UListClean cs → UNodeClean (.dir cs) := by
  intro cs ihL cfg force cur qc ctr cache ctr2 hWF hcaches hres
  obtain ⟨hnd, hgood, hLWF⟩ := hWF
  obtain ⟨hP, hL⟩ := hcaches
  by_cases hfp : takesFastPath force (.dir cs) = true
  · cases hcf : cs.find? cacheName with
    | none =>
      rw [updateNode_fast_none cfg force cur qc cs ctr hfp hcf] at hres
      exact Except.noConfusion
        (show (Except.error UErr.unpickle : Except UErr (Cache × Counters))
          = .ok (cache, ctr2) from hres)
    | some t =>
      cases t with
      | dir ccs =>
        rw [updateNode_fast_dircache cfg force cur qc cs ctr ccs hfp hcf] at hres
        exact Except.noConfusion
          (show (Except.error UErr.openDir : Except UErr (Cache × Counters))
            = .ok (cache, ctr2) from hres)
      | file d mt =>
        cases d with
        | text s =>
          rw [updateNode_fast_text cfg force cur qc cs ctr s mt hfp hcf] at hres
          exact Except.noConfusion
            (show (Except.error UErr.unpickle : Except UErr (Cache × Counters))
              = .ok (cache, ctr2) from hres)
        | pickle c =>
          rw [updateNode_fast_pickle cfg force cur qc cs ctr c mt hfp hcf] at hres
          have h2 : (Except.ok (c, ctr) : Except UErr (Cache × Counters))
              = .ok (cache, ctr2) := hres
          injection h2 with h3
          injection h3 with h4 h5
          exact h4 ▸ hP c mt hcf
  · have hfp2 : takesFastPath force (.dir cs) = false := by simpa using hfp
    have hEQ := updateNode_rebuild_eq cfg force cur qc cs ctr hfp2
    cases hu : updateChildren cfg force cur qc cs emptyCache ctr with
    | mk cs2 tr r =>
      rw [hu] at hEQ
      cases r with
      | error e =>
        have hEQ2 : updateNode cfg force cur qc (.dir cs) ctr
            = ⟨.dir cs2, tr, .error e⟩ := hEQ
        rw [hEQ2] at hres
        exact Except.noConfusion
          (show (Except.error e : Except UErr (Cache × Counters))
            = .ok (cache, ctr2) from hres)
      | ok pr =>
        obtain ⟨cacheU, ctrU⟩ := pr
        have hCU : CleanCache cacheU :=
          ihL cfg force cur qc emptyCache ctr cacheU ctrU hgood hLWF hL
            (keyPred_empty _) (by rw [hu])
        have hEQb : updateNode cfg force cur qc (.dir cs) ctr
            = (match cs2.find? cacheName with
               | some (.dir _) => (⟨.dir cs2, tr, .error .openDir⟩ : URes)
               | _ =>
                 (match (cs2.setEntry cacheName
                     (.file (.pickle cacheU) 0)).find? dirtyName with
                  | some (.dir _) =>
                    ⟨.dir (cs2.setEntry cacheName (.file (.pickle cacheU) 0)),
                      tr ++ [.syncEv qc], .error .removeDir⟩
                  | some (.file _ _) =>
                    ⟨.dir ((cs2.setEntry cacheName
                        (.file (.pickle cacheU) 0)).erase dirtyName),
                      tr ++ [.syncEv qc, .rmDirtyEv qc],
                      .ok (cacheU, { ctrU with
                        directories_processed := ctrU.directories_processed + 1 })⟩
                  | none =>
                    ⟨.dir (cs2.setEntry cacheName (.file (.pickle cacheU) 0)),
                      tr ++ [.syncEv qc],
                      .ok (cacheU, { ctrU with
                        directories_processed := ctrU.directories_processed + 1 })⟩)) := hEQ
        have hfinish : (updateNode cfg force cur qc (.dir cs) ctr
            = (match (cs2.setEntry cacheName
                  (.file (.pickle cacheU) 0)).find? dirtyName with
               | some (.dir _) =>
                 (⟨.dir (cs2.setEntry cacheName (.file (.pickle cacheU) 0)),
                   tr ++ [.syncEv qc], .error .removeDir⟩ : URes)
               | some (.file _ _) =>
                 ⟨.dir ((cs2.setEntry cacheName
                     (.file (.pickle cacheU) 0)).erase dirtyName),
                   tr ++ [.syncEv qc, .rmDirtyEv qc],
                   .ok (cacheU, { ctrU with
                     directories_processed := ctrU.directories_processed + 1 })⟩
               | none =>
                 ⟨.dir (cs2.setEntry cacheName (.file (.pickle cacheU) 0)),
                   tr ++ [.syncEv qc],
                   .ok (cacheU, { ctrU with
                     directories_processed := ctrU.directories_processed + 1 })⟩)) →
            CleanCache cache := by
          intro hEQc
          cases hd3 : (cs2.setEntry cacheName
              (.file (.pickle cacheU) 0)).find? dirtyName with
          | none =>
            rw [hd3] at hEQc
            have hEQ2 : updateNode cfg force cur qc (.dir cs) ctr
                = ⟨.dir (cs2.setEntry cacheName (.file (.pickle cacheU) 0)),
                    tr ++ [.syncEv qc],
                    .ok (cacheU, { ctrU with
                      directories_processed := ctrU.directories_processed + 1 })⟩ := hEQc
            rw [hEQ2] at hres
            have h2 : (Except.ok (cacheU, { ctrU with
                directories_processed := ctrU.directories_processed + 1 })
                : Except UErr (Cache × Counters)) = .ok (cache, ctr2) := hres
            injection h2 with h3
            injection h3 with h4 h5
            exact h4 ▸ hCU
          | some t =>
            cases t with
            | dir dcs =>
              rw [hd3] at hEQc
              have hEQ2 : updateNode cfg force cur qc (.dir cs) ctr
                  = ⟨.dir (cs2.setEntry cacheName (.file (.pickle cacheU) 0)),
                      tr ++ [.syncEv qc], .error .removeDir⟩ := hEQc
              rw [hEQ2] at hres
              exact Except.noConfusion
                (show (Except.error UErr.removeDir : Except UErr (Cache × Counters))
                  = .ok (cache, ctr2) from hres)
            | file df mtf =>
              rw [hd3] at hEQc
              have hEQ2 : updateNode cfg force cur qc (.dir cs) ctr
                  = ⟨.dir ((cs2.setEntry cacheName
                      (.file (.pickle cacheU) 0)).erase dirtyName),
                      tr ++ [.syncEv qc, .rmDirtyEv qc],
                      .ok (cacheU, { ctrU with
                        directories_processed := ctrU.directories_processed + 1 })⟩ := hEQc
              rw [hEQ2] at hres
              have h2 : (Except.ok (cacheU, { ctrU with
                  directories_processed := ctrU.directories_processed + 1 })
                  : Except UErr (Cache × Counters)) = .ok (cache, ctr2) := hres
              injection h2 with h3
              injection h3 with h4 h5
              exact h4 ▸ hCU
        cases hc2 : cs2.find? cacheName with
        | some t =>
          cases t with
          | dir ccs =>
            rw [hc2] at hEQb
            have hEQ2 : updateNode cfg force cur qc (.dir cs) ctr
                = ⟨.dir cs2, tr, .error .openDir⟩ := hEQb
            rw [hEQ2] at hres
            exact Except.noConfusion
              (show (Except.error UErr.openDir : Except UErr (Cache × Counters))
                = .ok (cache, ctr2) from hres)
          | file d0 mt0 =>
            rw [hc2] at hEQb
            exact hfinish hEQb
        | none =>
          rw [hc2] at hEQb
          exact hfinish hEQb

theorem uListClean_cons : ∀ (n : Name) (child : FSNode) (rest : FSList),
    UNodeClean child → UListClean rest → UListClean (.cons n child rest) := by
  intro n child rest ihN ihL cfg force cur qc cache ctr cache2 ctr2
    hnames hLWF hcaches hclean hres
  obtain ⟨hNW, hRW⟩ := hLWF
  obtain ⟨hPc, hPr⟩ := hcaches
  have hgn : goodName n := hnames n (List.mem_cons_self _ _)
  have hrestnames : ∀ m ∈ rest.names, goodName m :=
    fun m hm => hnames m (List.mem_cons_of_mem _ hm)
  by_cases hm : hiddenName n = true
  · have hEQ := updateChildren_cons_hidden cfg force cur qc n child rest cache ctr hm
    cases hu : updateChildren cfg force cur qc rest cache ctr with
    | mk rest2 tr r =>
      rw [hu] at hEQ
      have hEQ2 : updateChildren cfg force cur qc (.cons n child rest) cache ctr
          = ⟨.cons n child rest2, tr, r⟩ := hEQ
      rw [hEQ2] at hres
      have hres2 : r = .ok (cache2, ctr2) := hres
      exact ihL cfg force cur qc cache ctr cache2 ctr2 hrestnames hRW hPr hclean
        (by rw [hu]; exact hres2)
  · have hm2 : hiddenName n = false := by simpa using hm
    have hpj : hiddenName (basename (pjoin cur n)) = false := by
      rw [basename_pjoin cur n hgn.1 hgn.2.1]
      exact hm2
    cases child with
    | dir ccs =>
      have hEQ := updateChildren_cons_dir cfg force cur qc n ccs rest cache ctr hm2
      cases hun : updateNode cfg force (pjoin cur n) (qc ++ [n]) (.dir ccs) ctr with
      | mk child2 trc rc =>
        rw [hun] at hEQ
        cases rc with
        | error e =>
          have hEQ2 : updateChildren cfg force cur qc (.cons n (.dir ccs) rest) cache ctr
              = ⟨.cons n child2 rest, trc, .error e⟩ := hEQ
          rw [hEQ2] at hres
          exact Except.noConfusion
            (show (Except.error e : Except UErr (Cache × Counters))
              = .ok (cache2, ctr2) from hres)
        | ok pr =>
          obtain ⟨sub, ctrS⟩ := pr
          have hSub : CleanCache sub :=
            ihN cfg force (pjoin cur n) (qc ++ [n]) ctr sub ctrS hNW (hPc hm2)
              (by rw [hun])
          have hEQc : updateChildren cfg force cur qc (.cons n (.dir ccs) rest) cache ctr
              = (match updateChildren cfg force cur qc rest
                    (Cache.addSubCache { cache with
                      files := setAdd cache.files (pjoin cur n) } sub) ctrS with
                 | ⟨rest2, tr2, r⟩ => ⟨.cons n child2 rest2, trc ++ tr2, r⟩) := hEQ
          cases hur : updateChildren cfg force cur qc rest
              (Cache.addSubCache { cache with
                files := setAdd cache.files (pjoin cur n) } sub) ctrS with
          | mk rest2 tr2 r2 =>
            rw [hur] at hEQc
            have hEQ2 : updateChildren cfg force cur qc (.cons n (.dir ccs) rest) cache ctr
                = ⟨.cons n child2 rest2, trc ++ tr2, r2⟩ := hEQc
            rw [hEQ2] at hres
            have hres2 : r2 = .ok (cache2, ctr2) := hres
            exact ihL cfg force cur qc
              (Cache.addSubCache { cache with
                files := setAdd cache.files (pjoin cur n) } sub) ctrS cache2 ctr2
              hrestnames hRW hPr
              (keyPred_addSub _ _ sub (keyPred_addFile _ cache _ hclean hpj) hSub)
              (by rw [hur]; exact hres2)
    | file d mt =>
      have hEQ := updateChildren_cons_file cfg force cur qc n d mt rest cache ctr hm2
      cases hfc : fileStepContent cfg n (pjoin cur n) d
          { cache with files := setAdd cache.files (pjoin cur n) } ctr with
      | error e =>
        rw [hfc] at hEQ
        have hEQ2 : updateChildren cfg force cur qc (.cons n (.file d mt) rest) cache ctr
            = ⟨.cons n (.file d mt) rest, [], .error e⟩ := hEQ
        rw [hEQ2] at hres
        exact Except.noConfusion
          (show (Except.error e : Except UErr (Cache × Counters))
            = .ok (cache2, ctr2) from hres)
      | ok pr =>
        obtain ⟨cache3, ctr3⟩ := pr
        rw [hfc] at hEQ
        have hI3 : KeyPred (fun k => hiddenName (basename k) = false) cache3 :=
          fileStepContent_keyPred _ cfg n (pjoin cur n) d
            { cache with files := setAdd cache.files (pjoin cur n) } ctr cache3 ctr3
            (keyPred_addFile _ cache _ hclean hpj) hpj hfc
        have hEQc : updateChildren cfg force cur qc (.cons n (.file d mt) rest) cache ctr
            = (match fileStepMtime cfg n (pjoin cur n) mt cache3 ctr3 with
               | (cache4, ctr4) =>
                 (match updateChildren cfg force cur qc rest cache4 ctr4 with
                  | ⟨rest2, tr2, r⟩ => ⟨.cons n (.file d mt) rest2, tr2, r⟩)) := hEQ
        cases hfm : fileStepMtime cfg n (pjoin cur n) mt cache3 ctr3 with
        | mk cache4 ctr4 =>
          rw [hfm] at hEQc
          have hI4 : KeyPred (fun k => hiddenName (basename k) = false) cache4 :=
            fileStepMtime_keyPred _ cfg n (pjoin cur n) mt cache3 ctr3
              cache4 ctr4 hI3 hpj hfm
          have hEQd : updateChildren cfg force cur qc (.cons n (.file d mt) rest) cache ctr
              = (match updateChildren cfg force cur qc rest cache4 ctr4 with
                 | ⟨rest2, tr2, r⟩ => ⟨.cons n (.file d mt) rest2, tr2, r⟩) := hEQc
          cases hur : updateChildren cfg force cur qc rest cache4 ctr4 with
          | mk rest2 tr2 r2 =>
            rw [hur] at hEQd
            have hEQ2 : updateChildren cfg force cur qc (.cons n (.file d mt) rest) cache ctr
                = ⟨.cons n (.file d mt) rest2, tr2, r2⟩ := hEQd
            rw [hEQ2] at hres
            have hres2 : r2 = .ok (cache2, ctr2) := hres
            exact ihL cfg force cur qc cache4 ctr4 cache2 ctr2 hrestnames hRW hPr hI4
              (by rw [hur]; exact hres2)

theorem uNodeClean_all : ∀ node, UNodeClean node :=
  FS.recN UNodeClean UListClean uNodeClean_file uNodeClean_dir
    uListClean_nil uListClean_cons

/-- C9: no hidden entry (name starting with the reserved `'.'` prefix) ever
appears in the `files` set, the `data` map or the `mtime` map of a
CacheStore that a successful `update` of a well-formed tree returns:
`_ls` filters hidden names out at every level of the traversal, so every
key the rebuild records has a visible basename (provided the cache files
already on disk contain only such keys, which holds of caches the rebuild
itself wrote). -/
theorem hidden_excluded_C9 (node : FSNode) (cfg : Cfg) (force : Bool)
    (cur : PathStr) (qc : List Name) (ctr : Counters)
    (cache : Cache) (ctr2 : Counters)
    (hWF : NodeWF node)
    (hcaches : NodeCachesP (fun _ c => CleanCache c) qc node)
    (hres : (updateNode cfg force cur qc node ctr).res = .ok (cache, ctr2)) :
    CleanCache cache :=
  uNodeClean_all node cfg force cur qc ctr cache ctr2 hWF hcaches hres

/-- Concrete run of the C9 theorem: updating a tree with a hidden file
`.h` next to an allow-listed file `a` yields a store whose every key has a
visible basename (the hidden file appears nowhere in it). -/
theorem hidden_excluded_C9_witness :
    CleanCache c5Cache :=
  hidden_excluded_C9 c9Tree c5Cfg false ['/'] [] ctrZero c5Cache ⟨1, 1, 1⟩
    ⟨by decide, by decide, trivial, trivial, trivial⟩
    ⟨fun c mt h => Option.noConfusion
        (show (none : Option FSNode)
          = some (FSNode.file (.pickle c) mt) from h),
      fun hf => Bool.noConfusion hf,
      fun _ => trivial, trivial⟩
    (by rfl)

end C9Clean

section C3Idem

theorem FSList.names_setEntry (cs : FSList) (n : Name) (t : FSNode) :
    (cs.setEntry n t).names
      = if n ∈ cs.names then cs.names else cs.names ++ [n] := by
  induction cs using FSList.indL with
  | h0 => simp [FSList.setEntry, FSList.names]
  | h1 m u rest ih =>
    by_cases hmn : m = n
    · subst hmn
      simp [FSList.setEntry, FSList.names]
    · simp only [FSList.setEntry, if_neg hmn, FSList.names, ih]
      by_cases hmem : n ∈ rest.names
      · rw [if_pos hmem, if_pos (List.mem_cons_of_mem _ hmem)]
      · rw [if_neg hmem, if_neg (fun hc => by
          rcases List.mem_cons.1 hc with h1 | h2
          · exact hmn h1.symm
          · exact hmem h2)]
        simp

theorem nodup_names_setEntry (cs : FSList) (n : Name) (t : FSNode)
    (h : cs.names.Nodup) : (cs.setEntry n t).names.Nodup := by
  rw [FSList.names_setEntry]
  split
  · exact h
  · rename_i hmem
    rw [List.nodup_append]
    exact ⟨h, List.nodup_singleton n,
      fun a ha hb => hmem (List.mem_singleton.1 hb ▸ ha)⟩

theorem updateChildren_names (cfg : Cfg) (force : Bool) (cur : PathStr)
    (qc : List Name) (cs : FSList) :
    ∀ (cache : Cache) (ctr : Counters),
      ((updateChildren cfg force cur qc cs cache ctr).cs).names = cs.names := by
  induction cs using FSList.indL with
  | h0 => intro cache ctr; rfl
  | h1 m child rest ih =>
    intro cache ctr
    by_cases hm : hiddenName m = true
    · have hEQ := updateChildren_cons_hidden cfg force cur qc m child rest cache ctr hm
      cases hu : updateChildren cfg force cur qc rest cache ctr with
      | mk rest2 tr r =>
        rw [hu] at hEQ
        have hEQ2 : updateChildren cfg force cur qc (.cons m child rest) cache ctr
            = ⟨.cons m child rest2, tr, r⟩ := hEQ
        rw [hEQ2]
        show (FSList.cons m child rest2).names = (FSList.cons m child rest).names
        have hr := ih cache ctr
        rw [hu] at hr
        simp [FSList.names, hr]
    · have hmf : hiddenName m = false := by simpa using hm
      cases child with
      | dir ccs =>
        have hEQ := updateChildren_cons_dir cfg force cur qc m ccs rest cache ctr hmf
        cases hn2 : updateNode cfg force (pjoin cur m) (qc ++ [m]) (.dir ccs) ctr with
        | mk child2 trc rc =>
          rw [hn2] at hEQ
          cases rc with
          | error e =>
            have hEQ2 : updateChildren cfg force cur qc (.cons m (.dir ccs) rest) cache ctr
                = ⟨.cons m child2 rest, trc, .error e⟩ := hEQ
            rw [hEQ2]
            show (FSList.cons m child2 rest).names = (FSList.cons m (.dir ccs) rest).names
            simp [FSList.names]
          | ok pr =>
            obtain ⟨sub, ctr2⟩ := pr
            have hEQb : updateChildren cfg force cur qc (.cons m (.dir ccs) rest) cache ctr
                = (match updateChildren cfg force cur qc rest
                    (Cache.addSubCache { cache with
                      files := setAdd cache.files (pjoin cur m) } sub) ctr2 with
                   | ⟨rest2, tr2, r⟩ => ⟨.cons m child2 rest2, trc ++ tr2, r⟩) := hEQ
            cases hu : updateChildren cfg force cur qc rest
                (Cache.addSubCache { cache with
                  files := setAdd cache.files (pjoin cur m) } sub) ctr2 with
            | mk rest2 tr2 r =>
              rw [hu] at hEQb
              have hEQ2 : updateChildren cfg force cur qc (.cons m (.dir ccs) rest) cache ctr
                  = ⟨.cons m child2 rest2, trc ++ tr2, r⟩ := hEQb
              rw [hEQ2]
              show (FSList.cons m child2 rest2).names
                  = (FSList.cons m (.dir ccs) rest).names
              have hr := ih (Cache.addSubCache { cache with
                  files := setAdd cache.files (pjoin cur m) } sub) ctr2
              rw [hu] at hr
              simp [FSList.names, hr]
      | file d mt =>
        have hEQ := updateChildren_cons_file cfg force cur qc m d mt rest cache ctr hmf
        cases hfc : fileStepContent cfg m (pjoin cur m) d
            { cache with files := setAdd cache.files (pjoin cur m) } ctr with
        | error e =>
          rw [hfc] at hEQ
          have hEQ2 : updateChildren cfg force cur qc (.cons m (.file d mt) rest) cache ctr
              = ⟨.cons m (.file d mt) rest, [], .error e⟩ := hEQ
          rw [hEQ2]
        | ok pr =>
          obtain ⟨cache3, ctr3⟩ := pr
          rw [hfc] at hEQ
          have hEQc : updateChildren cfg force cur qc (.cons m (.file d mt) rest) cache ctr
              = (match fileStepMtime cfg m (pjoin cur m) mt cache3 ctr3 with
                 | (cache4, ctr4) =>
                   (match updateChildren cfg force cur qc rest cache4 ctr4 with
                    | ⟨rest2, tr2, r⟩ => ⟨.cons m (.file d mt) rest2, tr2, r⟩)) := hEQ
          cases hms : fileStepMtime cfg m (pjoin cur m) mt cache3 ctr3 with
          | mk cache4 ctr4 =>
            rw [hms] at hEQc
            have hEQb : updateChildren cfg force cur qc (.cons m (.file d mt) rest) cache ctr
                = (match updateChildren cfg force cur qc rest cache4 ctr4 with
                   | ⟨rest2, tr2, r⟩ => ⟨.cons m (.file d mt) rest2, tr2, r⟩) := hEQc
            cases hu : updateChildren cfg force cur qc rest cache4 ctr4 with
            | mk rest2 tr2 r =>
              rw [hu] at hEQb
              have hEQ2 : updateChildren cfg force cur qc (.cons m (.file d mt) rest) cache ctr
                  = ⟨.cons m (.file d mt) rest2, tr2, r⟩ := hEQb
              rw [hEQ2]
              show (FSList.cons m (.file d mt) rest2).names
                  = (FSList.cons m (.file d mt) rest).names
              have hr := ih cache4 ctr4
              rw [hu] at hr
              simp [FSList.names, hr]

theorem getNode_setNodeAt_self (q : List Name) : ∀ (fs node new : FSNode),
    getNode fs q = some node → getNode (setNodeAt fs q new) q = some new := by
  induction q with
  | nil =>
    intro fs node new h
    cases fs <;> cases new <;> rfl
  | cons n rest ih =>
    intro fs node new h
    cases fs with
    | file d mt => exact Option.noConfusion h
    | dir cs =>
      have h2 : (match cs.find? n with
                 | some c => getNode c rest
                 | none => none) = some node := h
      cases hf : cs.find? n with
      | none =>
        rw [hf] at h2
        exact Option.noConfusion h2
      | some c =>
        rw [hf] at h2
        have hset : setNodeAt (.dir cs) (n :: rest) new
            = .dir (cs.setEntry n (setNodeAt c rest new)) := by
          simp [setNodeAt, hf]
        rw [hset]
        show (match (cs.setEntry n (setNodeAt c rest new)).find? n with
              | some c2 => getNode c2 rest
              | none => none) = some new
        rw [FSList.find?_setEntry_self]
        exact ih c node new h2

theorem takesFastPath_force_false (force : Bool) (node : FSNode)
    (h : takesFastPath force node = true) :
    force = false ∧ takesFastPath false node = true := by
  have h1 := h
  unfold takesFastPath at h1 ⊢
  rw [Bool.and_eq_true] at h1
  obtain ⟨h2, h3⟩ := h1
  refine ⟨of_decide_eq_true h2, ?_⟩
  rw [h3]
  simp

theorem updateNode_ok_fastReady (cfg : Cfg) (force : Bool) (cur : PathStr)
    (qc : List Name) (cs : FSList) (ctr : Counters)
    (hnd : cs.names.Nodup) (node2 : FSNode) (tr : List Ev)
    (cache : Cache) (ctr2 : Counters)
    (h : updateNode cfg force cur qc (.dir cs) ctr = ⟨node2, tr, .ok (cache, ctr2)⟩) :
    takesFastPath false node2 = true := by
  by_cases hfp : takesFastPath force (.dir cs) = true
  · cases hcf : cs.find? cacheName with
    | none =>
      rw [updateNode_fast_none cfg force cur qc cs ctr hfp hcf] at h
      injection h with h1 h2 h3
      exact Except.noConfusion h3
    | some t =>
      cases t with
      | dir ccs =>
        rw [updateNode_fast_dircache cfg force cur qc cs ctr ccs hfp hcf] at h
        injection h with h1 h2 h3
        exact Except.noConfusion h3
      | file d mt =>
        cases d with
        | text s =>
          rw [updateNode_fast_text cfg force cur qc cs ctr s mt hfp hcf] at h
          injection h with h1 h2 h3
          exact Except.noConfusion h3
        | pickle c =>
          rw [updateNode_fast_pickle cfg force cur qc cs ctr c mt hfp hcf] at h
          injection h with h1 h2 h3
          rw [← h1]
          exact (takesFastPath_force_false force (.dir cs) hfp).2
  · have hfp2 : takesFastPath force (.dir cs) = false := by simpa using hfp
    have hEQ := updateNode_rebuild_eq cfg force cur qc cs ctr hfp2
    cases hu : updateChildren cfg force cur qc cs emptyCache ctr with
    | mk cs2 tr0 r =>
      rw [hu] at hEQ
      have hnames2 : cs2.names = cs.names := by
        have hx := updateChildren_names cfg force cur qc cs emptyCache ctr
        rw [hu] at hx
        exact hx
      have hnd2 : cs2.names.Nodup := by
        rw [hnames2]
        exact hnd
      cases r with
      | error e =>
        have hEQ2 : updateNode cfg force cur qc (.dir cs) ctr
            = ⟨.dir cs2, tr0, .error e⟩ := hEQ
        rw [hEQ2] at h
        injection h with h1 h2 h3
        exact Except.noConfusion h3
      | ok pr =>
        obtain ⟨cacheU, ctrU⟩ := pr
        have hEQb : updateNode cfg force cur qc (.dir cs) ctr
            = (match cs2.find? cacheName with
               | some (.dir _) => (⟨.dir cs2, tr0, .error .openDir⟩ : URes)
               | _ =>
                 (match (cs2.setEntry cacheName
                     (.file (.pickle cacheU) 0)).find? dirtyName with
                  | some (.dir _) =>
                    ⟨.dir (cs2.setEntry cacheName (.file (.pickle cacheU) 0)),
                      tr0 ++ [.syncEv qc], .error .removeDir⟩
                  | some (.file _ _) =>
                    ⟨.dir ((cs2.setEntry cacheName
                        (.file (.pickle cacheU) 0)).erase dirtyName),
                      tr0 ++ [.syncEv qc, .rmDirtyEv qc],
                      .ok (cacheU, { ctrU with
                        directories_processed := ctrU.directories_processed + 1 })⟩
                  | none =>
                    ⟨.dir (cs2.setEntry cacheName (.file (.pickle cacheU) 0)),
                      tr0 ++ [.syncEv qc],
                      .ok (cacheU, { ctrU with
                        directories_processed := ctrU.directories_processed + 1 })⟩)) := hEQ
        have hnd3 : ((cs2.setEntry cacheName (.file (.pickle cacheU) 0)).names).Nodup :=
          nodup_names_setEntry cs2 cacheName _ hnd2
        have hfindC : (cs2.setEntry cacheName (.file (.pickle cacheU) 0)).find? cacheName
            = some (.file (.pickle cacheU) 0) :=
          FSList.find?_setEntry_self cs2 cacheName _
        have hfinish : (updateNode cfg force cur qc (.dir cs) ctr
            = (match (cs2.setEntry cacheName
                  (.file (.pickle cacheU) 0)).find? dirtyName with
               | some (.dir _) =>
                 (⟨.dir (cs2.setEntry cacheName (.file (.pickle cacheU) 0)),
                   tr0 ++ [.syncEv qc], .error .removeDir⟩ : URes)
               | some (.file _ _) =>
                 ⟨.dir ((cs2.setEntry cacheName
                     (.file (.pickle cacheU) 0)).erase dirtyName),
                   tr0 ++ [.syncEv qc, .rmDirtyEv qc],
                   .ok (cacheU, { ctrU with
                     directories_processed := ctrU.directories_processed + 1 })⟩
               | none =>
                 ⟨.dir (cs2.setEntry cacheName (.file (.pickle cacheU) 0)),
                   tr0 ++ [.syncEv qc],
                   .ok (cacheU, { ctrU with
                     directories_processed := ctrU.directories_processed + 1 })⟩)) →
            takesFastPath false node2 = true := by
          intro hEQc
          cases hd3 : (cs2.setEntry cacheName
              (.file (.pickle cacheU) 0)).find? dirtyName with
          | none =>
            rw [hd3] at hEQc
            have hEQ2 : updateNode cfg force cur qc (.dir cs) ctr
                = ⟨.dir (cs2.setEntry cacheName (.file (.pickle cacheU) 0)),
                    tr0 ++ [.syncEv qc],
                    .ok (cacheU, { ctrU with
                      directories_processed := ctrU.directories_processed + 1 })⟩ := hEQc
            rw [hEQ2] at h
            injection h with h1 h2 h3
            rw [← h1]
            simp [takesFastPath, hd3, hfindC]
          | some td =>
            cases td with
            | dir dcs =>
              rw [hd3] at hEQc
              have hEQ2 : updateNode cfg force cur qc (.dir cs) ctr
                  = ⟨.dir (cs2.setEntry cacheName (.file (.pickle cacheU) 0)),
                      tr0 ++ [.syncEv qc], .error .removeDir⟩ := hEQc
              rw [hEQ2] at h
              injection h with h1 h2 h3
              exact Except.noConfusion h3
            | file df mtf =>
              rw [hd3] at hEQc
              have hEQ2 : updateNode cfg force cur qc (.dir cs) ctr
                  = ⟨.dir ((cs2.setEntry cacheName
                      (.file (.pickle cacheU) 0)).erase dirtyName),
                      tr0 ++ [.syncEv qc, .rmDirtyEv qc],
                      .ok (cacheU, { ctrU with
                        directories_processed := ctrU.directories_processed + 1 })⟩ := hEQc
              rw [hEQ2] at h
              injection h with h1 h2 h3
              rw [← h1]
              have hdn : ((cs2.setEntry cacheName
                  (.file (.pickle cacheU) 0)).erase dirtyName).find? dirtyName = none :=
                FSList.find?_erase_self _ dirtyName hnd3
              have hcn : ((cs2.setEntry cacheName
                  (.file (.pickle cacheU) 0)).erase dirtyName).find? cacheName
                  = some (.file (.pickle cacheU) 0) := by
                rw [FSList.find?_erase_ne _ dirtyName cacheName (by decide)]
                exact hfindC
              simp [takesFastPath, hdn, hcn]
        cases hc2 : cs2.find? cacheName with
        | some t =>
          cases t with
          | dir ccs =>
            rw [hc2] at hEQb
            have hEQ2 : updateNode cfg force cur qc (.dir cs) ctr
                = ⟨.dir cs2, tr0, .error .openDir⟩ := hEQb
            rw [hEQ2] at h
            injection h with h1 h2 h3
            exact Except.noConfusion h3
          | file d0 mt0 =>
            rw [hc2] at hEQb
            exact hfinish hEQb
        | none =>
          rw [hc2] at hEQb
          exact hfinish hEQb

theorem upUpdate_fast (t : UpSt) (fs : FSNode) (node : FSNode)
    (hg : getNode fs (pathComps t.root) = some node)
    (hfp : takesFastPath false node = true) (hc : t.cache.isSome = true) :
    upUpdate t false fs = (fs, [], .ok (t, ctrZero)) := by
  unfold upUpdate
  rw [hg]
  split
  · rename_i heq
    exact Option.noConfusion heq
  · rename_i node2 heq
    injection heq with he
    subst he
    rw [if_pos (show takesFastPath false node = true ∧ t.cache.isSome = true
      from ⟨hfp, hc⟩)]

/-- C3: calling `update()` twice in a row with `force=False` and no
filesystem change in between: if the first call succeeds, the second call
takes the fast path — it returns the very same in-memory store (hence
identical `files`/`data`/`mtime` contents), leaves the filesystem
untouched, emits no sync/remove events, and reports counters with zero
`files_read` and zero `files_stat` (no reads, no stats, no recursion).
Needs the root directory's entry names to be duplicate-free, as in a real
directory. -/
theorem update_idempotent_C3 (t : UpSt) (fs fs1 : FSNode) (tr1 : List Ev)
    (t1 : UpSt) (ctr1 : Counters)
    (hnd : ∀ cs, getNode fs (pathComps t.root) = some (.dir cs) → cs.names.Nodup)
    (h : upUpdate t false fs = (fs1, tr1, .ok (t1, ctr1))) :
    upUpdate t1 false fs1 = (fs1, [], .ok (t1, ctrZero)) ∧
    ctrZero.files_read = 0 ∧ ctrZero.files_stat = 0 := by
  refine ⟨?_, rfl, rfl⟩
  unfold upUpdate at h
  cases hg : getNode fs (pathComps t.root) with
  | none =>
    rw [hg] at h
    have h2 : (Except.error UErr.listNonDir : Except UErr (UpSt × Counters))
        = .ok (t1, ctr1) := congrArg (fun x => x.2.2) h
    exact Except.noConfusion h2
  | some node =>
    rw [hg] at h
    have hb : (if takesFastPath false node = true ∧ t.cache.isSome = true
        then (fs, ([], Except.ok (t, ctrZero)))
        else (match (updateNode t.cfg false t.root (pathComps t.root) node ctrZero).res with
              | Except.ok (c, ctr) =>
                (setNodeAt fs (pathComps t.root)
                    (updateNode t.cfg false t.root (pathComps t.root) node ctrZero).node,
                  (updateNode t.cfg false t.root (pathComps t.root) node ctrZero).tr,
                  Except.ok ({ t with cache := some c }, ctr))
              | Except.error e =>
                (setNodeAt fs (pathComps t.root)
                    (updateNode t.cfg false t.root (pathComps t.root) node ctrZero).node,
                  (updateNode t.cfg false t.root (pathComps t.root) node ctrZero).tr,
                  Except.error e)))
        = (fs1, tr1, Except.ok (t1, ctr1)) := h
    by_cases hfp : takesFastPath false node = true ∧ t.cache.isSome = true
    · rw [if_pos hfp] at hb
      have h1 : fs = fs1 := congrArg (fun x => x.1) hb
      have h2 : (Except.ok (t, ctrZero) : Except UErr (UpSt × Counters))
          = .ok (t1, ctr1) := congrArg (fun x => x.2.2) hb
      injection h2 with h3
      injection h3 with h4 h5
      subst h1
      subst h4
      exact upUpdate_fast t fs node hg hfp.1 hfp.2
    · rw [if_neg hfp] at hb
      cases node with
      | file d mt =>
        rw [updateNode_file_eq] at hb
        have h2 : (Except.error UErr.listNonDir : Except UErr (UpSt × Counters))
            = .ok (t1, ctr1) := congrArg (fun x => x.2.2) hb
        exact Except.noConfusion h2
      | dir cs =>
        have hnd2 : cs.names.Nodup := hnd cs hg
        cases hr : updateNode t.cfg false t.root (pathComps t.root) (.dir cs) ctrZero with
        | mk node2 tr res =>
          rw [hr] at hb
          cases res with
          | error e =>
            have h2 : (Except.error e : Except UErr (UpSt × Counters))
                = .ok (t1, ctr1) := congrArg (fun x => x.2.2) hb
            exact Except.noConfusion h2
          | ok pr =>
            obtain ⟨c, ctrX⟩ := pr
            have hfs1 : setNodeAt fs (pathComps t.root) node2 = fs1 :=
              congrArg (fun x => x.1) hb
            have h2 : (Except.ok ({ t with cache := some c }, ctrX)
                : Except UErr (UpSt × Counters)) = .ok (t1, ctr1) :=
              congrArg (fun x => x.2.2) hb
            injection h2 with h3
            injection h3 with h4 h5
            have hfast : takesFastPath false node2 = true :=
              updateNode_ok_fastReady t.cfg false t.root (pathComps t.root) cs
                ctrZero hnd2 node2 tr c ctrX hr
            have hget2 : getNode fs1 (pathComps t.root) = some node2 := by
              rw [← hfs1]
              exact getNode_setNodeAt_self (pathComps t.root) fs (.dir cs) node2 hg
            subst h4
            exact upUpdate_fast { t with cache := some c } fs1 node2 hget2 hfast rfl

/-- Concrete run of the C3 theorem: after the first `update` of `c3Fs`
(which syncs `/r/.uptree-cache`), the second `update` returns the same
store, trace-free and with zero counters. -/
theorem update_idempotent_C3_witness :
    upUpdate c3T1 false c3Fs1 = (c3Fs1, [], .ok (c3T1, ctrZero)) :=
  (update_idempotent_C3 c3T c3Fs c3Fs1 [Ev.syncEv [['r']]] c3T1 ⟨1, 1, 1⟩
    (fun cs hcs => by
      have h2 : FSNode.dir (.cons ['a'] (.file (.text "v") 3) .nil) = .dir cs :=
        Option.some.inj hcs
      injection h2 with h3
      subst h3
      decide)
    (by rfl)).1

end C3Idem

section C2Dict

theorem lookup_cons_self {α : Type} (k : PathStr) (v : α) (rest : List (PathStr × α)) :
    ((k, v) :: rest).lookup k = some v := by
  show (match k == k with | true => some v | false => rest.lookup k) = some v
  rw [beq_self_eq_true]

theorem lookup_cons_ne {α : Type} (k k0 : PathStr) (v0 : α) (rest : List (PathStr × α))
    (h : k ≠ k0) : ((k0, v0) :: rest).lookup k = rest.lookup k := by
  show (match k == k0 with | true => some v0 | false => rest.lookup k) = rest.lookup k
  rw [show (k == k0) = false from beq_eq_false_iff_ne.mpr h]

theorem lookup_append_eq {α : Type} (d e : List (PathStr × α)) (k : PathStr) :
    (d ++ e).lookup k
      = (match d.lookup k with
         | some v => some v
         | none => e.lookup k) := by
  induction d with
  | nil => simp
  | cons kv rest ih =>
    obtain ⟨k0, v0⟩ := kv
    by_cases h : k = k0
    · subst h
      rw [List.cons_append, lookup_cons_self, lookup_cons_self]
    · rw [List.cons_append, lookup_cons_ne _ _ _ _ h, lookup_cons_ne _ _ _ _ h, ih]

theorem lookup_map_overwrite {α : Type} (d : List (PathStr × α)) (k : PathStr) (v : α) :
    (d.map (fun kv => if kv.1 = k then (k, v) else kv)).lookup k
      = if (d.lookup k).isSome then some v else none := by
  induction d with
  | nil => simp
  | cons kv rest ih =>
    obtain ⟨k0, v0⟩ := kv
    simp only [List.map_cons]
    by_cases h : k0 = k
    · subst h
      have hf : (if ((k0, v0) : PathStr × α).1 = k0 then ((k0, v) : PathStr × α)
          else (k0, v0)) = (k0, v) := by simp
      rw [hf, lookup_cons_self, lookup_cons_self]
      rfl
    · have hf : (if ((k0, v0) : PathStr × α).1 = k then ((k, v) : PathStr × α)
          else (k0, v0)) = (k0, v0) := by simp [h]
      have h2 : k ≠ k0 := fun hh => h hh.symm
      rw [hf, lookup_cons_ne _ _ _ _ h2, lookup_cons_ne _ _ _ _ h2, ih]

theorem lookup_map_overwrite_ne {α : Type} (d : List (PathStr × α)) (k k' : PathStr) (v : α)
    (h : k' ≠ k) :
    (d.map (fun kv => if kv.1 = k then (k, v) else kv)).lookup k' = d.lookup k' := by
  induction d with
  | nil => rfl
  | cons kv rest ih =>
    obtain ⟨k0, v0⟩ := kv
    simp only [List.map_cons]
    by_cases h2 : k0 = k
    · subst h2
      have hf : (if ((k0, v0) : PathStr × α).1 = k0 then ((k0, v) : PathStr × α)
          else (k0, v0)) = (k0, v) := by simp
      rw [hf, lookup_cons_ne _ _ _ _ h, lookup_cons_ne _ _ _ _ h]
      exact ih
    · have hf : (if ((k0, v0) : PathStr × α).1 = k then ((k, v) : PathStr × α)
          else (k0, v0)) = (k0, v0) := by simp [h2]
      rw [hf]
      by_cases h3 : k' = k0
      · subst h3
        rw [lookup_cons_self, lookup_cons_self]
      · rw [lookup_cons_ne _ _ _ _ h3, lookup_cons_ne _ _ _ _ h3]
        exact ih

theorem lookup_dictInsert_self {α : Type} (d : List (PathStr × α)) (k : PathStr) (v : α) :
    (dictInsert d k v).lookup k = some v := by
  unfold dictInsert
  split
  · rename_i hs
    rw [lookup_map_overwrite, if_pos hs]
  · rename_i hs
    rw [lookup_append_eq, Option.not_isSome_iff_eq_none.1 hs]
    show ([(k, v)] : List (PathStr × α)).lookup k = some v
    exact lookup_cons_self k v []

theorem lookup_dictInsert_ne {α : Type} (d : List (PathStr × α)) (k k' : PathStr) (v : α)
    (h : k' ≠ k) : (dictInsert d k v).lookup k' = d.lookup k' := by
  unfold dictInsert
  split
  · exact lookup_map_overwrite_ne d k k' v h
  · rw [lookup_append_eq]
    cases hd : d.lookup k' with
    | some v2 => rfl
    | none =>
      show ([(k, v)] : List (PathStr × α)).lookup k' = none
      rw [lookup_cons_ne _ _ _ _ h]
      rfl

theorem lookup_dictUpdate_not_mem {α : Type} (e : List (PathStr × α)) :
    ∀ (d : List (PathStr × α)) (k : PathStr), k ∉ e.map Prod.fst →
      (dictUpdate d e).lookup k = d.lookup k := by
  induction e with
  | nil => intro d k h; rfl
  | cons kv e2 ih =>
    intro d k h
    rw [List.map_cons] at h
    have h1 : k ≠ kv.1 := fun hh => h (by rw [hh]; exact List.mem_cons_self _ _)
    have h2 : k ∉ e2.map Prod.fst := fun hh => h (List.mem_cons_of_mem _ hh)
    show (dictUpdate (dictInsert d kv.1 kv.2) e2).lookup k = d.lookup k
    rw [ih _ k h2, lookup_dictInsert_ne _ _ _ _ h1]

theorem lookup_dictUpdate_of_lookup {α : Type} (e : List (PathStr × α)) :
    ∀ (d : List (PathStr × α)) (k : PathStr) (v : α),
      (e.map Prod.fst).Nodup → e.lookup k = some v →
      (dictUpdate d e).lookup k = some v := by
  induction e with
  | nil => intro d k v hnd h; exact Option.noConfusion h
  | cons kv e2 ih =>
    intro d k v hnd h
    obtain ⟨k0, v0⟩ := kv
    rw [List.map_cons] at hnd
    have hnd1 : k0 ∉ e2.map Prod.fst := (List.nodup_cons.1 hnd).1
    have hnd2 : (e2.map Prod.fst).Nodup := (List.nodup_cons.1 hnd).2
    by_cases he : k = k0
    · subst he
      rw [lookup_cons_self] at h
      injection h with hv
      show (dictUpdate (dictInsert d k v0) e2).lookup k = some v
      rw [lookup_dictUpdate_not_mem e2 _ k hnd1, lookup_dictInsert_self, hv]
    · rw [lookup_cons_ne _ _ _ _ he] at h
      show (dictUpdate (dictInsert d k0 v0) e2).lookup k = some v
      exact ih _ k v hnd2 h

theorem keys_dictInsert_eq {α : Type} (d : List (PathStr × α)) (k : PathStr) (v : α) :
    (dictInsert d k v).map Prod.fst
      = if (d.lookup k).isSome then d.map Prod.fst else d.map Prod.fst ++ [k] := by
  unfold dictInsert
  split
  · rw [List.map_map]
    refine List.map_congr_left ?_
    intro kv hkv
    by_cases h : kv.1 = k
    · simp [Function.comp_apply, h]
    · simp [Function.comp_apply, h]
  · rw [List.map_append]
    rfl

theorem lookup_isSome_of_mem_keys {α : Type} (d : List (PathStr × α)) (k : PathStr)
    (h : k ∈ d.map Prod.fst) : (d.lookup k).isSome = true := by
  induction d with
  | nil => simp at h
  | cons kv rest ih =>
    obtain ⟨k0, v0⟩ := kv
    by_cases he : k = k0
    · subst he
      rw [lookup_cons_self]
      rfl
    · rw [lookup_cons_ne _ _ _ _ he]
      refine ih ?_
      rw [List.map_cons] at h
      rcases List.mem_cons.1 h with h1 | h2
      · exact absurd h1 he
      · exact h2

theorem nodup_keys_dictInsert {α : Type} (d : List (PathStr × α)) (k : PathStr) (v : α)
    (h : (d.map Prod.fst).Nodup) : ((dictInsert d k v).map Prod.fst).Nodup := by
  rw [keys_dictInsert_eq]
  split
  · exact h
  · rename_i hs
    have hnm : k ∉ d.map Prod.fst := fun hm => hs (lookup_isSome_of_mem_keys d k hm)
    rw [List.nodup_append]
    exact ⟨h, List.nodup_singleton k,
      fun a ha hb => hnm (List.mem_singleton.1 hb ▸ ha)⟩

theorem nodup_keys_dictUpdate {α : Type} (e : List (PathStr × α)) :
    ∀ (d : List (PathStr × α)), (d.map Prod.fst).Nodup →
      ((dictUpdate d e).map Prod.fst).Nodup := by
  induction e with
  | nil => intro d h; exact h
  | cons kv e2 ih =>
    intro d h
    exact ih _ (nodup_keys_dictInsert d kv.1 kv.2 h)

end C2Dict

section C2Scoped

theorem goodNames_singleton (n : Name) (h : goodName n) : goodNames [n] :=
  fun x hx => List.mem_singleton.1 hx ▸ h

theorem scopedND_empty (qc : List Name) : ScopedND qc emptyCache := by
  refine ⟨?_, by simp [emptyCache], by simp [emptyCache]⟩
  intro k hk
  rcases hk with h | h | h <;> exact absurd h (by simp [emptyCache])

theorem scopedND_addFile (qc : List Name) (c : Cache) (n : Name)
    (hc : ScopedND qc c) (hgn : goodName n) :
    ScopedND qc { c with files := setAdd c.files (mkAbs (qc ++ [n])) } := by
  obtain ⟨hsc, hd, hm⟩ := hc
  refine ⟨?_, hd, hm⟩
  intro k hk
  rcases hk with h | h | h
  · rcases mem_setAdd_elim c.files _ k h with h1 | h2
    · exact hsc k (Or.inl h1)
    · exact ⟨[n], by simp, goodNames_singleton n hgn, h2⟩
  · exact hsc k (Or.inr (Or.inl h))
  · exact hsc k (Or.inr (Or.inr h))

theorem scopedND_addSub (qc : List Name) (n : Name) (c sub : Cache)
    (hc : ScopedND qc c) (hs : ScopedND (qc ++ [n]) sub) (hgn : goodName n) :
    ScopedND qc (c.addSubCache sub) := by
  obtain ⟨hsc, hd, hm⟩ := hc
  obtain ⟨hss, hsd, hsm⟩ := hs
  have hkey : ∀ k, (k ∈ sub.files ∨ k ∈ sub.data.map Prod.fst
      ∨ k ∈ sub.mtime.map Prod.fst) →
      ∃ m, m ≠ [] ∧ goodNames m ∧ k = mkAbs (qc ++ m) := by
    intro k hk
    obtain ⟨m, hm1, hm2, hm3⟩ := hss k hk
    refine ⟨n :: m, by simp, ?_, ?_⟩
    · intro x hx
      rcases List.mem_cons.1 hx with h1 | h2
      · exact h1 ▸ hgn
      · exact hm2 x h2
    · rw [hm3, List.append_assoc]
      rfl
  refine ⟨?_, nodup_keys_dictUpdate _ _ hd, nodup_keys_dictUpdate _ _ hm⟩
  intro k hk
  rcases hk with h | h | h
  · rcases mem_setUnion_elim _ _ k h with h1 | h2
    · exact hsc k (Or.inl h1)
    · exact hkey k (Or.inl h2)
  · rcases keys_dictUpdate _ _ k h with h1 | h2
    · exact hsc k (Or.inr (Or.inl h1))
    · exact hkey k (Or.inr (Or.inl h2))
  · rcases keys_dictUpdate _ _ k h with h1 | h2
    · exact hsc k (Or.inr (Or.inr h1))
    · exact hkey k (Or.inr (Or.inr h2))

theorem fileStepContent_scopedND (cfg : Cfg) (qc : List Name) (n : Name)
    (d : FData) (cache : Cache) (ctr : Counters) (cache3 : Cache) (ctr3 : Counters)
    (hc : ScopedND qc cache) (hgn : goodName n)
    (h : fileStepContent cfg n (mkAbs (qc ++ [n])) d cache ctr = .ok (cache3, ctr3)) :
    ScopedND qc cache3 := by
  obtain ⟨hsc, hd, hm⟩ := hc
  unfold fileStepContent at h
  split at h
  · cases d with
    | text s =>
      have h2 : (Except.ok ({ cache with
          data := dictInsert cache.data (mkAbs (qc ++ [n])) s },
          { ctr with files_read := ctr.files_read + 1 })
          : Except UErr (Cache × Counters)) = .ok (cache3, ctr3) := h
      injection h2 with h3
      injection h3 with h4 h5
      subst h4
      refine ⟨?_, nodup_keys_dictInsert _ _ _ hd, hm⟩
      intro k hk
      rcases hk with h5 | h5 | h5
      · exact hsc k (Or.inl h5)
      · rcases keys_dictInsert cache.data _ k s h5 with h6 | h6
        · exact hsc k (Or.inr (Or.inl h6))
        · exact ⟨[n], by simp, goodNames_singleton n hgn, h6⟩
      · exact hsc k (Or.inr (Or.inr h5))
    | pickle c =>
      exact Except.noConfusion
        (show (Except.error UErr.decodeText : Except UErr (Cache × Counters))
          = .ok (cache3, ctr3) from h)
  · have h2 : (Except.ok (cache, ctr) : Except UErr (Cache × Counters))
        = .ok (cache3, ctr3) := h
    injection h2 with h3
    injection h3 with h4 h5
    subst h4
    exact ⟨hsc, hd, hm⟩

theorem fileStepMtime_scopedND (cfg : Cfg) (qc : List Name) (n : Name)
    (mt : Int) (cache : Cache) (ctr : Counters) (cache4 : Cache) (ctr4 : Counters)
    (hc : ScopedND qc cache) (hgn : goodName n)
    (h : fileStepMtime cfg n (mkAbs (qc ++ [n])) mt cache ctr = (cache4, ctr4)) :
    ScopedND qc cache4 := by
  obtain ⟨hsc, hd, hm⟩ := hc
  unfold fileStepMtime at h
  split at h
  · have h2 : ({ cache with mtime := dictInsert cache.mtime (mkAbs (qc ++ [n])) mt },
        { ctr with files_stat := ctr.files_stat + 1 }) = (cache4, ctr4) := h
    injection h2 with h3 h4
    subst h3
    refine ⟨?_, hd, nodup_keys_dictInsert _ _ _ hm⟩
    intro k hk
    rcases hk with h5 | h5 | h5
    · exact hsc k (Or.inl h5)
    · exact hsc k (Or.inr (Or.inl h5))
    · rcases keys_dictInsert cache.mtime _ k mt h5 with h6 | h6
      · exact hsc k (Or.inr (Or.inr h6))
      · exact ⟨[n], by simp, goodNames_singleton n hgn, h6⟩
  · injection h with h3 h4
    subst h3
    exact ⟨hsc, hd, hm⟩

theorem uNodeScoped_file : ∀ (d : FData) (mt : Int), UNodeScoped (.file d mt) := by
  intro d mt cfg force qc ctr cache ctr2 hqc hWF hcaches hres
  exact Except.noConfusion
    (show (Except.error UErr.listNonDir : Except UErr (Cache × Counters))
      = .ok (cache, ctr2) from hres)

theorem uListScoped_nil : UListScoped .nil := by
  intro cfg force qc cache ctr cache2 ctr2 hqc hnames hLWF hcaches hscoped hres
  have h2 : (Except.ok (cache, ctr) : Except UErr (Cache × Counters))
      = .ok (cache2, ctr2) := hres
  injection h2 with h3
  injection h3 with h4 h5
  subst h4
  exact hscoped

theorem uNodeScoped_dir : ∀ cs, UListScoped cs → UNodeScoped (.dir cs) := by
  intro cs ihL cfg force qc ctr cache ctr2 hqc hWF hcaches hres
  obtain ⟨hnd, hgood, hLWF⟩ := hWF
  obtain ⟨hP, hL⟩ := hcaches
  by_cases hfp : takesFastPath force (.dir cs) = true
  · cases hcf : cs.find? cacheName with
    | none =>
      rw [updateNode_fast_none cfg force (mkAbs qc) qc cs ctr hfp hcf] at hres
      exact Except.noConfusion
        (show (Except.error UErr.unpickle : Except UErr (Cache × Counters))
          = .ok (cache, ctr2) from hres)
    | some t =>
      cases t with
      | dir ccs =>
        rw [updateNode_fast_dircache cfg force (mkAbs qc) qc cs ctr ccs hfp hcf] at hres
        exact Except.noConfusion
          (show (Except.error UErr.openDir : Except UErr (Cache × Counters))
            = .ok (cache, ctr2) from hres)
      | file d mt =>
        cases d with
        | text s =>
          rw [updateNode_fast_text cfg force (mkAbs qc) qc cs ctr s mt hfp hcf] at hres
          exact Except.noConfusion
            (show (Except.error UErr.unpickle : Except UErr (Cache × Counters))
              = .ok (cache, ctr2) from hres)
        | pickle c =>
          rw [updateNode_fast_pickle cfg force (mkAbs qc) qc cs ctr c mt hfp hcf] at hres
          have h2 : (Except.ok (c, ctr) : Except UErr (Cache × Counters))
              = .ok (cache, ctr2) := hres
          injection h2 with h3
          injection h3 with h4 h5
          exact h4 ▸ hP c mt hcf
  · have hfp2 : takesFastPath force (.dir cs) = false := by simpa using hfp
    have hEQ := updateNode_rebuild_eq cfg force (mkAbs qc) qc cs ctr hfp2
    cases hu : updateChildren cfg force (mkAbs qc) qc cs emptyCache ctr with
    | mk cs2 tr r =>
      rw [hu] at hEQ
      cases r with
      | error e =>
        have hEQ2 : updateNode cfg force (mkAbs qc) qc (.dir cs) ctr
            = ⟨.dir cs2, tr, .error e⟩ := hEQ
        rw [hEQ2] at hres
        exact Except.noConfusion
          (show (Except.error e : Except UErr (Cache × Counters))
            = .ok (cache, ctr2) from hres)
      | ok pr =>
        obtain ⟨cacheU, ctrU⟩ := pr
        have hCU : ScopedND qc cacheU :=
          ihL cfg force qc emptyCache ctr cacheU ctrU hqc hgood hLWF hL
            (scopedND_empty qc) (by rw [hu])
        have hEQb : updateNode cfg force (mkAbs qc) qc (.dir cs) ctr
            = (match cs2.find? cacheName with
               | some (.dir _) => (⟨.dir cs2, tr, .error .openDir⟩ : URes)
               | _ =>
                 (match (cs2.setEntry cacheName
                     (.file (.pickle cacheU) 0)).find? dirtyName with
                  | some (.dir _) =>
                    ⟨.dir (cs2.setEntry cacheName (.file (.pickle cacheU) 0)),
                      tr ++ [.syncEv qc], .error .removeDir⟩
                  | some (.file _ _) =>
                    ⟨.dir ((cs2.setEntry cacheName
                        (.file (.pickle cacheU) 0)).erase dirtyName),
                      tr ++ [.syncEv qc, .rmDirtyEv qc],
                      .ok (cacheU, { ctrU with
                        directories_processed := ctrU.directories_processed + 1 })⟩
                  | none =>
                    ⟨.dir (cs2.setEntry cacheName (.file (.pickle cacheU) 0)),
                      tr ++ [.syncEv qc],
                      .ok (cacheU, { ctrU with
                        directories_processed := ctrU.directories_processed + 1 })⟩)) := hEQ
        have hfinish : (updateNode cfg force (mkAbs qc) qc (.dir cs) ctr
            = (match (cs2.setEntry cacheName
                  (.file (.pickle cacheU) 0)).find? dirtyName with
               | some (.dir _) =>
                 (⟨.dir (cs2.setEntry cacheName (.file (.pickle cacheU) 0)),
                   tr ++ [.syncEv qc], .error .removeDir⟩ : URes)
               | some (.file _ _) =>
                 ⟨.dir ((cs2.setEntry cacheName
                     (.file (.pickle cacheU) 0)).erase dirtyName),
                   tr ++ [.syncEv qc, .rmDirtyEv qc],
                   .ok (cacheU, { ctrU with
                     directories_processed := ctrU.directories_processed + 1 })⟩
               | none =>
                 ⟨.dir (cs2.setEntry cacheName (.file (.pickle cacheU) 0)),
                   tr ++ [.syncEv qc],
                   .ok (cacheU, { ctrU with
                     directories_processed := ctrU.directories_processed + 1 })⟩)) →
            ScopedND qc cache := by
          intro hEQc
          cases hd3 : (cs2.setEntry cacheName
              (.file (.pickle cacheU) 0)).find? dirtyName with
          | none =>
            rw [hd3] at hEQc
            have hEQ2 : updateNode cfg force (mkAbs qc) qc (.dir cs) ctr
                = ⟨.dir (cs2.setEntry cacheName (.file (.pickle cacheU) 0)),
                    tr ++ [.syncEv qc],
                    .ok (cacheU, { ctrU with
                      directories_processed := ctrU.directories_processed + 1 })⟩ := hEQc
            rw [hEQ2] at hres
            have h2 : (Except.ok (cacheU, { ctrU with
                directories_processed := ctrU.directories_processed + 1 })
                : Except UErr (Cache × Counters)) = .ok (cache, ctr2) := hres
            injection h2 with h3
            injection h3 with h4 h5
            exact h4 ▸ hCU
          | some t =>
            cases t with
            | dir dcs =>
              rw [hd3] at hEQc
              have hEQ2 : updateNode cfg force (mkAbs qc) qc (.dir cs) ctr
                  = ⟨.dir (cs2.setEntry cacheName (.file (.pickle cacheU) 0)),
                      tr ++ [.syncEv qc], .error .removeDir⟩ := hEQc
              rw [hEQ2] at hres
              exact Except.noConfusion
                (show (Except.error UErr.removeDir : Except UErr (Cache × Counters))
                  = .ok (cache, ctr2) from hres)
            | file df mtf =>
              rw [hd3] at hEQc
              have hEQ2 : updateNode cfg force (mkAbs qc) qc (.dir cs) ctr
                  = ⟨.dir ((cs2.setEntry cacheName
                      (.file (.pickle cacheU) 0)).erase dirtyName),
                      tr ++ [.syncEv qc, .rmDirtyEv qc],
                      .ok (cacheU, { ctrU with
                        directories_processed := ctrU.directories_processed + 1 })⟩ := hEQc
              rw [hEQ2] at hres
              have h2 : (Except.ok (cacheU, { ctrU with
                  directories_processed := ctrU.directories_processed + 1 })
                  : Except UErr (Cache × Counters)) = .ok (cache, ctr2) := hres
              injection h2 with h3
              injection h3 with h4 h5
              exact h4 ▸ hCU
        cases hc2 : cs2.find? cacheName with
        | some t =>
          cases t with
          | dir ccs =>
            rw [hc2] at hEQb
            have hEQ2 : updateNode cfg force (mkAbs qc) qc (.dir cs) ctr
                = ⟨.dir cs2, tr, .error .openDir⟩ := hEQb
            rw [hEQ2] at hres
            exact Except.noConfusion
              (show (Except.error UErr.openDir : Except UErr (Cache × Counters))
                = .ok (cache, ctr2) from hres)
          | file d0 mt0 =>
            rw [hc2] at hEQb
            exact hfinish hEQb
        | none =>
          rw [hc2] at hEQb
          exact hfinish hEQb

theorem uListScoped_cons : ∀ (n : Name) (child : FSNode) (rest : FSList),
    UNodeScoped child → UListScoped rest → UListScoped (.cons n child rest) := by
  intro n child rest ihN ihL cfg force qc cache ctr cache2 ctr2
    hqc hnames hLWF hcaches hscoped hres
  obtain ⟨hNW, hRW⟩ := hLWF
  obtain ⟨hPc, hPr⟩ := hcaches
  have hgn : goodName n := hnames n (List.mem_cons_self _ _)
  have hrestnames : ∀ m ∈ rest.names, goodName m :=
    fun m hm => hnames m (List.mem_cons_of_mem _ hm)
  have hpj : pjoin (mkAbs qc) n = mkAbs (qc ++ [n]) :=
    pjoin_mkAbs qc n hqc hgn.1 hgn.2.1
  by_cases hm : hiddenName n = true
  · have hEQ := updateChildren_cons_hidden cfg force (mkAbs qc) qc n child rest cache ctr hm
    cases hu : updateChildren cfg force (mkAbs qc) qc rest cache ctr with
    | mk rest2 tr r =>
      rw [hu] at hEQ
      have hEQ2 : updateChildren cfg force (mkAbs qc) qc (.cons n child rest) cache ctr
          = ⟨.cons n child rest2, tr, r⟩ := hEQ
      rw [hEQ2] at hres
      have hres2 : r = .ok (cache2, ctr2) := hres
      exact ihL cfg force qc cache ctr cache2 ctr2 hqc hrestnames hRW hPr hscoped
        (by rw [hu]; exact hres2)
  · have hm2 : hiddenName n = false := by simpa using hm
    have hqc2 : goodNames (qc ++ [n]) :=
      goodNames_append qc [n] hqc (goodNames_singleton n hgn)
    cases child with
    | dir ccs =>
      have hEQ := updateChildren_cons_dir cfg force (mkAbs qc) qc n ccs rest cache ctr hm2
      rw [hpj] at hEQ
      cases hun : updateNode cfg force (mkAbs (qc ++ [n])) (qc ++ [n]) (.dir ccs) ctr with
      | mk child2 trc rc =>
        rw [hun] at hEQ
        cases rc with
        | error e =>
          have hEQ2 : updateChildren cfg force (mkAbs qc) qc (.cons n (.dir ccs) rest) cache ctr
              = ⟨.cons n child2 rest, trc, .error e⟩ := hEQ
          rw [hEQ2] at hres
          exact Except.noConfusion
            (show (Except.error e : Except UErr (Cache × Counters))
              = .ok (cache2, ctr2) from hres)
        | ok pr =>
          obtain ⟨sub, ctrS⟩ := pr
          have hSub : ScopedND (qc ++ [n]) sub :=
            ihN cfg force (qc ++ [n]) ctr sub ctrS hqc2 hNW (hPc hm2)
              (by rw [hun])
          have hEQc : updateChildren cfg force (mkAbs qc) qc (.cons n (.dir ccs) rest) cache ctr
              = (match updateChildren cfg force (mkAbs qc) qc rest
                    (Cache.addSubCache { cache with
                      files := setAdd cache.files (mkAbs (qc ++ [n])) } sub) ctrS with
                 | ⟨rest2, tr2, r⟩ => ⟨.cons n child2 rest2, trc ++ tr2, r⟩) := hEQ
          cases hur : updateChildren cfg force (mkAbs qc) qc rest
              (Cache.addSubCache { cache with
                files := setAdd cache.files (mkAbs (qc ++ [n])) } sub) ctrS with
          | mk rest2 tr2 r2 =>
            rw [hur] at hEQc
            have hEQ2 : updateChildren cfg force (mkAbs qc) qc (.cons n (.dir ccs) rest) cache ctr
                = ⟨.cons n child2 rest2, trc ++ tr2, r2⟩ := hEQc
            rw [hEQ2] at hres
            have hres2 : r2 = .ok (cache2, ctr2) := hres
            exact ihL cfg force qc
              (Cache.addSubCache { cache with
                files := setAdd cache.files (mkAbs (qc ++ [n])) } sub) ctrS cache2 ctr2
              hqc hrestnames hRW hPr
              (scopedND_addSub qc n _ sub (scopedND_addFile qc cache n hscoped hgn) hSub hgn)
              (by rw [hur]; exact hres2)
    | file d mt =>
      have hEQ := updateChildren_cons_file cfg force (mkAbs qc) qc n d mt rest cache ctr hm2
      rw [hpj] at hEQ
      cases hfc : fileStepContent cfg n (mkAbs (qc ++ [n])) d
          { cache with files := setAdd cache.files (mkAbs (qc ++ [n])) } ctr with
      | error e =>
        rw [hfc] at hEQ
        have hEQ2 : updateChildren cfg force (mkAbs qc) qc (.cons n (.file d mt) rest) cache ctr
            = ⟨.cons n (.file d mt) rest, [], .error e⟩ := hEQ
        rw [hEQ2] at hres
        exact Except.noConfusion
          (show (Except.error e : Except UErr (Cache × Counters))
            = .ok (cache2, ctr2) from hres)
      | ok pr =>
        obtain ⟨cache3, ctr3⟩ := pr
        rw [hfc] at hEQ
        have hI3 : ScopedND qc cache3 :=
          fileStepContent_scopedND cfg qc n d
            { cache with files := setAdd cache.files (mkAbs (qc ++ [n])) } ctr cache3 ctr3
            (scopedND_addFile qc cache n hscoped hgn) hgn hfc
        have hEQc : updateChildren cfg force (mkAbs qc) qc (.cons n (.file d mt) rest) cache ctr
            = (match fileStepMtime cfg n (mkAbs (qc ++ [n])) mt cache3 ctr3 with
               | (cache4, ctr4) =>
                 (match updateChildren cfg force (mkAbs qc) qc rest cache4 ctr4 with
                  | ⟨rest2, tr2, r⟩ => ⟨.cons n (.file d mt) rest2, tr2, r⟩)) := hEQ
        cases hfm : fileStepMtime cfg n (mkAbs (qc ++ [n])) mt cache3 ctr3 with
        | mk cache4 ctr4 =>
          rw [hfm] at hEQc
          have hI4 : ScopedND qc cache4 :=
            fileStepMtime_scopedND cfg qc n mt cache3 ctr3 cache4 ctr4 hI3 hgn hfm
          have hEQd : updateChildren cfg force (mkAbs qc) qc (.cons n (.file d mt) rest) cache ctr
              = (match updateChildren cfg force (mkAbs qc) qc rest cache4 ctr4 with
                 | ⟨rest2, tr2, r⟩ => ⟨.cons n (.file d mt) rest2, tr2, r⟩) := hEQc
          cases hur : updateChildren cfg force (mkAbs qc) qc rest cache4 ctr4 with
          | mk rest2 tr2 r2 =>
            rw [hur] at hEQd
            have hEQ2 : updateChildren cfg force (mkAbs qc) qc (.cons n (.file d mt) rest) cache ctr
                = ⟨.cons n (.file d mt) rest2, tr2, r2⟩ := hEQd
            rw [hEQ2] at hres
            have hres2 : r2 = .ok (cache2, ctr2) := hres
            exact ihL cfg force qc cache4 ctr4 cache2 ctr2 hqc hrestnames hRW hPr hI4
              (by rw [hur]; exact hres2)

theorem uNodeScoped_all : ∀ node, UNodeScoped node :=
  FS.recN UNodeScoped UListScoped uNodeScoped_file uNodeScoped_dir
    uListScoped_nil uListScoped_cons

end C2Scoped

section C2Frame

theorem contains_of_mem (l : List Name) (n : Name) (h : n ∈ l) :
    l.contains n = true :=
  List.elem_eq_true_of_mem h

theorem prefix_cons_cases (p : List Name) (m : Name) (q : List Name)
    (h : p <+: m :: q) : p = [] ∨ ∃ p2, p = m :: p2 ∧ p2 <+: q := by
  obtain ⟨t, ht⟩ := h
  cases p with
  | nil => left; rfl
  | cons a p2 =>
    right
    injection ht with h1 h2
    exact ⟨p2, by rw [h1], ⟨t, h2⟩⟩

theorem fileStepContent_lookup (cfg : Cfg) (n : Name) (fp : PathStr) (d : FData)
    (cache : Cache) (ctr : Counters) (cache3 : Cache) (ctr3 : Counters) (k : PathStr)
    (hk : k ≠ fp)
    (h : fileStepContent cfg n fp d cache ctr = .ok (cache3, ctr3)) :
    cache3.data.lookup k = cache.data.lookup k ∧
    cache3.mtime.lookup k = cache.mtime.lookup k := by
  unfold fileStepContent at h
  split at h
  · cases d with
    | text s =>
      have h2 : (Except.ok ({ cache with data := dictInsert cache.data fp s },
          { ctr with files_read := ctr.files_read + 1 })
          : Except UErr (Cache × Counters)) = .ok (cache3, ctr3) := h
      injection h2 with h3
      injection h3 with h4 h5
      subst h4
      exact ⟨lookup_dictInsert_ne _ _ _ _ hk, rfl⟩
    | pickle c =>
      exact Except.noConfusion
        (show (Except.error UErr.decodeText : Except UErr (Cache × Counters))
          = .ok (cache3, ctr3) from h)
  · have h2 : (Except.ok (cache, ctr) : Except UErr (Cache × Counters))
        = .ok (cache3, ctr3) := h
    injection h2 with h3
    injection h3 with h4 h5
    subst h4
    exact ⟨rfl, rfl⟩

theorem fileStepMtime_lookup (cfg : Cfg) (n : Name) (fp : PathStr) (mt : Int)
    (cache : Cache) (ctr : Counters) (cache4 : Cache) (ctr4 : Counters) (k : PathStr)
    (hk : k ≠ fp)
    (h : fileStepMtime cfg n fp mt cache ctr = (cache4, ctr4)) :
    cache4.data.lookup k = cache.data.lookup k ∧
    cache4.mtime.lookup k = cache.mtime.lookup k := by
  unfold fileStepMtime at h
  split at h
  · have h2 : ({ cache with mtime := dictInsert cache.mtime fp mt },
        { ctr with files_stat := ctr.files_stat + 1 }) = (cache4, ctr4) := h
    injection h2 with h3 h4
    subst h3
    exact ⟨rfl, lookup_dictInsert_ne _ _ _ _ hk⟩
  · injection h with h3 h4
    subst h3
    exact ⟨rfl, rfl⟩

theorem fileStepContent_self (cfg : Cfg) (n : Name) (fp : PathStr) (s : String)
    (cache : Cache) (ctr : Counters) (cache3 : Cache) (ctr3 : Counters)
    (h : fileStepContent cfg n fp (.text s) cache ctr = .ok (cache3, ctr3)) :
    (n ∈ cfg.contentNames → cache3.data.lookup fp = some s) ∧
    cache3.mtime = cache.mtime := by
  unfold fileStepContent at h
  split at h
  · have h2 : (Except.ok ({ cache with data := dictInsert cache.data fp s },
        { ctr with files_read := ctr.files_read + 1 })
        : Except UErr (Cache × Counters)) = .ok (cache3, ctr3) := h
    injection h2 with h3
    injection h3 with h4 h5
    subst h4
    exact ⟨fun _ => lookup_dictInsert_self _ _ _, rfl⟩
  · rename_i hc
    have h2 : (Except.ok (cache, ctr) : Except UErr (Cache × Counters))
        = .ok (cache3, ctr3) := h
    injection h2 with h3
    injection h3 with h4 h5
    subst h4
    exact ⟨fun hmem => absurd (contains_of_mem _ _ hmem) hc, rfl⟩

theorem fileStepMtime_self (cfg : Cfg) (n : Name) (fp : PathStr) (mt : Int)
    (cache : Cache) (ctr : Counters) (cache4 : Cache) (ctr4 : Counters)
    (h : fileStepMtime cfg n fp mt cache ctr = (cache4, ctr4)) :
    (n ∈ cfg.mtimeNames → cache4.mtime.lookup fp = some mt) ∧
    cache4.data = cache.data := by
  unfold fileStepMtime at h
  split at h
  · have h2 : ({ cache with mtime := dictInsert cache.mtime fp mt },
        { ctr with files_stat := ctr.files_stat + 1 }) = (cache4, ctr4) := h
    injection h2 with h3 h4
    subst h3
    exact ⟨fun _ => lookup_dictInsert_self _ _ _, rfl⟩
  · rename_i hc
    injection h with h3 h4
    subst h3
    exact ⟨fun hmem => absurd (contains_of_mem _ _ hmem) hc, rfl⟩

theorem updateChildren_frame (cfg : Cfg) (force : Bool) (qc : List Name) (cs : FSList) :
    ∀ (cache : Cache) (ctr : Counters) (cs2 : FSList) (tr : List Ev)
      (cache2 : Cache) (ctr2 : Counters) (k : PathStr),
      goodNames qc →
      (∀ n ∈ cs.names, goodName n) →
      ListWF cs →
      ListCachesP ScopedND qc cs →
      (∀ n, n ∈ cs.names → ∀ m, goodNames (n :: m) → k ≠ mkAbs (qc ++ n :: m)) →
      updateChildren cfg force (mkAbs qc) qc cs cache ctr
        = ⟨cs2, tr, .ok (cache2, ctr2)⟩ →
      cache2.data.lookup k = cache.data.lookup k ∧
      cache2.mtime.lookup k = cache.mtime.lookup k := by
  induction cs using FSList.indL with
  | h0 =>
    intro cache ctr cs2 tr cache2 ctr2 k hqc hnames hLWF hcaches hdisj hres
    have h2 : (⟨.nil, [], .ok (cache, ctr)⟩ : UCRes) = ⟨cs2, tr, .ok (cache2, ctr2)⟩ := hres
    injection h2 with h3 h4 h5
    injection h5 with h6
    injection h6 with h7 h8
    subst h7
    exact ⟨rfl, rfl⟩
  | h1 n child rest ih =>
    intro cache ctr cs2 tr cache2 ctr2 k hqc hnames hLWF hcaches hdisj hres
    obtain ⟨hNW, hRW⟩ := hLWF
    obtain ⟨hPc, hPr⟩ := hcaches
    have hrestnames : ∀ m ∈ rest.names, goodName m :=
      fun m hm => hnames m (List.mem_cons_of_mem _ hm)
    have hrestdisj : ∀ n2, n2 ∈ rest.names → ∀ m, goodNames (n2 :: m) →
        k ≠ mkAbs (qc ++ n2 :: m) :=
      fun n2 hn2 m hg => hdisj n2 (List.mem_cons_of_mem _ hn2) m hg
    by_cases hm : hiddenName n = true
    · have hEQ := updateChildren_cons_hidden cfg force (mkAbs qc) qc n child rest cache ctr hm
      cases hu : updateChildren cfg force (mkAbs qc) qc rest cache ctr with
      | mk rest2 tr0 r =>
        rw [hu] at hEQ
        have hEQ2 : updateChildren cfg force (mkAbs qc) qc (.cons n child rest) cache ctr
            = ⟨.cons n child rest2, tr0, r⟩ := hEQ
        rw [hEQ2] at hres
        injection hres with h1 h2 h3
        exact ih cache ctr rest2 tr0 cache2 ctr2 k hqc hrestnames hRW hPr hrestdisj
          (by rw [hu, h3])
    · have hm2 : hiddenName n = false := by simpa using hm
      have hgn : goodName n := hnames n (List.mem_cons_self _ _)
      have hqc2 : goodNames (qc ++ [n]) :=
        goodNames_append qc [n] hqc (goodNames_singleton n hgn)
      have hpj : pjoin (mkAbs qc) n = mkAbs (qc ++ [n]) :=
        pjoin_mkAbs qc n hqc hgn.1 hgn.2.1
      have hkfp : k ≠ mkAbs (qc ++ [n]) :=
        hdisj n (List.mem_cons_self _ _) [] (goodNames_singleton n hgn)
      cases child with
      | dir ccs =>
        have hEQ := updateChildren_cons_dir cfg force (mkAbs qc) qc n ccs rest cache ctr hm2
        rw [hpj] at hEQ
        cases hun : updateNode cfg force (mkAbs (qc ++ [n])) (qc ++ [n]) (.dir ccs) ctr with
        | mk child2 trc rc =>
          rw [hun] at hEQ
          cases rc with
          | error e =>
            have hEQ2 : updateChildren cfg force (mkAbs qc) qc (.cons n (.dir ccs) rest) cache ctr
                = ⟨.cons n child2 rest, trc, .error e⟩ := hEQ
            rw [hEQ2] at hres
            injection hres with h1 h2 h3
            exact Except.noConfusion h3
          | ok pr =>
            obtain ⟨sub, ctrS⟩ := pr
            have hSub : ScopedND (qc ++ [n]) sub :=
              uNodeScoped_all (.dir ccs) cfg force (qc ++ [n]) ctr sub ctrS hqc2 hNW
                (hPc hm2) (by rw [hun])
            have hknd : k ∉ sub.data.map Prod.fst := by
              intro hmem
              obtain ⟨m0, hm0, hm0g, hm0e⟩ := hSub.1 k (Or.inr (Or.inl hmem))
              refine hdisj n (List.mem_cons_self _ _) m0 ?_ ?_
              · intro x hx
                rcases List.mem_cons.1 hx with h1 | h2
                · exact h1 ▸ hgn
                · exact hm0g x h2
              · rw [hm0e, List.append_assoc]
                rfl
            have hknm : k ∉ sub.mtime.map Prod.fst := by
              intro hmem
              obtain ⟨m0, hm0, hm0g, hm0e⟩ := hSub.1 k (Or.inr (Or.inr hmem))
              refine hdisj n (List.mem_cons_self _ _) m0 ?_ ?_
              · intro x hx
                rcases List.mem_cons.1 hx with h1 | h2
                · exact h1 ▸ hgn
                · exact hm0g x h2
              · rw [hm0e, List.append_assoc]
                rfl
            have hEQc : updateChildren cfg force (mkAbs qc) qc (.cons n (.dir ccs) rest) cache ctr
                = (match updateChildren cfg force (mkAbs qc) qc rest
                      (Cache.addSubCache { cache with
                        files := setAdd cache.files (mkAbs (qc ++ [n])) } sub) ctrS with
                   | ⟨rest2, tr2, r⟩ => ⟨.cons n child2 rest2, trc ++ tr2, r⟩) := hEQ
            cases hur : updateChildren cfg force (mkAbs qc) qc rest
                (Cache.addSubCache { cache with
                  files := setAdd cache.files (mkAbs (qc ++ [n])) } sub) ctrS with
            | mk rest2 tr2 r2 =>
              rw [hur] at hEQc
              have hEQ2 : updateChildren cfg force (mkAbs qc) qc (.cons n (.dir ccs) rest) cache ctr
                  = ⟨.cons n child2 rest2, trc ++ tr2, r2⟩ := hEQc
              rw [hEQ2] at hres
              injection hres with h1 h2 h3
              have hrec := ih (Cache.addSubCache { cache with
                  files := setAdd cache.files (mkAbs (qc ++ [n])) } sub) ctrS
                rest2 tr2 cache2 ctr2 k hqc hrestnames hRW hPr hrestdisj
                (by rw [hur, h3])
              have hmid1 : (Cache.addSubCache { cache with
                  files := setAdd cache.files (mkAbs (qc ++ [n])) } sub).data.lookup k
                  = cache.data.lookup k :=
                lookup_dictUpdate_not_mem _ _ k hknd
              have hmid2 : (Cache.addSubCache { cache with
                  files := setAdd cache.files (mkAbs (qc ++ [n])) } sub).mtime.lookup k
                  = cache.mtime.lookup k :=
                lookup_dictUpdate_not_mem _ _ k hknm
              exact ⟨hrec.1.trans hmid1, hrec.2.trans hmid2⟩
      | file d mt =>
        have hEQ := updateChildren_cons_file cfg force (mkAbs qc) qc n d mt rest cache ctr hm2
        rw [hpj] at hEQ
        cases hfc : fileStepContent cfg n (mkAbs (qc ++ [n])) d
            { cache with files := setAdd cache.files (mkAbs (qc ++ [n])) } ctr with
        | error e =>
          rw [hfc] at hEQ
          have hEQ2 : updateChildren cfg force (mkAbs qc) qc (.cons n (.file d mt) rest) cache ctr
              = ⟨.cons n (.file d mt) rest, [], .error e⟩ := hEQ
          rw [hEQ2] at hres
          injection hres with h1 h2 h3
          exact Except.noConfusion h3
        | ok pr =>
          obtain ⟨cache3, ctr3⟩ := pr
          rw [hfc] at hEQ
          have hf1 := fileStepContent_lookup cfg n (mkAbs (qc ++ [n])) d
            { cache with files := setAdd cache.files (mkAbs (qc ++ [n])) } ctr
            cache3 ctr3 k hkfp hfc
          have hEQc : updateChildren cfg force (mkAbs qc) qc (.cons n (.file d mt) rest) cache ctr
              = (match fileStepMtime cfg n (mkAbs (qc ++ [n])) mt cache3 ctr3 with
                 | (cache4, ctr4) =>
                   (match updateChildren cfg force (mkAbs qc) qc rest cache4 ctr4 with
                    | ⟨rest2, tr2, r⟩ => ⟨.cons n (.file d mt) rest2, tr2, r⟩)) := hEQ
          cases hfm : fileStepMtime cfg n (mkAbs (qc ++ [n])) mt cache3 ctr3 with
          | mk cache4 ctr4 =>
            rw [hfm] at hEQc
            have hf2 := fileStepMtime_lookup cfg n (mkAbs (qc ++ [n])) mt cache3 ctr3
              cache4 ctr4 k hkfp hfm
            have hEQd : updateChildren cfg force (mkAbs qc) qc (.cons n (.file d mt) rest) cache ctr
                = (match updateChildren cfg force (mkAbs qc) qc rest cache4 ctr4 with
                   | ⟨rest2, tr2, r⟩ => ⟨.cons n (.file d mt) rest2, tr2, r⟩) := hEQc
            cases hur : updateChildren cfg force (mkAbs qc) qc rest cache4 ctr4 with
            | mk rest2 tr2 r2 =>
              rw [hur] at hEQd
              have hEQ2 : updateChildren cfg force (mkAbs qc) qc (.cons n (.file d mt) rest) cache ctr
                  = ⟨.cons n (.file d mt) rest2, tr2, r2⟩ := hEQd
              rw [hEQ2] at hres
              injection hres with h1 h2 h3
              have hrec := ih cache4 ctr4 rest2 tr2 cache2 ctr2 k hqc hrestnames hRW hPr
                hrestdisj (by rw [hur, h3])
              exact ⟨hrec.1.trans (hf2.1.trans hf1.1),
                hrec.2.trans (hf2.2.trans hf1.2)⟩

end C2Frame

section C2Main

theorem head_mem_of_cons_pfx (m : Name) (p2 q : List Name)
    (h : m :: p2 <+: q) : m ∈ q := by
  obtain ⟨t, ht⟩ := h
  rw [← ht]
  simp

theorem uNodeUpd_file : ∀ (d : FData) (mt : Int), UNodeUpd (.file d mt) := by
  intro d mt cfg force qc ctr node2 tr cache ctr2 hqc hWF hcaches hEQfull q hqvis hmarked
  rw [updateNode_file_eq] at hEQfull
  injection hEQfull with h1 h2 h3
  exact Except.noConfusion h3

theorem uListUpd_nil : UListUpd .nil := by
  intro cfg force qc cache ctr cs2 tr cache2 ctr2 hqc hnames hnd hLWF hcaches hres
    q hqvis hmarked
  have h2 : (⟨.nil, [], .ok (cache, ctr)⟩ : UCRes) = ⟨cs2, tr, .ok (cache2, ctr2)⟩ := hres
  injection h2 with h3 h4 h5
  subst h3
  constructor
  · intro p hp hpne
    exfalso
    have hmm := hmarked p hp hpne
    cases p with
    | nil => exact hpne rfl
    | cons m p2 =>
      rw [hasDirtyAt_dir_cons_q] at hmm
      rw [show FSList.nil.find? m = none from rfl] at hmm
      exact Bool.noConfusion hmm
  · intro fname s mt hgf hvf hget
    exfalso
    cases hqq : q ++ [fname] with
    | nil => exact absurd hqq (by simp)
    | cons a rest =>
      rw [hqq] at hget
      rw [show getNode (.dir .nil) (a :: rest) = none from rfl] at hget
      exact Option.noConfusion hget

theorem uNodeUpd_dir : ∀ cs, UListUpd cs → UNodeUpd (.dir cs) := by
  intro cs ihL cfg force qc ctr node2 tr cache ctr2 hqc hWF hcaches hEQfull q hqvis hmarked
  obtain ⟨hnd, hgood, hLWF⟩ := hWF
  obtain ⟨hP, hL⟩ := hcaches
  have hdroot : hasDirtyAt (.dir cs) [] = true := hmarked [] List.nil_prefix
  have hfp2 : takesFastPath force (.dir cs) = false := dirty_no_fastPath force _ hdroot
  have hEQ := updateNode_rebuild_eq cfg force (mkAbs qc) qc cs ctr hfp2
  cases hu : updateChildren cfg force (mkAbs qc) qc cs emptyCache ctr with
  | mk cs2 tr0 r =>
    rw [hu] at hEQ
    have hnames2 : cs2.names = cs.names := by
      have hx := updateChildren_names cfg force (mkAbs qc) qc cs emptyCache ctr
      rw [hu] at hx
      exact hx
    have hfD : cs2.find? dirtyName = cs.find? dirtyName := by
      have hx := updateChildren_find?_hidden cfg force (mkAbs qc) qc cs emptyCache ctr
        dirtyName (by decide)
      rw [hu] at hx
      exact hx
    cases r with
    | error e =>
      have hEQ2 : updateNode cfg force (mkAbs qc) qc (.dir cs) ctr
          = ⟨.dir cs2, tr0, .error e⟩ := hEQ
      rw [hEQ2] at hEQfull
      injection hEQfull with h1 h2 h3
      exact Except.noConfusion h3
    | ok pr =>
      obtain ⟨cacheU, ctrU⟩ := pr
      have hIH := ihL cfg force qc emptyCache ctr cs2 tr0 cacheU ctrU hqc hgood hnd hLWF hL
        (by rw [hu]) q hqvis (fun p hp _ => hmarked p hp)
      obtain ⟨hArm, hBval⟩ := hIH
      have hdsome : (cs.find? dirtyName).isSome = true := by
        rw [hasDirtyAt_nil_eq] at hdroot
        exact hdroot
      have hnd3 : ((cs2.setEntry cacheName (.file (.pickle cacheU) 0)).names).Nodup :=
        nodup_names_setEntry cs2 cacheName _ (by rw [hnames2]; exact hnd)
      have hEQb : updateNode cfg force (mkAbs qc) qc (.dir cs) ctr
          = (match cs2.find? cacheName with
             | some (.dir _) => (⟨.dir cs2, tr0, .error .openDir⟩ : URes)
             | _ =>
               (match (cs2.setEntry cacheName
                   (.file (.pickle cacheU) 0)).find? dirtyName with
                | some (.dir _) =>
                  ⟨.dir (cs2.setEntry cacheName (.file (.pickle cacheU) 0)),
                    tr0 ++ [.syncEv qc], .error .removeDir⟩
                | some (.file _ _) =>
                  ⟨.dir ((cs2.setEntry cacheName
                      (.file (.pickle cacheU) 0)).erase dirtyName),
                    tr0 ++ [.syncEv qc, .rmDirtyEv qc],
                    .ok (cacheU, { ctrU with
                      directories_processed := ctrU.directories_processed + 1 })⟩
                | none =>
                  ⟨.dir (cs2.setEntry cacheName (.file (.pickle cacheU) 0)),
                    tr0 ++ [.syncEv qc],
                    .ok (cacheU, { ctrU with
                      directories_processed := ctrU.directories_processed + 1 })⟩)) := hEQ
      have hfD3 : (cs2.setEntry cacheName (.file (.pickle cacheU) 0)).find? dirtyName
          = cs.find? dirtyName := by
        rw [FSList.find?_setEntry_ne cs2 cacheName dirtyName _ (by decide), hfD]
      have hfinish : (updateNode cfg force (mkAbs qc) qc (.dir cs) ctr
          = (match (cs2.setEntry cacheName
                (.file (.pickle cacheU) 0)).find? dirtyName with
             | some (.dir _) =>
               (⟨.dir (cs2.setEntry cacheName (.file (.pickle cacheU) 0)),
                 tr0 ++ [.syncEv qc], .error .removeDir⟩ : URes)
             | some (.file _ _) =>
               ⟨.dir ((cs2.setEntry cacheName
                   (.file (.pickle cacheU) 0)).erase dirtyName),
                 tr0 ++ [.syncEv qc, .rmDirtyEv qc],
                 .ok (cacheU, { ctrU with
                   directories_processed := ctrU.directories_processed + 1 })⟩
             | none =>
               ⟨.dir (cs2.setEntry cacheName (.file (.pickle cacheU) 0)),
                 tr0 ++ [.syncEv qc],
                 .ok (cacheU, { ctrU with
                   directories_processed := ctrU.directories_processed + 1 })⟩)) →
          (∀ p, p <+: q → hasDirtyAt node2 p = false) ∧
          (∀ fname s mt, goodName fname → hiddenName fname = false →
            getNode (.dir cs) (q ++ [fname]) = some (.file (.text s) mt) →
            (fname ∈ cfg.contentNames →
              cache.data.lookup (mkAbs (qc ++ q ++ [fname])) = some s) ∧
            (fname ∈ cfg.mtimeNames →
              cache.mtime.lookup (mkAbs (qc ++ q ++ [fname])) = some mt)) := by
        intro hEQc
        cases hdm : cs.find? dirtyName with
        | none =>
          rw [hdm] at hdsome
          exact Bool.noConfusion hdsome
        | some marker =>
          rw [hdm] at hfD3
          rw [hfD3] at hEQc
          cases marker with
          | dir mcs =>
            have hEQ2 : updateNode cfg force (mkAbs qc) qc (.dir cs) ctr
                = ⟨.dir (cs2.setEntry cacheName (.file (.pickle cacheU) 0)),
                    tr0 ++ [.syncEv qc], .error .removeDir⟩ := hEQc
            rw [hEQ2] at hEQfull
            injection hEQfull with h1 h2 h3
            exact Except.noConfusion h3
          | file dm mtm =>
            have hEQ2 : updateNode cfg force (mkAbs qc) qc (.dir cs) ctr
                = ⟨.dir ((cs2.setEntry cacheName
                    (.file (.pickle cacheU) 0)).erase dirtyName),
                    tr0 ++ [.syncEv qc, .rmDirtyEv qc],
                    .ok (cacheU, { ctrU with
                      directories_processed := ctrU.directories_processed + 1 })⟩ := hEQc
            rw [hEQ2] at hEQfull
            injection hEQfull with h1 h2 h3
            injection h3 with h4
            injection h4 with h5 h6
            constructor
            · intro p hp
              rw [← h1]
              cases p with
              | nil =>
                rw [hasDirtyAt_nil_eq, FSList.find?_erase_self _ dirtyName hnd3]
                rfl
              | cons m p2 =>
                have hmq : m ∈ q := head_mem_of_cons_pfx m p2 q hp
                have hmgood := hqvis m hmq
                rw [hasDirtyAt_dir_cons_q,
                  FSList.find?_erase_ne _ dirtyName m (visible_ne_dirty m hmgood.2),
                  FSList.find?_setEntry_ne cs2 cacheName m _ (visible_ne_cache m hmgood.2)]
                have hx := hArm (m :: p2) hp (by simp)
                rw [hasDirtyAt_dir_cons_q] at hx
                exact hx
            · intro fname s mt hgf hvf hget
              rw [← h5]
              exact hBval fname s mt hgf hvf hget
      cases hc2 : cs2.find? cacheName with
      | some t =>
        cases t with
        | dir ccs =>
          rw [hc2] at hEQb
          have hEQ2 : updateNode cfg force (mkAbs qc) qc (.dir cs) ctr
              = ⟨.dir cs2, tr0, .error .openDir⟩ := hEQb
          rw [hEQ2] at hEQfull
          injection hEQfull with h1 h2 h3
          exact Except.noConfusion h3
        | file d0 mt0 =>
          rw [hc2] at hEQb
          exact hfinish hEQb
      | none =>
        rw [hc2] at hEQb
        exact hfinish hEQb

theorem uListUpd_cons : ∀ (n : Name) (child : FSNode) (rest : FSList),
    UNodeUpd child → UListUpd rest → UListUpd (.cons n child rest) := by
  intro n child rest ihN ihL cfg force qc cache ctr cs2 tr cache2 ctr2
    hqc hnames hnd hLWF hcaches hres q hqvis hmarked
  obtain ⟨hNW, hRW⟩ := hLWF
  obtain ⟨hPc, hPr⟩ := hcaches
  have hgn : goodName n := hnames n (List.mem_cons_self _ _)
  have hrestnames : ∀ m ∈ rest.names, goodName m :=
    fun m hm => hnames m (List.mem_cons_of_mem _ hm)
  have hndc : (n :: rest.names).Nodup := hnd
  have hndrest : rest.names.Nodup := (List.nodup_cons.1 hndc).2
  have hnnotin : n ∉ rest.names := (List.nodup_cons.1 hndc).1
  by_cases hmh : hiddenName n = true
  · -- hidden entry: left untouched, everything comes from the tail
    have hEQ := updateChildren_cons_hidden cfg force (mkAbs qc) qc n child rest cache ctr hmh
    cases hu : updateChildren cfg force (mkAbs qc) qc rest cache ctr with
    | mk rest2 tr0 r =>
      rw [hu] at hEQ
      have hEQ2 : updateChildren cfg force (mkAbs qc) qc (.cons n child rest) cache ctr
          = ⟨.cons n child rest2, tr0, r⟩ := hEQ
      rw [hEQ2] at hres
      injection hres with h1 h2 h3
      subst h1
      have hneq : ∀ m : Name, hiddenName m = false → n ≠ m := by
        intro m hmv he
        rw [he, hmv] at hmh
        exact Bool.noConfusion hmh
      have hmarkedR : ∀ p, p <+: q → p ≠ [] → hasDirtyAt (.dir rest) p = true := by
        intro p hp hpne
        have hmm := hmarked p hp hpne
        cases p with
        | nil => exact absurd rfl hpne
        | cons m p2 =>
          have hmn : n ≠ m := hneq m (hqvis m (head_mem_of_cons_pfx m p2 q hp)).2
          rw [hasDirtyAt_dir_cons_q, FSList.find?_cons, if_neg hmn] at hmm
          rw [hasDirtyAt_dir_cons_q]
          exact hmm
      have hrec := ihL cfg force qc cache ctr rest2 tr0 cache2 ctr2 hqc hrestnames
        hndrest hRW hPr (by rw [hu, h3]) q hqvis hmarkedR
      obtain ⟨hA, hB⟩ := hrec
      constructor
      · intro p hp hpne
        cases p with
        | nil => exact absurd rfl hpne
        | cons m p2 =>
          have hmn : n ≠ m := hneq m (hqvis m (head_mem_of_cons_pfx m p2 q hp)).2
          rw [hasDirtyAt_dir_cons_q, FSList.find?_cons, if_neg hmn]
          have hx := hA (m :: p2) hp hpne
          rw [hasDirtyAt_dir_cons_q] at hx
          exact hx
      · intro fname s mt hgf hvf hget
        have hfn : n ≠ fname := hneq fname hvf
        refine hB fname s mt hgf hvf ?_
        cases q with
        | nil =>
          have hg2 : (match (FSList.cons n child rest).find? fname with
              | some c => getNode c [] | none => none) = some (.file (.text s) mt) := hget
          rw [FSList.find?_cons, if_neg hfn] at hg2
          exact hg2
        | cons m q2 =>
          have hmn : n ≠ m := hneq m (hqvis m (List.mem_cons_self _ _)).2
          have hg2 : (match (FSList.cons n child rest).find? m with
              | some c => getNode c (q2 ++ [fname]) | none => none)
              = some (.file (.text s) mt) := hget
          rw [FSList.find?_cons, if_neg hmn] at hg2
          exact hg2
  · have hmv : hiddenName n = false := by simpa using hmh
    have hqc2 : goodNames (qc ++ [n]) :=
      goodNames_append qc [n] hqc (goodNames_singleton n hgn)
    have hpj : pjoin (mkAbs qc) n = mkAbs (qc ++ [n]) :=
      pjoin_mkAbs qc n hqc hgn.1 hgn.2.1
    cases child with
    | file d mt0 =>
      have hEQ := updateChildren_cons_file cfg force (mkAbs qc) qc n d mt0 rest cache ctr hmv
      rw [hpj] at hEQ
      cases hfc : fileStepContent cfg n (mkAbs (qc ++ [n])) d
          { cache with files := setAdd cache.files (mkAbs (qc ++ [n])) } ctr with
      | error e =>
        rw [hfc] at hEQ
        have hEQ2 : updateChildren cfg force (mkAbs qc) qc (.cons n (.file d mt0) rest) cache ctr
            = ⟨.cons n (.file d mt0) rest, [], .error e⟩ := hEQ
        rw [hEQ2] at hres
        injection hres with h1 h2 h3
        exact Except.noConfusion h3
      | ok pr =>
        obtain ⟨cache3, ctr3⟩ := pr
        rw [hfc] at hEQ
        have hEQc : updateChildren cfg force (mkAbs qc) qc (.cons n (.file d mt0) rest) cache ctr
            = (match fileStepMtime cfg n (mkAbs (qc ++ [n])) mt0 cache3 ctr3 with
               | (cache4, ctr4) =>
                 (match updateChildren cfg force (mkAbs qc) qc rest cache4 ctr4 with
                  | ⟨rest2, tr2, r⟩ => ⟨.cons n (.file d mt0) rest2, tr2, r⟩)) := hEQ
        cases hfm : fileStepMtime cfg n (mkAbs (qc ++ [n])) mt0 cache3 ctr3 with
        | mk cache4 ctr4 =>
          rw [hfm] at hEQc
          have hEQd : updateChildren cfg force (mkAbs qc) qc (.cons n (.file d mt0) rest) cache ctr
              = (match updateChildren cfg force (mkAbs qc) qc rest cache4 ctr4 with
                 | ⟨rest2, tr2, r⟩ => ⟨.cons n (.file d mt0) rest2, tr2, r⟩) := hEQc
          cases hur : updateChildren cfg force (mkAbs qc) qc rest cache4 ctr4 with
          | mk rest2 tr2 r2 =>
            rw [hur] at hEQd
            have hEQ2 : updateChildren cfg force (mkAbs qc) qc (.cons n (.file d mt0) rest) cache ctr
                = ⟨.cons n (.file d mt0) rest2, tr2, r2⟩ := hEQd
            rw [hEQ2] at hres
            injection hres with h1 h2 h3
            subst h1
            have hmarkedR : ∀ p, p <+: q → p ≠ [] → hasDirtyAt (.dir rest) p = true := by
              intro p hp hpne
              have hmm := hmarked p hp hpne
              cases p with
              | nil => exact absurd rfl hpne
              | cons m p2 =>
                by_cases hmn : n = m
                · exfalso
                  subst hmn
                  rw [hasDirtyAt_dir_cons_q, FSList.find?_cons, if_pos rfl] at hmm
                  have hmm2 : hasDirtyAt (.file d mt0) p2 = true := hmm
                  rw [hasDirtyAt_file] at hmm2
                  exact Bool.noConfusion hmm2
                · rw [hasDirtyAt_dir_cons_q, FSList.find?_cons, if_neg hmn] at hmm
                  rw [hasDirtyAt_dir_cons_q]
                  exact hmm
            have hrec := ihL cfg force qc cache4 ctr4 rest2 tr2 cache2 ctr2 hqc hrestnames
              hndrest hRW hPr (by rw [hur, h3]) q hqvis hmarkedR
            obtain ⟨hA, hB⟩ := hrec
            constructor
            · intro p hp hpne
              cases p with
              | nil => exact absurd rfl hpne
              | cons m p2 =>
                by_cases hmn : n = m
                · subst hmn
                  rw [hasDirtyAt_dir_cons_q, FSList.find?_cons, if_pos rfl]
                  exact hasDirtyAt_file d mt0 p2
                · rw [hasDirtyAt_dir_cons_q, FSList.find?_cons, if_neg hmn]
                  have hx := hA (m :: p2) hp hpne
                  rw [hasDirtyAt_dir_cons_q] at hx
                  exact hx
            · intro fname s mt hgf hvf hget
              cases q with
              | nil =>
                by_cases hfn : n = fname
                · -- the file itself: its fresh content/mtime land in the store
                  subst hfn
                  have hg2 : (match (FSList.cons n (FSNode.file d mt0) rest).find? n with
                      | some c => getNode c [] | none => none)
                      = some (.file (.text s) mt) := hget
                  rw [FSList.find?_cons, if_pos rfl] at hg2
                  have hg3 : some (FSNode.file d mt0) = some (.file (.text s) mt) := hg2
                  injection hg3 with hg4
                  injection hg4 with hg5 hg6
                  subst hg5
                  subst hg6
                  have hs1 := fileStepContent_self cfg n (mkAbs (qc ++ [n])) s
                    { cache with files := setAdd cache.files (mkAbs (qc ++ [n])) } ctr
                    cache3 ctr3 hfc
                  have hs2 := fileStepMtime_self cfg n (mkAbs (qc ++ [n])) mt0 cache3 ctr3
                    cache4 ctr4 hfm
                  have hdisjK : ∀ n2, n2 ∈ rest.names → ∀ m2, goodNames (n2 :: m2) →
                      mkAbs (qc ++ [n]) ≠ mkAbs (qc ++ n2 :: m2) := by
                    intro n2 hn2 m2 hg2b heq
                    have hinj := mkAbs_inj (qc ++ [n]) (qc ++ n2 :: m2)
                      (goodNames_append qc [n] hqc (goodNames_singleton n hgn))
                      (goodNames_append qc (n2 :: m2) hqc hg2b) heq
                    have h7 := List.append_cancel_left hinj
                    injection h7 with h8 h9
                    exact hnnotin (h8 ▸ hn2)
                  have hframe := updateChildren_frame cfg force qc rest cache4 ctr4
                    rest2 tr2 cache2 ctr2 (mkAbs (qc ++ [n])) hqc hrestnames hRW hPr
                    hdisjK (by rw [hur, h3])
                  constructor
                  · intro hmem
                    rw [List.append_nil, hframe.1, hs2.2]
                    exact hs1.1 hmem
                  · intro hmem
                    rw [List.append_nil, hframe.2]
                    exact hs2.1 hmem
                · refine hB fname s mt hgf hvf ?_
                  have hg2 : (match (FSList.cons n (FSNode.file d mt0) rest).find? fname with
                      | some c => getNode c [] | none => none)
                      = some (.file (.text s) mt) := hget
                  rw [FSList.find?_cons, if_neg hfn] at hg2
                  exact hg2
              | cons m q2 =>
                by_cases hmn : n = m
                · exfalso
                  subst hmn
                  have hmm := hmarked [n] ⟨q2, rfl⟩ (by simp)
                  rw [hasDirtyAt_dir_cons_q, FSList.find?_cons, if_pos rfl] at hmm
                  have hmm2 : hasDirtyAt (.file d mt0) [] = true := hmm
                  rw [hasDirtyAt_file] at hmm2
                  exact Bool.noConfusion hmm2
                · refine hB fname s mt hgf hvf ?_
                  have hg2 : (match (FSList.cons n (FSNode.file d mt0) rest).find? m with
                      | some c => getNode c (q2 ++ [fname]) | none => none)
                      = some (.file (.text s) mt) := hget
                  rw [FSList.find?_cons, if_neg hmn] at hg2
                  exact hg2
    | dir ccs =>
      have hEQ := updateChildren_cons_dir cfg force (mkAbs qc) qc n ccs rest cache ctr hmv
      rw [hpj] at hEQ
      cases hun : updateNode cfg force (mkAbs (qc ++ [n])) (qc ++ [n]) (.dir ccs) ctr with
      | mk child2 trc rc =>
        rw [hun] at hEQ
        cases rc with
        | error e =>
          have hEQ2 : updateChildren cfg force (mkAbs qc) qc (.cons n (.dir ccs) rest) cache ctr
              = ⟨.cons n child2 rest, trc, .error e⟩ := hEQ
          rw [hEQ2] at hres
          injection hres with h1 h2 h3
          exact Except.noConfusion h3
        | ok pr =>
          obtain ⟨sub, ctrS⟩ := pr
          have hEQc : updateChildren cfg force (mkAbs qc) qc (.cons n (.dir ccs) rest) cache ctr
              = (match updateChildren cfg force (mkAbs qc) qc rest
                    (Cache.addSubCache { cache with
                      files := setAdd cache.files (mkAbs (qc ++ [n])) } sub) ctrS with
                 | ⟨rest2, tr2, r⟩ => ⟨.cons n child2 rest2, trc ++ tr2, r⟩) := hEQ
          cases hur : updateChildren cfg force (mkAbs qc) qc rest
              (Cache.addSubCache { cache with
                files := setAdd cache.files (mkAbs (qc ++ [n])) } sub) ctrS with
          | mk rest2 tr2 r2 =>
            rw [hur] at hEQc
            have hEQ2 : updateChildren cfg force (mkAbs qc) qc (.cons n (.dir ccs) rest) cache ctr
                = ⟨.cons n child2 rest2, trc ++ tr2, r2⟩ := hEQc
            rw [hEQ2] at hres
            injection hres with h1 h2 h3
            subst h1
            have hSub : ScopedND (qc ++ [n]) sub :=
              uNodeScoped_all (.dir ccs) cfg force (qc ++ [n]) ctr sub ctrS hqc2 hNW
                (hPc hmv) (by rw [hun])
            constructor
            · intro p hp hpne
              cases p with
              | nil => exact absurd rfl hpne
              | cons m p2 =>
                obtain ⟨t, ht⟩ := hp
                by_cases hmn : n = m
                · subst hmn
                  -- q starts with n; invoke the node IH on the child
                  have hq2ex : ∃ q2, q = n :: q2 ∧ p2 <+: q2 :=
                    ⟨p2 ++ t, by rw [← ht]; rfl, ⟨t, rfl⟩⟩
                  obtain ⟨q2, hq2, hp2⟩ := hq2ex
                  subst hq2
                  have hmarkedC : ∀ p3, p3 <+: q2 → hasDirtyAt (.dir ccs) p3 = true := by
                    intro p3 hp3
                    cases p3 with
                    | nil =>
                      have hmm := hmarked [n] ⟨q2, rfl⟩ (by simp)
                      rw [hasDirtyAt_dir_cons_q, FSList.find?_cons, if_pos rfl] at hmm
                      exact hmm
                    | cons a p4 =>
                      obtain ⟨t2, ht2⟩ := hp3
                      have hmm := hmarked (n :: a :: p4)
                        ⟨t2, by rw [List.cons_append, ht2]⟩ (by simp)
                      rw [hasDirtyAt_dir_cons_q, FSList.find?_cons, if_pos rfl] at hmm
                      exact hmm
                  have hChild := ihN cfg force (qc ++ [n]) ctr child2 trc sub ctrS hqc2
                    hNW (hPc hmv) hun q2
                    (fun x hx => hqvis x (List.mem_cons_of_mem _ hx)) hmarkedC
                  rw [hasDirtyAt_dir_cons_q, FSList.find?_cons, if_pos rfl]
                  exact hChild.1 p2 hp2
                · -- marked path lies in the tail
                  have hqhead : ∃ q2, q = m :: q2 :=
                    ⟨p2 ++ t, by rw [← ht]; rfl⟩
                  obtain ⟨q2, hq2⟩ := hqhead
                  have hmarkedR2 : ∀ p3, p3 <+: q → p3 ≠ [] →
                      hasDirtyAt (.dir rest) p3 = true := by
                    intro p3 hp3 hp3ne
                    have hmm := hmarked p3 hp3 hp3ne
                    cases p3 with
                    | nil => exact absurd rfl hp3ne
                    | cons a p4 =>
                      have hahead : a = m := by
                        obtain ⟨t3, ht3⟩ := hp3
                        rw [hq2] at ht3
                        have hhd := congrArg (fun l => l.head?) ht3
                        simpa using hhd
                      have han : n ≠ a := by rw [hahead]; exact hmn
                      rw [hasDirtyAt_dir_cons_q, FSList.find?_cons, if_neg han] at hmm
                      rw [hasDirtyAt_dir_cons_q]
                      exact hmm
                  have hrec := ihL cfg force qc
                    (Cache.addSubCache { cache with
                      files := setAdd cache.files (mkAbs (qc ++ [n])) } sub) ctrS
                    rest2 tr2 cache2 ctr2 hqc hrestnames hndrest hRW hPr
                    (by rw [hur, h3]) q hqvis hmarkedR2
                  rw [hasDirtyAt_dir_cons_q, FSList.find?_cons, if_neg hmn]
                  have hx := hrec.1 (m :: p2) ⟨t, ht⟩ (by simp)
                  rw [hasDirtyAt_dir_cons_q] at hx
                  exact hx
            · intro fname s mt hgf hvf hget
              cases q with
              | nil =>
                by_cases hfn : n = fname
                · exfalso
                  subst hfn
                  have hg2 : (match (FSList.cons n (FSNode.dir ccs) rest).find? n with
                      | some c => getNode c [] | none => none)
                      = some (.file (.text s) mt) := hget
                  rw [FSList.find?_cons, if_pos rfl] at hg2
                  have hg3 : some (FSNode.dir ccs) = some (.file (.text s) mt) := hg2
                  injection hg3 with hg4
                  exact FSNode.noConfusion hg4
                · have hmarkedR2 : ∀ p3, p3 <+: ([] : List Name) → p3 ≠ [] →
                      hasDirtyAt (.dir rest) p3 = true := by
                    intro p3 hp3 hp3ne
                    rw [List.prefix_nil] at hp3
                    exact absurd hp3 hp3ne
                  have hrec := ihL cfg force qc
                    (Cache.addSubCache { cache with
                      files := setAdd cache.files (mkAbs (qc ++ [n])) } sub) ctrS
                    rest2 tr2 cache2 ctr2 hqc hrestnames hndrest hRW hPr
                    (by rw [hur, h3]) [] hqvis hmarkedR2
                  refine hrec.2 fname s mt hgf hvf ?_
                  have hg2 : (match (FSList.cons n (FSNode.dir ccs) rest).find? fname with
                      | some c => getNode c [] | none => none)
                      = some (.file (.text s) mt) := hget
                  rw [FSList.find?_cons, if_neg hfn] at hg2
                  exact hg2
              | cons m q2 =>
                by_cases hmn : n = m
                · -- value produced by the child, merged upward, then framed
                  subst hmn
                  have hmarkedC : ∀ p3, p3 <+: q2 → hasDirtyAt (.dir ccs) p3 = true := by
                    intro p3 hp3
                    cases p3 with
                    | nil =>
                      have hmm := hmarked [n] ⟨q2, rfl⟩ (by simp)
                      rw [hasDirtyAt_dir_cons_q, FSList.find?_cons, if_pos rfl] at hmm
                      exact hmm
                    | cons a p4 =>
                      obtain ⟨t2, ht2⟩ := hp3
                      have hmm := hmarked (n :: a :: p4)
                        ⟨t2, by rw [List.cons_append, ht2]⟩ (by simp)
                      rw [hasDirtyAt_dir_cons_q, FSList.find?_cons, if_pos rfl] at hmm
                      exact hmm
                  have hvisq2 : ∀ x ∈ q2, goodName x ∧ hiddenName x = false :=
                    fun x hx => hqvis x (List.mem_cons_of_mem _ hx)
                  have hChild := ihN cfg force (qc ++ [n]) ctr child2 trc sub ctrS hqc2
                    hNW (hPc hmv) hun q2 hvisq2 hmarkedC
                  have hg2 : (match (FSList.cons n (FSNode.dir ccs) rest).find? n with
                      | some c => getNode c (q2 ++ [fname]) | none => none)
                      = some (.file (.text s) mt) := hget
                  rw [FSList.find?_cons, if_pos rfl] at hg2
                  have hBc := hChild.2 fname s mt hgf hvf hg2
                  have hKey : mkAbs ((qc ++ [n]) ++ q2 ++ [fname])
                      = mkAbs (qc ++ (n :: q2) ++ [fname]) := by
                    rw [List.append_assoc qc [n] q2]
                    rfl
                  have hgoodK : goodNames (qc ++ (n :: q2) ++ [fname]) := by
                    refine goodNames_append _ [fname]
                      (goodNames_append qc (n :: q2) hqc ?_)
                      (goodNames_singleton fname hgf)
                    intro x hx
                    rcases List.mem_cons.1 hx with h4 | h5
                    · exact h4 ▸ hgn
                    · exact (hvisq2 x h5).1
                  have hdisjK : ∀ n2, n2 ∈ rest.names → ∀ m2, goodNames (n2 :: m2) →
                      mkAbs (qc ++ (n :: q2) ++ [fname]) ≠ mkAbs (qc ++ n2 :: m2) := by
                    intro n2 hn2 m2 hg2b heq
                    have hinj := mkAbs_inj (qc ++ (n :: q2) ++ [fname]) (qc ++ n2 :: m2)
                      hgoodK (goodNames_append qc (n2 :: m2) hqc hg2b)
                      heq
                    rw [List.append_assoc qc (n :: q2) [fname]] at hinj
                    have h7 := List.append_cancel_left hinj
                    have h8 : n = n2 := by
                      injection h7 with hx1 hx2
                    exact hnnotin (h8 ▸ hn2)
                  have hframe := updateChildren_frame cfg force qc rest
                    (Cache.addSubCache { cache with
                      files := setAdd cache.files (mkAbs (qc ++ [n])) } sub) ctrS
                    rest2 tr2 cache2 ctr2 (mkAbs (qc ++ (n :: q2) ++ [fname]))
                    hqc hrestnames hRW hPr hdisjK (by rw [hur, h3])
                  constructor
                  · intro hmem
                    rw [hframe.1]
                    have hval := hBc.1 hmem
                    rw [hKey] at hval
                    exact lookup_dictUpdate_of_lookup sub.data _ _ _ hSub.2.1 hval
                  · intro hmem
                    rw [hframe.2]
                    have hval := hBc.2 hmem
                    rw [hKey] at hval
                    exact lookup_dictUpdate_of_lookup sub.mtime _ _ _ hSub.2.2 hval
                · have hmarkedR2 : ∀ p3, p3 <+: (m :: q2) → p3 ≠ [] →
                      hasDirtyAt (.dir rest) p3 = true := by
                    intro p3 hp3 hp3ne
                    have hmm := hmarked p3 hp3 hp3ne
                    cases p3 with
                    | nil => exact absurd rfl hp3ne
                    | cons a p4 =>
                      have hahead : a = m := by
                        obtain ⟨t3, ht3⟩ := hp3
                        have hhd := congrArg (fun l => l.head?) ht3
                        simpa using hhd
                      have han : n ≠ a := by rw [hahead]; exact hmn
                      rw [hasDirtyAt_dir_cons_q, FSList.find?_cons, if_neg han] at hmm
                      rw [hasDirtyAt_dir_cons_q]
                      exact hmm
                  have hrec := ihL cfg force qc
                    (Cache.addSubCache { cache with
                      files := setAdd cache.files (mkAbs (qc ++ [n])) } sub) ctrS
                    rest2 tr2 cache2 ctr2 hqc hrestnames hndrest hRW hPr
                    (by rw [hur, h3]) (m :: q2) hqvis hmarkedR2
                  refine hrec.2 fname s mt hgf hvf ?_
                  have hg2 : (match (FSList.cons n (FSNode.dir ccs) rest).find? m with
                      | some c => getNode c (q2 ++ [fname]) | none => none)
                      = some (.file (.text s) mt) := hget
                  rw [FSList.find?_cons, if_neg hmn] at hg2
                  exact hg2

theorem uNodeUpd_all : ∀ node, UNodeUpd node :=
  FS.recN UNodeUpd UListUpd uNodeUpd_file uNodeUpd_dir uListUpd_nil uListUpd_cons

/-- C2: invalidation forces a rebuild that absorbs the markers.  If
`.dirty` markers sit at a visible directory `d` below the root and at every
ancestor up to the root (exactly what `mark_dirty` produces) then after a
successful `update(force=False)` of the root no marker remains at the root,
at `d`, or anywhere between, and for every file directly in `d` whose
filename is in the content (resp. mtime) allow-list the returned store's
`data` (resp. `mtime`) entry at the file's absolute path equals that file's
current content (resp. modification time).  Hypotheses: the tree is
well-formed (real directory listings: unique, valid entry names) and the
cache files already on disk are ones `update` itself could have written
(scoped below their directory, duplicate-free key lists). -/
theorem update_invalidation_C2 (node : FSNode) (cfg : Cfg) (qc : List Name)
    (ctr : Counters) (node2 : FSNode) (tr : List Ev) (cache : Cache)
    (ctr2 : Counters) (q : List Name)
    (hqc : goodNames qc)
    (hWF : NodeWF node)
    (hcaches : NodeCachesP ScopedND qc node)
    (hEQ : updateNode cfg false (mkAbs qc) qc node ctr = ⟨node2, tr, .ok (cache, ctr2)⟩)
    (hqvis : ∀ n ∈ q, goodName n ∧ hiddenName n = false)
    (hmarked : ∀ p, p <+: q → hasDirtyAt node p = true) :
    (∀ p, p <+: q → hasDirtyAt node2 p = false) ∧
    (∀ fname s mt, goodName fname → hiddenName fname = false →
      getNode node (q ++ [fname]) = some (.file (.text s) mt) →
      (fname ∈ cfg.contentNames →
        cache.data.lookup (mkAbs (qc ++ q ++ [fname])) = some s) ∧
      (fname ∈ cfg.mtimeNames →
        cache.mtime.lookup (mkAbs (qc ++ q ++ [fname])) = some mt)) :=
  uNodeUpd_all node cfg false qc ctr node2 tr cache ctr2 hqc hWF hcaches hEQ q hqvis hmarked

/-- Concrete run of the C2 theorem on `c2Tree` (markers at `/r` and
`/r/s`, allow-listed file `/r/s/b`): both markers are gone afterwards and
the store holds the file's current content and mtime. -/
theorem update_invalidation_C2_witness :
    hasDirtyAt c2Node2 [] = false ∧
    hasDirtyAt c2Node2 [['s']] = false ∧
    c2Cache.data.lookup (mkAbs ([['r']] ++ [['s']] ++ [['b']])) = some "new" ∧
    c2Cache.mtime.lookup (mkAbs ([['r']] ++ [['s']] ++ [['b']])) = some 7 := by
  have hWF : NodeWF c2Tree :=
    ⟨by decide, by decide, trivial, ⟨by decide, by decide, trivial, trivial, trivial⟩, trivial⟩
  have hcaches : NodeCachesP ScopedND [['r']] c2Tree :=
    ⟨fun c mt h => Option.noConfusion
        (show (none : Option FSNode) = some (FSNode.file (.pickle c) mt) from h),
      fun hf => Bool.noConfusion hf,
      fun _ => ⟨fun c mt h => Option.noConfusion
          (show (none : Option FSNode) = some (FSNode.file (.pickle c) mt) from h),
        fun hf => Bool.noConfusion hf,
        fun _ => trivial, trivial⟩,
      trivial⟩
  have hmarked : ∀ p, p <+: [['s']] → hasDirtyAt c2Tree p = true := by
    intro p hp
    obtain ⟨t, ht⟩ := hp
    cases p with
    | nil => decide
    | cons a p2 =>
      have h1 : a :: (p2 ++ t) = [['s']] := ht
      injection h1 with h2 h3
      have h4 : p2 = [] := by
        cases p2 with
        | nil => rfl
        | cons b p3 => exact absurd h3 (by simp)
      subst h2
      subst h4
      decide
  have hmain := update_invalidation_C2 c2Tree c2Cfg [['r']] ctrZero c2Node2 c2Tr
    c2Cache ⟨2, 1, 1⟩ [['s']] (by decide) hWF hcaches (by rfl) (by decide) hmarked
  refine ⟨hmain.1 [] List.nil_prefix, hmain.1 [['s']] (List.prefix_refl _), ?_, ?_⟩
  · exact (hmain.2 ['b'] "new" 7 (by decide) (by decide) (by rfl)).1 (by decide)
  · exact (hmain.2 ['b'] "new" 7 (by decide) (by decide) (by rfl)).2 (by decide)

end C2Main







